import Mathlib

/-!
Minesweeper: a shallow embedding of `script.js`

The class `Minesweeper` of `script.js` is embedded as a record of its fields and
its methods as functions on that record.  The document (DOM) writes of the
methods carry no game state and are left out.  What the browser owns on behalf
of the game, the set of interval timers that still fire, is part of the record.

Conventions.

* `this.board[row][col]` is `getCell board row col`; a property write on the cell
  object is `setCell` of the updated record.  An access outside the arrays is a
  `TypeError` in the source; the theorems below take their cells in bounds.
* `Math.floor(Math.random() * rows)` and the matching column draw are one entry
  of a list of draws handed to `placeMines`; the loop yields `none` when the
  list is used up before `mines` mines are placed.
* The recursion of `revealCell` is by fuel, `none` meaning the fuel ran out.
-/

set_option autoImplicit false

namespace Minesweeper

/-! ## Data model -/

/-- One board cell, the object literal built in `createBoard`. -/
structure Cell where
  isMine : Bool
  isRevealed : Bool
  isFlagged : Bool
  neighborCount : Nat
deriving DecidableEq, Repr

/-- The cell written by `createBoard`: every field false or zero. -/
def Cell.fresh : Cell :=
  { isMine := false, isRevealed := false, isFlagged := false, neighborCount := 0 }

instance : Inhabited Cell := ⟨Cell.fresh⟩

/-- The board, an array of rows of cells. -/
abbrev Board := List (List Cell)

/-- An entry of `this.difficulties`. -/
structure Difficulty where
  rows : Nat
  cols : Nat
  mines : Nat
deriving DecidableEq, Repr

/-- The keys of `this.difficulties`. -/
inductive DifficultyName where
  | easy
  | medium
  | hard
deriving DecidableEq, Repr

/-- The table `this.difficulties` set up by the constructor. -/
def difficulties : DifficultyName → Difficulty
  | .easy => { rows := 9, cols := 9, mines := 10 }
  | .medium => { rows := 16, cols := 16, mines := 40 }
  | .hard => { rows := 16, cols := 30, mines := 99 }

/-- The values of `this.gameState`. -/
inductive GameState where
  | ready
  | playing
  | won
  | lost
deriving DecidableEq, Repr

/-- The fields of a `Minesweeper` object.  `difficulty` is the entry
`this.difficulties[this.currentDifficulty]` that every method reads first;
`activeIntervals` and `nextIntervalId` are the browser's interval timers. -/
structure Game where
  difficulty : Difficulty
  board : Board
  gameState : GameState
  timer : Nat
  timerInterval : Option Nat
  firstClick : Bool
  flagsPlaced : Int
  activeIntervals : List Nat
  nextIntervalId : Nat
deriving DecidableEq, Repr

/-- Read of `board[row][col]`. -/
def getCell (b : Board) (row col : Nat) : Cell :=
  (b.getD row []).getD col default

/-- Write of the cell object at `board[row][col]`. -/
def setCell (b : Board) (row col : Nat) (cell : Cell) : Board :=
  b.set row ((b.getD row []).set col cell)

/-- The three values taken by `dr` and by `dc` in the neighbour loops. -/
def offsets : List Int := [-1, 0, 1]

/-! ## Methods -/

/-- Browser `clearInterval`: the interval with that handle stops firing;
`clearInterval(null)` does nothing. -/
def clearInterval (g : Game) : Option Nat → Game
  | none => g
  | some h => { g with activeIntervals := g.activeIntervals.filter (fun i => i != h) }

/-- Method `createBoard`: a new array of `rows` rows of `cols` fresh cells. -/
def createBoard (g : Game) : Game :=
  { g with board :=
      (List.range g.difficulty.rows).map fun _ =>
        (List.range g.difficulty.cols).map fun _ => Cell.fresh }

/-- Method `initializeGame` (its calls of `updateDisplay` and `renderBoard` and
its status texts only write to the document). -/
def initializeGame (g : Game) : Game :=
  let g1 : Game := { g with gameState := .ready, timer := 0, firstClick := true, flagsPlaced := 0 }
  let g2 : Game :=
    match g1.timerInterval with
    | some h => { clearInterval g1 (some h) with timerInterval := none }
    | none => g1
  createBoard g2

/-- The inner loops of `calculateNeighborCounts`: the number of mines among the
in-bounds cells `(row + dr, col + dc)`. -/
def countAdjacentMines (rows cols : Nat) (b : Board) (row col : Nat) : Nat :=
  offsets.foldl (fun count dr =>
    offsets.foldl (fun count dc =>
      let newRow : Int := (row : Int) + dr
      let newCol : Int := (col : Int) + dc
      if 0 ≤ newRow ∧ newRow < (rows : Int) ∧ 0 ≤ newCol ∧ newCol < (cols : Int) ∧
          (getCell b newRow.toNat newCol.toNat).isMine = true then count + 1 else count)
      count) 0

/-- Method `calculateNeighborCounts`. -/
def calculateNeighborCounts (g : Game) : Game :=
  let rows := g.difficulty.rows
  let cols := g.difficulty.cols
  { g with board :=
      (List.range rows).foldl (fun b row =>
        (List.range cols).foldl (fun b col =>
          if (getCell b row col).isMine = false then
            setCell b row col
              { getCell b row col with neighborCount := countAdjacentMines rows cols b row col }
          else b) b) g.board }

/-- The `while (minesPlaced < mines)` loop of `placeMines`, one draw per
iteration. -/
def placeMinesLoop (mines firstClickRow firstClickCol : Nat) :
    List (Nat × Nat) → Board → Nat → Option Board
  | draws, b, minesPlaced =>
    if minesPlaced < mines then
      match draws with
      | [] => none
      | (row, col) :: rest =>
        if (row = firstClickRow ∧ col = firstClickCol) ∨ (getCell b row col).isMine = true then
          placeMinesLoop mines firstClickRow firstClickCol rest b minesPlaced
        else
          placeMinesLoop mines firstClickRow firstClickCol rest
            (setCell b row col { getCell b row col with isMine := true }) (minesPlaced + 1)
    else some b

/-- Method `placeMines`. -/
def placeMines (draws : List (Nat × Nat)) (g : Game) (firstClickRow firstClickCol : Nat) :
    Option Game :=
  (placeMinesLoop g.difficulty.mines firstClickRow firstClickCol draws g.board 0).map
    fun b => calculateNeighborCounts { g with board := b }

/-- Method `gameOver` (the loop over the mines only adds a style class). -/
def gameOver (g : Game) : Game :=
  clearInterval { g with gameState := .lost } g.timerInterval

/-- Method `gameWon`. -/
def gameWon (g : Game) : Game :=
  let g1 := clearInterval { g with gameState := .won } g.timerInterval
  (List.range g1.difficulty.rows).foldl (fun g2 row =>
    (List.range g1.difficulty.cols).foldl (fun g3 col =>
      if (getCell g3.board row col).isMine = true ∧ (getCell g3.board row col).isFlagged = false then
        { g3 with
          board := setCell g3.board row col { getCell g3.board row col with isFlagged := true }
          flagsPlaced := g3.flagsPlaced + 1 }
      else g3) g2) g1

/-- The counting loops of `checkWinCondition`. -/
def revealedCount (g : Game) : Nat :=
  (List.range g.difficulty.rows).foldl (fun count row =>
    (List.range g.difficulty.cols).foldl (fun count col =>
      if (getCell g.board row col).isRevealed = true ∧ (getCell g.board row col).isMine = false then
        count + 1
      else count) count) 0

/-- Method `checkWinCondition`. -/
def checkWinCondition (g : Game) : Game :=
  let totalCells : Int := (g.difficulty.rows : Int) * (g.difficulty.cols : Int)
  if (revealedCount g : Int) = totalCells - (g.difficulty.mines : Int) then gameWon g else g

/-- Method `startTimer`: `setInterval` registers an interval under a new handle. -/
def startTimer (g : Game) : Game :=
  { g with
    timerInterval := some g.nextIntervalId
    activeIntervals := g.nextIntervalId :: g.activeIntervals
    nextIntervalId := g.nextIntervalId + 1 }

/-- Method `revealCell`, the recursion bounded by fuel. -/
def revealCellFuel : Nat → Game → Nat → Nat → Option Game
  | 0, _, _, _ => none
  | fuel + 1, g, row, col =>
    let cell := getCell g.board row col
    if cell.isRevealed = true ∨ cell.isFlagged = true then some g
    else
      let g1 : Game := { g with board := setCell g.board row col { cell with isRevealed := true } }
      if cell.isMine = true then some (gameOver g1)
      else if cell.neighborCount > 0 then some g1
      else
        offsets.foldl (fun acc dr =>
          offsets.foldl (fun acc dc =>
            acc.bind fun g2 =>
              let newRow : Int := (row : Int) + dr
              let newCol : Int := (col : Int) + dc
              if 0 ≤ newRow ∧ newRow < (g.difficulty.rows : Int) ∧
                  0 ≤ newCol ∧ newCol < (g.difficulty.cols : Int) then
                revealCellFuel fuel g2 newRow.toNat newCol.toNat
              else some g2) acc) (some g1)

/-- Method `revealCell`: a call nests at most once per cell of the grid. -/
def revealCell (g : Game) (row col : Nat) : Option Game :=
  revealCellFuel (g.difficulty.rows * g.difficulty.cols + 1) g row col

/-- Method `handleCellClick`. -/
def handleCellClick (draws : List (Nat × Nat)) (g : Game) (row col : Nat) : Option Game :=
  if g.gameState = .won ∨ g.gameState = .lost then some g
  else if (getCell g.board row col).isRevealed = true ∨ (getCell g.board row col).isFlagged = true then
    some g
  else
    (if g.firstClick = true then
        (placeMines draws g row col).map fun g1 =>
          startTimer { g1 with firstClick := false, gameState := .playing }
      else some g).bind fun g2 =>
    (revealCell g2 row col).map checkWinCondition

/-- Method `handleRightClick`. -/
def handleRightClick (g : Game) (row col : Nat) : Game :=
  if g.gameState = .won ∨ g.gameState = .lost then g
  else if (getCell g.board row col).isRevealed = true then g
  else if (getCell g.board row col).isFlagged = true then
    { g with
      board := setCell g.board row col { getCell g.board row col with isFlagged := false }
      flagsPlaced := g.flagsPlaced - 1 }
  else
    { g with
      board := setCell g.board row col { getCell g.board row col with isFlagged := true }
      flagsPlaced := g.flagsPlaced + 1 }

/-- The callback registered by `startTimer`, run when interval `h` fires. -/
def tick (g : Game) (h : Nat) : Game :=
  if h ∈ g.activeIntervals then { g with timer := g.timer + 1 } else g

/-- The constructor: the field initialisers followed by `initializeGame`, for
the table entry `d` selected as current difficulty. -/
def newGame (d : Difficulty) : Game :=
  initializeGame
    { difficulty := d, board := [], gameState := .ready, timer := 0, timerInterval := none,
      firstClick := true, flagsPlaced := 0, activeIntervals := [], nextIntervalId := 1 }

/-! ## Predicates and lists used to state the properties -/

/-- The board has `rows` rows of `cols` cells each. -/
def Dims (rows cols : Nat) (b : Board) : Prop :=
  b.length = rows ∧ ∀ r ∈ b, r.length = cols

instance (rows cols : Nat) (b : Board) : Decidable (Dims rows cols b) := by
  unfold Dims; infer_instance

/-- The board of the game has the dimensions of its difficulty. -/
def WellFormed (g : Game) : Prop :=
  Dims g.difficulty.rows g.difficulty.cols g.board

instance (g : Game) : Decidable (WellFormed g) := by
  unfold WellFormed; infer_instance

/-- The positions `(row, col)` in the order in which the loops
`for row < rows` / `for col < cols` visit them. -/
def gridCells (rows cols : Nat) : List (Nat × Nat) :=
  (List.range rows).flatMap fun r => (List.range cols).map fun c => (r, c)

/-- The pairs `(dr, dc)` in the order in which the neighbour loops visit them. -/
def offsetPairs : List (Int × Int) :=
  offsets.flatMap fun dr => offsets.map fun dc => (dr, dc)

/-- The positions `(row + dr, col + dc)` that pass the bounds test of the
neighbour loops, in loop order; `(row, col)` itself is among them. -/
def neighborCells (rows cols row col : Nat) : List (Nat × Nat) :=
  offsetPairs.filterMap fun d =>
    if 0 ≤ (row : Int) + d.1 ∧ (row : Int) + d.1 < (rows : Int) ∧
        0 ≤ (col : Int) + d.2 ∧ (col : Int) + d.2 < (cols : Int) then
      some (((row : Int) + d.1).toNat, ((col : Int) + d.2).toNat)
    else none

/-- Number of cells of the board that satisfy `p`. -/
def countCells (p : Cell → Bool) (b : Board) : Nat :=
  (b.map fun row => row.countP p).sum

/-- One iteration of the loop body of `calculateNeighborCounts`, at position `p`. -/
def neighborCountStep (rows cols : Nat) (b : Board) (p : Nat × Nat) : Board :=
  if (getCell b p.1 p.2).isMine = false then
    setCell b p.1 p.2
      { getCell b p.1 p.2 with neighborCount := countAdjacentMines rows cols b p.1 p.2 }
  else b

/-- Every draw is a pair `(Math.floor(u * rows), Math.floor(v * cols))` with
`u` and `v` in `[0, 1)`, hence a position of the grid. -/
def DrawsInRange (rows cols : Nat) (draws : List (Nat × Nat)) : Prop :=
  ∀ d ∈ draws, d.1 < rows ∧ d.2 < cols

instance (rows cols : Nat) (draws : List (Nat × Nat)) : Decidable (DrawsInRange rows cols draws) := by
  unfold DrawsInRange; infer_instance

/-- Cell `q` is one of the eight neighbours of cell `p`: another cell, at most
one row and one column away. -/
def Adjacent (p q : Nat × Nat) : Prop :=
  p ≠ q ∧ q.1 ≤ p.1 + 1 ∧ p.1 ≤ q.1 + 1 ∧ q.2 ≤ p.2 + 1 ∧ p.2 ≤ q.2 + 1

instance (p q : Nat × Nat) : Decidable (Adjacent p q) := by
  unfold Adjacent; infer_instance

/-- Number of mine cells among the in-bounds eight neighbours of `(row, col)`. -/
def adjacentMineCount (rows cols : Nat) (b : Board) (row col : Nat) : Nat :=
  ((gridCells rows cols).filter fun q =>
    decide (Adjacent (row, col) q) && (getCell b q.1 q.2).isMine).length

/-- A 3 x 3 difficulty with one mine, for the examples. -/
def tiny : Difficulty := { rows := 3, cols := 3, mines := 1 }

/-- The cell at `p` is hidden and carries no flag. -/
def IsOpen (b : Board) (p : Nat × Nat) : Prop :=
  (getCell b p.1 p.2).isRevealed = false ∧ (getCell b p.1 p.2).isFlagged = false

/-- The cell at `p` is hidden in `b` and revealed in `b'`. -/
def NewlyRevealed (b b' : Board) (p : Nat × Nat) : Prop :=
  (getCell b p.1 p.2).isRevealed = false ∧ (getCell b' p.1 p.2).isRevealed = true

/-- The cells a flood fill started at `s` gets to on board `b`: `s` when it is
open, and every open cell next to a reached cell that is no mine and has
`neighborCount = 0`. -/
inductive Flood (rows cols : Nat) (b : Board) (s : Nat × Nat) : Nat × Nat → Prop where
  | start : IsOpen b s → Flood rows cols b s s
  | expand {c n : Nat × Nat} : Flood rows cols b s c →
      (getCell b c.1 c.2).isMine = false → (getCell b c.1 c.2).neighborCount = 0 →
      n ∈ neighborCells rows cols c.1 c.2 → IsOpen b n → Flood rows cols b s n

/-- What a run of `revealCell` calls started one after the other at the cells
`starts` does to a game `g`, giving `g'`: only `isRevealed` of cells changes,
from false to true, on the cells of the flood fills, and the game is lost
exactly when `gameOver` ran, which takes a mine among the cells revealed. -/
structure Reveals (g : Game) (starts : List (Nat × Nat)) (g' : Game) : Prop where
  wellFormed : WellFormed g'
  difficulty : g'.difficulty = g.difficulty
  timer : g'.timer = g.timer
  timerInterval : g'.timerInterval = g.timerInterval
  firstClick : g'.firstClick = g.firstClick
  flagsPlaced : g'.flagsPlaced = g.flagsPlaced
  nextIntervalId : g'.nextIntervalId = g.nextIntervalId
  outcome : (g'.gameState = g.gameState ∧ g'.activeIntervals = g.activeIntervals) ∨
    (g'.gameState = .lost ∧ g'.activeIntervals = (gameOver g).activeIntervals ∧
      ∃ p, NewlyRevealed g.board g'.board p ∧ (getCell g.board p.1 p.2).isMine = true)
  cells : ∀ r c, getCell g'.board r c
    = { getCell g.board r c with isRevealed := (getCell g'.board r c).isRevealed }
  mono : ∀ r c, (getCell g.board r c).isRevealed = true → (getCell g'.board r c).isRevealed = true
  started : ∀ p ∈ starts,
    (getCell g'.board p.1 p.2).isRevealed = true ∨ (getCell g.board p.1 p.2).isFlagged = true
  sound : ∀ p, NewlyRevealed g.board g'.board p →
    ∃ s ∈ starts, Flood g.difficulty.rows g.difficulty.cols g.board s p
  closed : ∀ c, NewlyRevealed g.board g'.board c → (getCell g.board c.1 c.2).isMine = false →
    (getCell g.board c.1 c.2).neighborCount = 0 →
    ∀ n ∈ neighborCells g.difficulty.rows g.difficulty.cols c.1 c.2,
      (getCell g'.board n.1 n.2).isRevealed = true ∨ (getCell g.board n.1 n.2).isFlagged = true

/-- The board of `g` with the cell at `(row, col)` marked revealed, the first
write of `revealCell`. -/
def markRevealed (g : Game) (row col : Nat) : Game :=
  { g with board := setCell g.board row col { getCell g.board row col with isRevealed := true } }

/-- Number of grid cells already revealed, the progress measure of the flood
fill. -/
def revealedCells (g : Game) : Nat :=
  (gridCells g.difficulty.rows g.difficulty.cols).countP
    fun q => (getCell g.board q.1 q.2).isRevealed

instance (b : Board) (p : Nat × Nat) : Decidable (IsOpen b p) := by
  unfold IsOpen; infer_instance

instance (b b' : Board) (p : Nat × Nat) : Decidable (NewlyRevealed b b' p) := by
  unfold NewlyRevealed; infer_instance

/-- The neighbour counts of the board are consistent with its mines: every
in-bounds cell that is no mine carries the number of mines among its eight
neighbours. -/
def CountsConsistent (rows cols : Nat) (b : Board) : Prop :=
  ∀ r < rows, ∀ c < cols, (getCell b r c).isMine = false →
    (getCell b r c).neighborCount = adjacentMineCount rows cols b r c

instance (rows cols : Nat) (b : Board) : Decidable (CountsConsistent rows cols b) := by
  unfold CountsConsistent; infer_instance

/-- The two conditions on a set `S` of cells whose least solution the flood
fill from `s` reveals: `s` is in `S`, and when a cell `c` of `S` has
`neighborCount = 0`, every in-bounds eight-neighbour of `c` that is hidden and
unflagged on `b` is in `S`. -/
def FloodClosed (rows cols : Nat) (b : Board) (s : Nat × Nat) (S : Nat × Nat → Prop) : Prop :=
  S s ∧ ∀ c n, S c → (getCell b c.1 c.2).neighborCount = 0 → n.1 < rows → n.2 < cols →
    Adjacent c n → IsOpen b n → S n

/-- The 3 x 3 game with its mine at `(0, 0)` and the neighbour counts computed,
nothing revealed yet: the state inside a first click at `(2, 2)` just before
`revealCell` runs. -/
def tinyPlaced : Game :=
  startTimer
    { (placeMines [(0, 0)] (newGame tiny) 2 2).getD (newGame tiny) with
      firstClick := false, gameState := .playing }

/-- One iteration of the loop body of `gameWon`, at position `p`. -/
def autoFlagStep (g : Game) (p : Nat × Nat) : Game :=
  if (getCell g.board p.1 p.2).isMine = true ∧ (getCell g.board p.1 p.2).isFlagged = false then
    { g with
      board := setCell g.board p.1 p.2 { getCell g.board p.1 p.2 with isFlagged := true }
      flagsPlaced := g.flagsPlaced + 1 }
  else g

/-- The cell counts towards the win: revealed and no mine. -/
def Cell.isSafeRevealed (x : Cell) : Bool := x.isRevealed && !x.isMine

/-- Number of mine cells on the grid. -/
def mineCells (g : Game) : Nat :=
  (gridCells g.difficulty.rows g.difficulty.cols).countP fun q => (getCell g.board q.1 q.2).isMine

/-- The states a session can be in: the state the constructor leaves, and from
there any left click and right click on a cell of the rendered grid, any
new-game or difficulty request (`initializeGame` after the difficulty is set)
and any firing of an interval timer. -/
inductive Reachable : Game → Prop where
  | init (d : Difficulty) : Reachable (newGame d)
  | leftClick {g g' : Game} (draws : List (Nat × Nat)) (row col : Nat) :
      Reachable g → row < g.difficulty.rows → col < g.difficulty.cols →
      DrawsInRange g.difficulty.rows g.difficulty.cols draws →
      handleCellClick draws g row col = some g' → Reachable g'
  | rightClick {g : Game} (row col : Nat) :
      Reachable g → row < g.difficulty.rows → col < g.difficulty.cols →
      Reachable (handleRightClick g row col)
  | newGameRequest {g : Game} (d : Difficulty) :
      Reachable g → Reachable (initializeGame { g with difficulty := d })
  | timerTick {g : Game} (h : Nat) : Reachable g → Reachable (tick g h)

/-- What holds of a game while it is being played: mines are placed, exactly
`mines` of them, the neighbour counts are consistent with them, and the safe
cells are not all revealed yet. -/
structure InPlay (g : Game) : Prop where
  firstClick : g.firstClick = false
  mines : mineCells g = g.difficulty.mines
  counts : CountsConsistent g.difficulty.rows g.difficulty.cols g.board
  unfinished : (revealedCount g : Int)
    < (g.difficulty.rows : Int) * (g.difficulty.cols : Int) - (g.difficulty.mines : Int)

/-- Invariant of the reachable states. -/
structure SessionInv (g : Game) : Prop where
  wellFormed : WellFormed g
  ready : g.gameState = .ready → g.firstClick = true ∧
    ∀ r c, getCell g.board r c = { Cell.fresh with isFlagged := (getCell g.board r c).isFlagged }
  playing : g.gameState = .playing → InPlay g

/-- The 3 x 3 game with every safe cell revealed by `revealCell` at `(2, 2)`,
before `checkWinCondition` has run. -/
def tinyRevealed : Game := (revealCell tinyPlaced 2 2).getD tinyPlaced

/-- The 3 x 3 game after a first click at `(2, 2)` whose draw put the mine at
the centre `(1, 1)`: playing, only `(2, 2)` revealed. -/
def tinyCentre : Game := (handleCellClick [(1, 1)] (newGame tiny) 2 2).getD (newGame tiny)

/-- The 3 x 3 game lost by a click on the mine at the centre. -/
def tinyLost : Game := (handleCellClick [] tinyCentre 1 1).getD tinyCentre

/-- The fresh 3 x 3 game with a flag on `(0, 0)`. -/
def tinyFlagged : Game := handleRightClick (newGame tiny) 0 0

/-- Number of flagged cells on the grid. -/
def flaggedCells (g : Game) : Nat :=
  (gridCells g.difficulty.rows g.difficulty.cols).countP
    fun q => (getCell g.board q.1 q.2).isFlagged

/-- The full invariant of the reachable states: the session invariant, no cell
both revealed and flagged, the flag counter equal to the number of flags, the
interval timer registered exactly while playing, no mine revealed while
playing, and in a won game the flags exactly on the mines. -/
structure GameInv (g : Game) : Prop where
  session : SessionInv g
  revealedUnflagged : ∀ r c, (getCell g.board r c).isRevealed = true →
    (getCell g.board r c).isFlagged = false
  flags : g.flagsPlaced = (flaggedCells g : Int)
  timerOn : g.gameState = .playing →
    ∃ h, g.timerInterval = some h ∧ g.activeIntervals = [h]
  timerOff : g.gameState ≠ .playing → g.activeIntervals = []
  minesHidden : g.gameState = .playing →
    ∀ r c, (getCell g.board r c).isMine = true → (getCell g.board r c).isRevealed = false
  won : g.gameState = .won → mineCells g = g.difficulty.mines ∧
    ∀ r c, (getCell g.board r c).isFlagged = (getCell g.board r c).isMine

/-- The state in which a click runs `revealCell`, and what holds of it. -/
structure Prepared (g1 : Game) (row col : Nat) : Prop where
  wellFormed : WellFormed g1
  row_lt : row < g1.difficulty.rows
  col_lt : col < g1.difficulty.cols
  playing : g1.gameState = .playing
  firstClick : g1.firstClick = false
  mines : mineCells g1 = g1.difficulty.mines
  counts : CountsConsistent g1.difficulty.rows g1.difficulty.cols g1.board
  isOpen : IsOpen g1.board (row, col)
  revealedUnflagged : ∀ r c, (getCell g1.board r c).isRevealed = true →
    (getCell g1.board r c).isFlagged = false
  flags : g1.flagsPlaced = (flaggedCells g1 : Int)
  timerOn : ∃ h, g1.timerInterval = some h ∧ g1.activeIntervals = [h]
  minesHidden : ∀ r c, (getCell g1.board r c).isMine = true →
    (getCell g1.board r c).isRevealed = false
  unfinished : (getCell g1.board row col).isMine = true →
    (revealedCount g1 : Int)
      < (g1.difficulty.rows : Int) * (g1.difficulty.cols : Int) - (g1.difficulty.mines : Int)

/-- Method `revealCell` with a log: next to the game it returns the cells on
which the write `cell.isRevealed = true` ran, in the order of the writes. -/
def revealCellLog : Nat → Game → Nat → Nat → Option (Game × List (Nat × Nat))
  | 0, _, _, _ => none
  | fuel + 1, g, row, col =>
    let cell := getCell g.board row col
    if cell.isRevealed = true ∨ cell.isFlagged = true then some (g, [])
    else
      let g1 : Game := { g with board := setCell g.board row col { cell with isRevealed := true } }
      if cell.isMine = true then some (gameOver g1, [(row, col)])
      else if cell.neighborCount > 0 then some (g1, [(row, col)])
      else
        offsets.foldl (fun acc dr =>
          offsets.foldl (fun acc dc =>
            acc.bind fun st =>
              let newRow : Int := (row : Int) + dr
              let newCol : Int := (col : Int) + dc
              if 0 ≤ newRow ∧ newRow < (g.difficulty.rows : Int) ∧
                  0 ≤ newCol ∧ newCol < (g.difficulty.cols : Int) then
                (revealCellLog fuel st.1 newRow.toNat newCol.toNat).map
                  fun res => (res.1, st.2 ++ res.2)
              else some st) acc) (some (g1, [(row, col)]))

/-- Number of grid cells not revealed yet. -/
def hiddenCells (g : Game) : Nat :=
  (gridCells g.difficulty.rows g.difficulty.cols).countP
    fun q => !(getCell g.board q.1 q.2).isRevealed

/-- The 3 x 3 game won by a first click at `(2, 2)`, the mine drawn at `(0, 0)`. -/
def tinyWon : Game := (handleCellClick [(0, 0)] (newGame tiny) 2 2).getD (newGame tiny)

/-- The 3 x 3 game with the mine at the centre after a second, safe click at
`(0, 0)`. -/
def tinySecond : Game := (handleCellClick [] tinyCentre 0 0).getD tinyCentre

/-! ## Board access -/

theorem getCell_setCell_ne (b : Board) (r c r' c' : Nat) (x : Cell)
    (h : ¬ (r' = r ∧ c' = c)) : getCell (setCell b r c x) r' c' = getCell b r' c' := by
  unfold getCell setCell
  by_cases hr : r' = r
  · subst hr
    have hc : c' ≠ c := fun e => h ⟨rfl, e⟩
    by_cases hlt : r' < b.length
    · simp [List.getD_eq_getElem?_getD, List.getElem?_set, hlt, Ne.symm hc]
    · rw [List.set_eq_of_length_le (by omega)]
  · simp [List.getD_eq_getElem?_getD, List.getElem?_set, Ne.symm hr]

theorem getCell_setCell_self {rows cols : Nat} {b : Board} (hd : Dims rows cols b)
    {r c : Nat} (hr : r < rows) (hc : c < cols) (x : Cell) :
    getCell (setCell b r c x) r c = x := by
  obtain ⟨hl, hrow⟩ := hd
  have hrl : r < b.length := by omega
  have hcl : c < (b[r]).length := by
    rw [hrow _ (List.getElem_mem _)]; exact hc
  unfold getCell setCell
  simp [List.getD_eq_getElem?_getD, List.getElem?_set, hrl, hcl]

theorem setCell_of_length_le (b : Board) {r : Nat} (c : Nat) (x : Cell) (h : b.length ≤ r) :
    setCell b r c x = b := by
  unfold setCell
  exact List.set_eq_of_length_le h

theorem Dims.setCell {rows cols : Nat} {b : Board} (hd : Dims rows cols b)
    (r c : Nat) (x : Cell) : Dims rows cols (setCell b r c x) := by
  by_cases hlt : r < b.length
  · obtain ⟨hl, hrow⟩ := hd
    refine ⟨by simp [Minesweeper.setCell, hl], ?_⟩
    intro row hmem
    unfold Minesweeper.setCell at hmem
    rcases List.mem_or_eq_of_mem_set hmem with h | h
    · exact hrow _ h
    · subst h
      rw [List.length_set]
      simp [List.getD_eq_getElem?_getD, hlt]
      exact hrow _ (List.getElem_mem _)
  · rw [setCell_of_length_le b c x (by omega)]; exact hd

theorem getCell_default_of_not_lt {rows cols : Nat} {b : Board} (hd : Dims rows cols b)
    {r c : Nat} (h : ¬ (r < rows ∧ c < cols)) : getCell b r c = default := by
  obtain ⟨hl, hrow⟩ := hd
  unfold getCell
  by_cases hr : r < b.length
  · have hc : ¬ c < cols := fun hc => h ⟨by omega, hc⟩
    have : (b[r]).length = cols := hrow _ (List.getElem_mem _)
    simp [List.getD_eq_getElem?_getD, hr]
    rw [List.getElem?_eq_none (by omega)]; rfl
  · have : b[r]? = none := List.getElem?_eq_none (by omega)
    simp [List.getD_eq_getElem?_getD, this]
/-! ## Loops as folds over position lists -/

theorem foldl_flatMap {α β γ : Type} (f : γ → β → γ) (g : α → List β) (l : List α) (init : γ) :
    (l.flatMap g).foldl f init = l.foldl (fun a x => (g x).foldl f a) init := by
  induction l generalizing init with
  | nil => rfl
  | cons x xs ih => simp [List.flatMap_cons, List.foldl_append, ih]

theorem foldl_grid {γ : Type} (f : γ → Nat → Nat → γ) (rows cols : Nat) (init : γ) :
    (List.range rows).foldl (fun a r => (List.range cols).foldl (fun a c => f a r c) a) init
      = (gridCells rows cols).foldl (fun a p => f a p.1 p.2) init := by
  unfold gridCells
  rw [foldl_flatMap]
  simp [List.foldl_map]

theorem foldl_offsets {γ : Type} (f : γ → Int → Int → γ) (init : γ) :
    offsets.foldl (fun a dr => offsets.foldl (fun a dc => f a dr dc) a) init
      = offsetPairs.foldl (fun a d => f a d.1 d.2) init := by
  unfold offsetPairs
  rw [foldl_flatMap]
  simp [List.foldl_map]

theorem foldl_filterMap' {α β γ : Type} (f : α → Option β) (g : γ → β → γ) (l : List α)
    (init : γ) :
    (l.filterMap f).foldl g init
      = l.foldl (fun a x => match f x with | some y => g a y | none => a) init := by
  induction l generalizing init with
  | nil => rfl
  | cons x xs ih =>
    cases h : f x <;> simp [List.filterMap_cons, h, ih]

theorem foldl_count {α : Type} (p : α → Bool) (l : List α) (init : Nat) :
    l.foldl (fun n x => if p x = true then n + 1 else n) init = init + l.countP p := by
  induction l generalizing init with
  | nil => simp
  | cons x xs ih =>
    rw [List.foldl_cons, ih, List.countP_cons]
    split <;> omega

theorem mem_gridCells {rows cols : Nat} {p : Nat × Nat} :
    p ∈ gridCells rows cols ↔ p.1 < rows ∧ p.2 < cols := by
  unfold gridCells
  simp only [List.mem_flatMap, List.mem_map, List.mem_range]
  constructor
  · rintro ⟨r, hr, c, hc, rfl⟩; exact ⟨hr, hc⟩
  · rintro ⟨hr, hc⟩; exact ⟨p.1, hr, p.2, hc, rfl⟩

theorem nodup_gridCells (rows cols : Nat) : (gridCells rows cols).Nodup := by
  unfold gridCells
  rw [List.nodup_flatMap]
  refine ⟨fun r _ => (List.nodup_range cols).map (fun a b h => by simpa using h), ?_⟩
  refine (List.nodup_range rows).imp ?_
  intro a b hab
  simp only [Function.onFun, List.Disjoint, List.mem_map]
  rintro ⟨x, y⟩ ⟨c, _, hc⟩ ⟨c', _, hc'⟩
  simp only [Prod.mk.injEq] at hc hc'
  exact hab (hc.1.trans hc'.1.symm)

theorem length_gridCells (rows cols : Nat) : (gridCells rows cols).length = rows * cols := by
  unfold gridCells
  simp [List.length_flatMap, Function.comp_def]

theorem mem_offsetPairs {d : Int × Int} :
    d ∈ offsetPairs ↔ (-1 ≤ d.1 ∧ d.1 ≤ 1) ∧ (-1 ≤ d.2 ∧ d.2 ≤ 1) := by
  obtain ⟨a, b⟩ := d
  simp only [offsetPairs, offsets, List.mem_flatMap, List.mem_map, List.mem_cons,
    List.mem_singleton, List.not_mem_nil, or_false, Prod.mk.injEq]
  constructor
  · rintro ⟨x, hx, y, hy, rfl, rfl⟩; omega
  · rintro ⟨h1, h2⟩
    exact ⟨a, by omega, b, by omega, rfl, rfl⟩

theorem mem_neighborCells {rows cols row col : Nat} {p : Nat × Nat} :
    p ∈ neighborCells rows cols row col ↔
      p.1 < rows ∧ p.2 < cols ∧ p.1 ≤ row + 1 ∧ row ≤ p.1 + 1 ∧ p.2 ≤ col + 1 ∧ col ≤ p.2 + 1 := by
  obtain ⟨a, b⟩ := p
  unfold neighborCells
  simp only [List.mem_filterMap, mem_offsetPairs]
  constructor
  · rintro ⟨⟨dr, dc⟩, hd, h⟩
    split at h
    · simp only [Option.some.injEq, Prod.mk.injEq] at h
      simp only at hd
      omega
    · simp at h
  · rintro h
    refine ⟨((a : Int) - row, (b : Int) - col), by simp only; omega, ?_⟩
    rw [if_pos (by simp only; omega)]
    simp only [Option.some.injEq, Prod.mk.injEq]
    omega

theorem nodup_neighborCells (rows cols row col : Nat) :
    (neighborCells rows cols row col).Nodup := by
  unfold neighborCells
  refine List.Nodup.filterMap ?_ (by decide)
  rintro ⟨a, b⟩ ⟨a', b'⟩ q h h'
  simp only [Option.mem_def] at h h'
  split at h <;> split at h' <;> simp only [Option.some.injEq, reduceCtorEq] at h h'
  subst h
  simp only [Prod.mk.injEq] at h'
  simp only [Prod.mk.injEq]
  omega

theorem length_neighborCells_le (rows cols row col : Nat) :
    (neighborCells rows cols row col).length ≤ 9 :=
  (List.length_filterMap_le _ _).trans (by decide)
theorem getCell_setCell_self_or (b : Board) (r c : Nat) (x : Cell) :
    getCell (setCell b r c x) r c = x ∨ getCell (setCell b r c x) r c = getCell b r c := by
  by_cases hr : r < b.length
  · by_cases hc : c < (b[r]).length
    · left
      unfold getCell setCell
      simp [List.getD_eq_getElem?_getD, List.getElem?_set, hr, hc]
    · right
      unfold getCell setCell
      simp [List.getD_eq_getElem?_getD, List.getElem?_set, hr, hc]
      rw [List.getElem?_eq_none (by omega)]; rfl
  · right
    rw [setCell_of_length_le b c x (by omega)]

theorem dims_createBoard (g : Game) :
    Dims g.difficulty.rows g.difficulty.cols (createBoard g).board := by
  unfold createBoard Dims
  simp

theorem getCell_createBoard (g : Game) (r c : Nat) :
    getCell (createBoard g).board r c = Cell.fresh := by
  unfold createBoard getCell
  simp only [List.getD_eq_getElem?_getD, List.getElem?_map]
  by_cases hr : r < g.difficulty.rows
  · rw [List.getElem?_range hr]
    simp only [Option.map_some', Option.getD_some, List.getElem?_map]
    by_cases hc : c < g.difficulty.cols
    · rw [List.getElem?_range hc]; rfl
    · rw [List.getElem?_eq_none (by simpa using hc)]; rfl
  · have : (List.range g.difficulty.rows)[r]? = none := List.getElem?_eq_none (by simpa using hr)
    rw [this]; rfl

/-! ## Counting -/

theorem countAdjacentMines_eq (rows cols : Nat) (b : Board) (row col : Nat) :
    countAdjacentMines rows cols b row col
      = (neighborCells rows cols row col).countP fun p => (getCell b p.1 p.2).isMine := by
  unfold countAdjacentMines neighborCells
  rw [foldl_offsets (fun count dr dc =>
      if 0 ≤ (row : Int) + dr ∧ (row : Int) + dr < (rows : Int) ∧ 0 ≤ (col : Int) + dc ∧
          (col : Int) + dc < (cols : Int) ∧
          (getCell b ((row : Int) + dr).toNat ((col : Int) + dc).toNat).isMine = true
      then count + 1 else count)]
  rw [List.countP_eq_length_filter, List.filter_filterMap]
  generalize offsetPairs = l
  have key : ∀ (init : Nat), l.foldl (fun a (d : Int × Int) =>
      if 0 ≤ (row : Int) + d.1 ∧ (row : Int) + d.1 < (rows : Int) ∧ 0 ≤ (col : Int) + d.2 ∧
          (col : Int) + d.2 < (cols : Int) ∧
          (getCell b ((row : Int) + d.1).toNat ((col : Int) + d.2).toNat).isMine = true
      then a + 1 else a) init = init + (l.filterMap fun d =>
        Option.filter (fun p => (getCell b p.1 p.2).isMine)
          (if 0 ≤ (row : Int) + d.1 ∧ (row : Int) + d.1 < (rows : Int) ∧
            0 ≤ (col : Int) + d.2 ∧ (col : Int) + d.2 < (cols : Int) then
            some (((row : Int) + d.1).toNat, ((col : Int) + d.2).toNat)
          else none)).length := by
    induction l with
    | nil => intro init; simp
    | cons d ds ih =>
      intro init
      rw [List.foldl_cons, ih, List.filterMap_cons]
      by_cases hb : 0 ≤ (row : Int) + d.1 ∧ (row : Int) + d.1 < (rows : Int) ∧
          0 ≤ (col : Int) + d.2 ∧ (col : Int) + d.2 < (cols : Int)
      · by_cases hm : (getCell b ((row : Int) + d.1).toNat ((col : Int) + d.2).toNat).isMine = true
        · rw [if_pos (by tauto), if_pos hb]
          simp [Option.filter, hm]; omega
        · rw [if_neg (by tauto), if_pos hb]
          simp [Option.filter, hm]
      · rw [if_neg (by tauto), if_neg hb]
        simp [Option.filter]
  simpa using key 0

theorem revealedCount_eq (g : Game) :
    revealedCount g = (gridCells g.difficulty.rows g.difficulty.cols).countP fun p =>
      (getCell g.board p.1 p.2).isRevealed && !(getCell g.board p.1 p.2).isMine := by
  unfold revealedCount
  rw [foldl_grid (fun count row col =>
      if (getCell g.board row col).isRevealed = true ∧ (getCell g.board row col).isMine = false
      then count + 1 else count)]
  have := foldl_count (fun p : Nat × Nat =>
      (getCell g.board p.1 p.2).isRevealed && !(getCell g.board p.1 p.2).isMine)
      (gridCells g.difficulty.rows g.difficulty.cols) 0
  simp only [Bool.and_eq_true, Bool.not_eq_true', Nat.zero_add] at this
  exact this

theorem map_getCell_row {rows cols : Nat} {b : Board} (hd : Dims rows cols b) {r : Nat}
    (hr : r < rows) : (List.range cols).map (fun c => getCell b r c) = b.getD r [] := by
  obtain ⟨hl, hrow⟩ := hd
  have hrl : r < b.length := by omega
  have hlen : (b[r]).length = cols := hrow _ (List.getElem_mem _)
  apply List.ext_getElem
  · simp [List.getD_eq_getElem?_getD, hrl, hlen]
  · intro n h1 h2
    simp [getCell, List.getD_eq_getElem?_getD, hrl] at h1 h2 ⊢
    rw [List.getElem?_eq_getElem h2]; rfl

theorem map_getD_range (b : Board) : (List.range b.length).map (fun r => b.getD r []) = b := by
  apply List.ext_getElem
  · simp
  · intro n h1 h2
    simp [List.getD_eq_getElem?_getD, List.getElem?_eq_getElem h2]

theorem countP_grid_eq_countCells {rows cols : Nat} {b : Board} (hd : Dims rows cols b)
    (p : Cell → Bool) :
    (gridCells rows cols).countP (fun q => p (getCell b q.1 q.2)) = countCells p b := by
  unfold gridCells countCells
  rw [List.countP_flatMap]
  conv_rhs => rw [← map_getD_range b, List.map_map]
  rw [hd.1]
  apply congrArg
  apply List.map_congr_left
  intro r hr
  rw [List.mem_range] at hr
  simp only [Function.comp_apply]
  rw [← map_getCell_row hd hr, List.countP_map, List.countP_map]
  rfl


/-! ## `calculateNeighborCounts` -/

theorem countAdjacentMines_congr (rows cols : Nat) {b b' : Board}
    (h : ∀ r c, (getCell b' r c).isMine = (getCell b r c).isMine) (row col : Nat) :
    countAdjacentMines rows cols b' row col = countAdjacentMines rows cols b row col := by
  rw [countAdjacentMines_eq, countAdjacentMines_eq]
  apply List.countP_congr
  intro p _
  rw [h]

theorem calculateNeighborCounts_board (g : Game) :
    (calculateNeighborCounts g).board
      = (gridCells g.difficulty.rows g.difficulty.cols).foldl
          (neighborCountStep g.difficulty.rows g.difficulty.cols) g.board := by
  unfold calculateNeighborCounts
  simp only
  rw [foldl_grid (fun b row col =>
      if (getCell b row col).isMine = false then
        setCell b row col
          { getCell b row col with
            neighborCount := countAdjacentMines g.difficulty.rows g.difficulty.cols b row col }
      else b)]
  rfl

theorem neighborCountStep_spec {rows cols : Nat} {b : Board} (hd : Dims rows cols b)
    (p : Nat × Nat) (hp : p.1 < rows ∧ p.2 < cols) :
    Dims rows cols (neighborCountStep rows cols b p) ∧
    ∀ r c,
      (getCell (neighborCountStep rows cols b p) r c).isMine = (getCell b r c).isMine ∧
      (getCell (neighborCountStep rows cols b p) r c).isRevealed = (getCell b r c).isRevealed ∧
      (getCell (neighborCountStep rows cols b p) r c).isFlagged = (getCell b r c).isFlagged ∧
      (getCell (neighborCountStep rows cols b p) r c).neighborCount =
        if (r, c) = p ∧ (getCell b r c).isMine = false then countAdjacentMines rows cols b r c
        else (getCell b r c).neighborCount := by
  unfold neighborCountStep
  by_cases hm : (getCell b p.1 p.2).isMine = false
  · rw [if_pos hm]
    refine ⟨hd.setCell _ _ _, fun r c => ?_⟩
    by_cases he : (r, c) = p
    · subst he
      rw [getCell_setCell_self hd hp.1 hp.2]
      simp [hm]
    · have : ¬ (r = p.1 ∧ c = p.2) := fun h => he (Prod.ext h.1 h.2)
      rw [getCell_setCell_ne _ _ _ _ _ _ this]
      simp [he]
  · rw [if_neg hm]
    refine ⟨hd, fun r c => ⟨rfl, rfl, rfl, ?_⟩⟩
    by_cases he : (r, c) = p
    · subst he
      simp [hm]
    · simp [he]

theorem foldl_neighborCountStep {rows cols : Nat} (l : List (Nat × Nat))
    (hl : ∀ p ∈ l, p.1 < rows ∧ p.2 < cols) {b : Board} (hd : Dims rows cols b) :
    Dims rows cols (l.foldl (neighborCountStep rows cols) b) ∧
    ∀ r c,
      (getCell (l.foldl (neighborCountStep rows cols) b) r c).isMine = (getCell b r c).isMine ∧
      (getCell (l.foldl (neighborCountStep rows cols) b) r c).isRevealed
        = (getCell b r c).isRevealed ∧
      (getCell (l.foldl (neighborCountStep rows cols) b) r c).isFlagged
        = (getCell b r c).isFlagged ∧
      (getCell (l.foldl (neighborCountStep rows cols) b) r c).neighborCount =
        if (r, c) ∈ l ∧ (getCell b r c).isMine = false then countAdjacentMines rows cols b r c
        else (getCell b r c).neighborCount := by
  induction l generalizing b with
  | nil => exact ⟨hd, fun r c => by simp⟩
  | cons p ps ih =>
    obtain ⟨hd1, h1⟩ := neighborCountStep_spec hd p (hl p (List.mem_cons_self _ _))
    obtain ⟨hd2, h2⟩ := ih (fun q hq => hl q (List.mem_cons_of_mem _ hq)) hd1
    refine ⟨hd2, fun r c => ?_⟩
    obtain ⟨a1, a2, a3, a4⟩ := h1 r c
    obtain ⟨b1, b2, b3, b4⟩ := h2 r c
    rw [List.foldl_cons]
    refine ⟨b1.trans a1, b2.trans a2, b3.trans a3, ?_⟩
    rw [b4, a1, a4, countAdjacentMines_congr rows cols (fun r c => (h1 r c).1)]
    by_cases hm : (getCell b r c).isMine = false
    · by_cases hps : (r, c) ∈ ps
      · simp [hps, hm]
      · by_cases he : (r, c) = p
        · simp [he, hm]
        · simp [hps, he, hm]
    · simp [hm]


/-! ## `placeMines` -/

theorem countP_update_of_nodup {α : Type} [DecidableEq α] {l : List α} (hn : l.Nodup) {a : α}
    (ha : a ∈ l) {f f' : α → Bool} (hne : ∀ x, x ≠ a → f' x = f x) (hf : f a = false)
    (hf' : f' a = true) : l.countP f' = l.countP f + 1 := by
  induction l with
  | nil => simp at ha
  | cons x xs ih =>
    rw [List.nodup_cons] at hn
    rw [List.countP_cons, List.countP_cons]
    by_cases hx : x = a
    · subst hx
      have : xs.countP f' = xs.countP f :=
        List.countP_congr fun y hy => by rw [hne y (fun e => hn.1 (e ▸ hy))]
      simp [hf, hf', this]
    · rcases List.mem_cons.1 ha with h | h
      · exact absurd h.symm hx
      · rw [ih hn.2 h, hne x hx]; omega

theorem countP_grid_setCell {rows cols : Nat} {b : Board} (hd : Dims rows cols b) {r c : Nat}
    (hr : r < rows) (hc : c < cols) (p : Cell → Bool) (x : Cell)
    (h0 : p (getCell b r c) = false) (h1 : p x = true) :
    (gridCells rows cols).countP (fun q => p (getCell (setCell b r c x) q.1 q.2))
      = (gridCells rows cols).countP (fun q => p (getCell b q.1 q.2)) + 1 := by
  refine countP_update_of_nodup (nodup_gridCells rows cols) (a := (r, c))
    (mem_gridCells.2 ⟨hr, hc⟩) ?_ h0 ?_
  · intro q hq
    rw [getCell_setCell_ne]
    exact fun h => hq (Prod.ext h.1 h.2)
  · simp only
    rw [getCell_setCell_self hd hr hc]; exact h1

theorem countP_grid_congr {rows cols : Nat} {b b' : Board} (p : Cell → Bool)
    (h : ∀ r c, p (getCell b' r c) = p (getCell b r c)) :
    (gridCells rows cols).countP (fun q => p (getCell b' q.1 q.2))
      = (gridCells rows cols).countP (fun q => p (getCell b q.1 q.2)) :=
  List.countP_congr fun q _ => by rw [h]


theorem placeMinesLoop_frame {rows cols mines fr fc : Nat}
    (draws : List (Nat × Nat)) {b b' : Board} {placed : Nat} (hd : Dims rows cols b)
    (hres : placeMinesLoop mines fr fc draws b placed = some b') :
    Dims rows cols b' ∧
    ∀ r c, (getCell b' r c).isRevealed = (getCell b r c).isRevealed ∧
      (getCell b' r c).isFlagged = (getCell b r c).isFlagged ∧
      (getCell b' r c).neighborCount = (getCell b r c).neighborCount := by
  induction draws generalizing b placed with
  | nil =>
    unfold placeMinesLoop at hres
    split at hres
    · simp at hres
    · simp only [Option.some.injEq] at hres
      subst hres
      exact ⟨hd, fun _ _ => ⟨rfl, rfl, rfl⟩⟩
  | cons d ds ih =>
    obtain ⟨row, col⟩ := d
    unfold placeMinesLoop at hres
    split at hres
    · simp only at hres
      split at hres
      · exact ih hd hres
      · obtain ⟨r1, r4⟩ :=
          ih (hd.setCell row col { getCell b row col with isMine := true }) hres
        refine ⟨r1, fun r c => ?_⟩
        obtain ⟨s1, s2, s3⟩ := r4 r c
        by_cases he : r = row ∧ c = col
        · obtain ⟨rfl, rfl⟩ := he
          rcases getCell_setCell_self_or b r c { getCell b r c with isMine := true } with h | h
          · rw [h] at s1 s2 s3; exact ⟨s1, s2, s3⟩
          · rw [h] at s1 s2 s3; exact ⟨s1, s2, s3⟩
        · rw [getCell_setCell_ne _ _ _ _ _ _ he] at s1 s2 s3
          exact ⟨s1, s2, s3⟩
    · simp only [Option.some.injEq] at hres
      subst hres
      exact ⟨hd, fun _ _ => ⟨rfl, rfl, rfl⟩⟩

theorem placeMinesLoop_count {rows cols mines fr fc : Nat}
    (draws : List (Nat × Nat)) (hdraws : DrawsInRange rows cols draws)
    {b b' : Board} {placed : Nat} (hd : Dims rows cols b)
    (hcount : (gridCells rows cols).countP (fun q => (getCell b q.1 q.2).isMine) = placed)
    (hle : placed ≤ mines) (hf : (getCell b fr fc).isMine = false)
    (hres : placeMinesLoop mines fr fc draws b placed = some b') :
    (gridCells rows cols).countP (fun q => (getCell b' q.1 q.2).isMine) = mines ∧
    (getCell b' fr fc).isMine = false := by
  induction draws generalizing b placed with
  | nil =>
    unfold placeMinesLoop at hres
    split at hres
    · simp at hres
    · simp only [Option.some.injEq] at hres
      subst hres
      exact ⟨by omega, hf⟩
  | cons d ds ih =>
    obtain ⟨row, col⟩ := d
    have hdr := hdraws (row, col) (List.mem_cons_self _ _)
    have hds : DrawsInRange rows cols ds := fun d h => hdraws d (List.mem_cons_of_mem _ h)
    unfold placeMinesLoop at hres
    split at hres
    · simp only at hres
      split at hres
      · exact ih hds hd hcount hle hf hres
      · rename_i hlt hcond
        simp only [not_or, Bool.not_eq_true] at hcond
        have hd1 := hd.setCell row col { getCell b row col with isMine := true }
        have hc1 := countP_grid_setCell hd hdr.1 hdr.2 (fun x => x.isMine)
          { getCell b row col with isMine := true } hcond.2 rfl
        have hf1 : (getCell (setCell b row col { getCell b row col with isMine := true })
            fr fc).isMine = false := by
          rw [getCell_setCell_ne]; exact hf
          exact fun h => hcond.1 ⟨h.1.symm, h.2.symm⟩
        exact ih hds hd1 (hc1.trans (by rw [hcount])) (by omega) hf1 hres
    · simp only [Option.some.injEq] at hres
      subst hres
      exact ⟨by omega, hf⟩

theorem calculateNeighborCounts_spec (g : Game) (hw : WellFormed g) :
    WellFormed (calculateNeighborCounts g) ∧
    (calculateNeighborCounts g).difficulty = g.difficulty ∧
    ∀ r c,
      (getCell (calculateNeighborCounts g).board r c).isMine = (getCell g.board r c).isMine ∧
      (getCell (calculateNeighborCounts g).board r c).isRevealed
        = (getCell g.board r c).isRevealed ∧
      (getCell (calculateNeighborCounts g).board r c).isFlagged
        = (getCell g.board r c).isFlagged ∧
      (getCell (calculateNeighborCounts g).board r c).neighborCount =
        if (r < g.difficulty.rows ∧ c < g.difficulty.cols) ∧ (getCell g.board r c).isMine = false
        then countAdjacentMines g.difficulty.rows g.difficulty.cols g.board r c
        else (getCell g.board r c).neighborCount := by
  have h := foldl_neighborCountStep (gridCells g.difficulty.rows g.difficulty.cols)
    (fun p hp => mem_gridCells.1 hp) hw
  rw [← calculateNeighborCounts_board] at h
  refine ⟨h.1, rfl, fun r c => ?_⟩
  obtain ⟨a1, a2, a3, a4⟩ := h.2 r c
  refine ⟨a1, a2, a3, ?_⟩
  rw [a4]
  simp only [mem_gridCells]

theorem countAdjacentMines_eq_adjacentMineCount (rows cols : Nat) (b : Board) {row col : Nat}
    (hm : (getCell b row col).isMine = false) :
    countAdjacentMines rows cols b row col = adjacentMineCount rows cols b row col := by
  rw [countAdjacentMines_eq, List.countP_eq_length_filter]
  unfold adjacentMineCount
  apply List.Perm.length_eq
  rw [List.perm_ext_iff_of_nodup ((nodup_neighborCells _ _ _ _).filter _)
    ((nodup_gridCells _ _).filter _)]
  intro q
  simp only [List.mem_filter, mem_neighborCells, mem_gridCells, Bool.and_eq_true,
    decide_eq_true_eq, Adjacent]
  constructor
  · rintro ⟨⟨h1, h2, h3, h4, h5, h6⟩, hq⟩
    refine ⟨⟨h1, h2⟩, ⟨?_, h3, h4, h5, h6⟩, hq⟩
    intro e
    rw [← e] at hq
    simp [hm] at hq
  · rintro ⟨⟨h1, h2⟩, ⟨_, h3, h4, h5, h6⟩, hq⟩
    exact ⟨⟨h1, h2, h3, h4, h5, h6⟩, hq⟩

theorem countAdjacentMines_le_eight {rows cols : Nat} (b : Board) {row col : Nat}
    (hr : row < rows) (hc : col < cols) (hm : (getCell b row col).isMine = false) :
    countAdjacentMines rows cols b row col ≤ 8 := by
  rw [countAdjacentMines_eq]
  have hlen := length_neighborCells_le rows cols row col
  have hsplit := List.length_eq_countP_add_countP
    (fun p : Nat × Nat => (getCell b p.1 p.2).isMine) (neighborCells rows cols row col)
  have hpos : 0 < (neighborCells rows cols row col).countP
      (fun a => decide ¬ (getCell b a.1 a.2).isMine = true) := by
    rw [List.countP_pos_iff]
    exact ⟨(row, col), mem_neighborCells.2 ⟨hr, hc, by simp⟩, by simp [hm]⟩
  omega


theorem placeMines_spec {g g' : Game} {r c : Nat} {draws : List (Nat × Nat)}
    (hw : WellFormed g) (h : placeMines draws g r c = some g') :
    ∃ b, placeMinesLoop g.difficulty.mines r c draws g.board 0 = some b ∧
      Dims g.difficulty.rows g.difficulty.cols b ∧
      g' = calculateNeighborCounts { g with board := b } ∧
      WellFormed g' ∧ g'.difficulty = g.difficulty ∧
      (∀ i j, (getCell g'.board i j).isMine = (getCell b i j).isMine ∧
        (getCell g'.board i j).isRevealed = (getCell g.board i j).isRevealed ∧
        (getCell g'.board i j).isFlagged = (getCell g.board i j).isFlagged ∧
        (getCell g'.board i j).neighborCount =
          if (i < g.difficulty.rows ∧ j < g.difficulty.cols) ∧ (getCell b i j).isMine = false
          then countAdjacentMines g.difficulty.rows g.difficulty.cols b i j
          else (getCell g.board i j).neighborCount) := by
  unfold placeMines at h
  rw [Option.map_eq_some'] at h
  obtain ⟨b, hb, hg⟩ := h
  obtain ⟨hd, hfr⟩ := placeMinesLoop_frame draws hw hb
  have hw1 : WellFormed { g with board := b } := hd
  obtain ⟨k1, k2, k3⟩ := calculateNeighborCounts_spec _ hw1
  rw [hg] at k1 k2 k3
  refine ⟨b, hb, hd, hg.symm, k1, k2, fun i j => ?_⟩
  obtain ⟨m1, m2, m3, m4⟩ := k3 i j
  obtain ⟨n1, n2, n3⟩ := hfr i j
  refine ⟨m1, m2.trans n1, m3.trans n2, ?_⟩
  rw [m4]
  simp only [n3]

theorem countP_eq_le_one {α : Type} [DecidableEq α] {l : List α} (hn : l.Nodup) (a : α) :
    l.countP (fun q => decide (q = a)) ≤ 1 := by
  have h := List.nodup_iff_count_le_one.1 hn a
  rw [List.count_eq_countP] at h
  have e : l.countP (fun q => decide (q = a)) = l.countP (fun x => x == a) :=
    List.countP_congr fun x _ => by simp
  rw [e]; exact h

theorem countP_eq_one_of_mem {α : Type} [DecidableEq α] {l : List α} (hn : l.Nodup) {a : α}
    (ha : a ∈ l) : l.countP (fun q => decide (q = a)) = 1 := by
  have h1 := countP_eq_le_one hn a
  have h2 : 0 < l.countP (fun q => decide (q = a)) := by
    rw [List.countP_pos_iff]
    exact ⟨a, ha, by simp⟩
  omega

/-- Cells other than one given cell of the grid. -/
theorem countP_grid_ne {rows cols : Nat} {p : Nat × Nat} (hp : p ∈ gridCells rows cols) :
    (gridCells rows cols).countP (fun q => decide (q ≠ p)) + 1 = rows * cols := by
  have hsplit := List.length_eq_countP_add_countP (fun q => decide (q = p)) (gridCells rows cols)
  rw [length_gridCells, countP_eq_one_of_mem (nodup_gridCells rows cols) hp] at hsplit
  have e : (gridCells rows cols).countP (fun q => decide (q ≠ p))
      = (gridCells rows cols).countP (fun a => decide ¬ (decide (a = p)) = true) :=
    List.countP_congr fun x _ => by simp
  omega

theorem mines_le_of_safe_cell {rows cols : Nat} {b : Board} {p : Nat × Nat}
    (hp : p ∈ gridCells rows cols) (hm : (getCell b p.1 p.2).isMine = false) :
    (gridCells rows cols).countP (fun q => (getCell b q.1 q.2).isMine) + 1 ≤ rows * cols := by
  rw [← countP_grid_ne hp]
  apply Nat.add_le_add_right
  apply List.countP_mono_left
  intro q _ hq
  simp only [decide_eq_true_eq]
  intro e
  rw [e, hm] at hq
  exact absurd hq (by simp)

/-- While fewer mines lie on the board than asked for, a cell is eligible. -/
theorem exists_eligible {rows cols mines fr fc : Nat} (hlt : mines < rows * cols)
    (hfr : fr < rows) (hfc : fc < cols) (b : Board)
    (hcount : (gridCells rows cols).countP (fun q => (getCell b q.1 q.2).isMine) < mines) :
    ∃ r c, r < rows ∧ c < cols ∧ ¬ (r = fr ∧ c = fc) ∧ (getCell b r c).isMine = false := by
  by_contra hno
  have hall : ∀ q ∈ gridCells rows cols, decide (q ≠ (fr, fc)) = true →
      (getCell b q.1 q.2).isMine = true := by
    intro q hq hne
    obtain ⟨h1, h2⟩ := mem_gridCells.1 hq
    simp only [decide_eq_true_eq] at hne
    by_contra hm
    simp only [Bool.not_eq_true] at hm
    exact hno ⟨q.1, q.2, h1, h2, fun e => hne (Prod.ext e.1 e.2), hm⟩
  have hle := List.countP_mono_left hall
  have := countP_grid_ne (mem_gridCells.2 ⟨hfr, hfc⟩ : (fr, fc) ∈ gridCells rows cols)
  omega

theorem placeMinesLoop_none {rows cols mines fr fc : Nat} (hfr : fr < rows) (hfc : fc < cols)
    (hge : rows * cols ≤ mines) (draws : List (Nat × Nat))
    (hdraws : DrawsInRange rows cols draws) {b : Board} {placed : Nat} (hd : Dims rows cols b)
    (hcount : (gridCells rows cols).countP (fun q => (getCell b q.1 q.2).isMine) = placed)
    (hf : (getCell b fr fc).isMine = false) :
    placeMinesLoop mines fr fc draws b placed = none := by
  induction draws generalizing b placed with
  | nil =>
    have hlt : placed < mines := by
      have := mines_le_of_safe_cell (b := b) (p := (fr, fc)) (mem_gridCells.2 ⟨hfr, hfc⟩) hf
      omega
    unfold placeMinesLoop
    rw [if_pos hlt]
  | cons d ds ih =>
    have hlt : placed < mines := by
      have := mines_le_of_safe_cell (b := b) (p := (fr, fc)) (mem_gridCells.2 ⟨hfr, hfc⟩) hf
      omega
    obtain ⟨row, col⟩ := d
    have hdr := hdraws (row, col) (List.mem_cons_self _ _)
    have hds : DrawsInRange rows cols ds := fun d h => hdraws d (List.mem_cons_of_mem _ h)
    unfold placeMinesLoop
    rw [if_pos hlt]
    simp only
    split
    · exact ih hds hd hcount hf
    · rename_i hcond
      simp only [not_or, Bool.not_eq_true] at hcond
      have hd1 := hd.setCell row col { getCell b row col with isMine := true }
      have hc1 := countP_grid_setCell hd hdr.1 hdr.2 (fun x => x.isMine)
        { getCell b row col with isMine := true } hcond.2 rfl
      have hf1 : (getCell (setCell b row col { getCell b row col with isMine := true })
          fr fc).isMine = false := by
        rw [getCell_setCell_ne]; exact hf
        exact fun h => hcond.1 ⟨h.1.symm, h.2.symm⟩
      exact ih hds hd1 (hc1.trans (by rw [hcount])) hf1


/-! ## `revealCell` -/

theorem revealCellFuel_succ (fuel : Nat) (g : Game) (row col : Nat) :
    revealCellFuel (fuel + 1) g row col =
      if (getCell g.board row col).isRevealed = true ∨ (getCell g.board row col).isFlagged = true
      then some g
      else if (getCell g.board row col).isMine = true then some (gameOver (markRevealed g row col))
      else if (getCell g.board row col).neighborCount > 0 then some (markRevealed g row col)
      else (neighborCells g.difficulty.rows g.difficulty.cols row col).foldl
        (fun acc p => acc.bind fun g2 => revealCellFuel fuel g2 p.1 p.2)
        (some (markRevealed g row col)) := by
  rw [revealCellFuel]
  simp only
  split
  · rfl
  split
  · rfl
  split
  · rfl
  refine (foldl_offsets (fun (acc : Option Game) dr dc => acc.bind fun g2 =>
      if 0 ≤ (row : Int) + dr ∧ (row : Int) + dr < (g.difficulty.rows : Int) ∧
          0 ≤ (col : Int) + dc ∧ (col : Int) + dc < (g.difficulty.cols : Int) then
        revealCellFuel fuel g2 ((row : Int) + dr).toNat ((col : Int) + dc).toNat
      else some g2) _).trans ?_
  unfold neighborCells
  rw [foldl_filterMap']
  unfold markRevealed
  congr 1
  funext acc d
  split
  · rfl
  · cases acc <;> rfl
theorem cells_fields {b b' : Board}
    (h : ∀ r c, getCell b' r c = { getCell b r c with isRevealed := (getCell b' r c).isRevealed })
    (r c : Nat) :
    (getCell b' r c).isMine = (getCell b r c).isMine ∧
    (getCell b' r c).isFlagged = (getCell b r c).isFlagged ∧
    (getCell b' r c).neighborCount = (getCell b r c).neighborCount := by
  have := h r c
  refine ⟨?_, ?_, ?_⟩
  · rw [this]
  · rw [this]
  · rw [this]

theorem isOpen_of_extends {b b' : Board}
    (hc : ∀ r c, getCell b' r c = { getCell b r c with isRevealed := (getCell b' r c).isRevealed })
    (hm : ∀ r c, (getCell b r c).isRevealed = true → (getCell b' r c).isRevealed = true)
    {p : Nat × Nat} (h : IsOpen b' p) : IsOpen b p := by
  obtain ⟨h1, h2⟩ := h
  refine ⟨?_, ?_⟩
  · cases hr : (getCell b p.1 p.2).isRevealed
    · rfl
    · rw [hm _ _ hr] at h1; exact absurd h1 (by simp)
  · rw [← (cells_fields hc p.1 p.2).2.1]; exact h2

theorem Flood.of_extends {rows cols : Nat} {b b' : Board}
    (hc : ∀ r c, getCell b' r c = { getCell b r c with isRevealed := (getCell b' r c).isRevealed })
    (hm : ∀ r c, (getCell b r c).isRevealed = true → (getCell b' r c).isRevealed = true)
    {s p : Nat × Nat} (h : Flood rows cols b' s p) : Flood rows cols b s p := by
  induction h with
  | start ho => exact Flood.start (isOpen_of_extends hc hm ho)
  | expand _ hmine hnc hn ho ih =>
    obtain ⟨f1, -, f3⟩ := cells_fields hc _ _
    exact Flood.expand ih (f1 ▸ hmine) (f3 ▸ hnc) hn (isOpen_of_extends hc hm ho)

theorem clearInterval_activeIntervals_congr {a b : Game} (h : Option Nat)
    (hab : b.activeIntervals = a.activeIntervals) :
    (clearInterval b h).activeIntervals = (clearInterval a h).activeIntervals := by
  cases h
  · exact hab
  · simp [clearInterval, hab]

theorem gameOver_activeIntervals_congr {a b : Game}
    (hab : b.activeIntervals = a.activeIntervals) (hti : b.timerInterval = a.timerInterval) :
    (gameOver b).activeIntervals = (gameOver a).activeIntervals := by
  unfold gameOver
  rw [hti]
  exact clearInterval_activeIntervals_congr _ hab

theorem gameOver_activeIntervals_idem {a b : Game}
    (hab : b.activeIntervals = (gameOver a).activeIntervals)
    (hti : b.timerInterval = a.timerInterval) :
    (gameOver b).activeIntervals = (gameOver a).activeIntervals := by
  unfold gameOver at hab ⊢
  rw [hti]
  cases h : a.timerInterval
  · rw [h] at hab; exact hab
  · rw [h] at hab
    simp only [clearInterval] at hab ⊢
    rw [hab]
    simp

theorem Reveals.refl {g : Game} (hw : WellFormed g) : Reveals g [] g where
  wellFormed := hw
  difficulty := rfl
  timer := rfl
  timerInterval := rfl
  firstClick := rfl
  flagsPlaced := rfl
  nextIntervalId := rfl
  outcome := Or.inl ⟨rfl, rfl⟩
  cells := fun _ _ => rfl
  mono := fun _ _ h => h
  started := fun p hp => by simp at hp
  sound := fun p hp => by
    obtain ⟨h1, h2⟩ := hp
    rw [h1] at h2; exact absurd h2 (by simp)
  closed := fun p hp => by
    obtain ⟨h1, h2⟩ := hp
    rw [h1] at h2; exact absurd h2 (by simp)

theorem Reveals.append {a b c : Game} {A B : List (Nat × Nat)}
    (h1 : Reveals a A b) (h2 : Reveals b B c) : Reveals a (A ++ B) c where
  wellFormed := h2.wellFormed
  difficulty := h2.difficulty.trans h1.difficulty
  timer := h2.timer.trans h1.timer
  timerInterval := h2.timerInterval.trans h1.timerInterval
  firstClick := h2.firstClick.trans h1.firstClick
  flagsPlaced := h2.flagsPlaced.trans h1.flagsPlaced
  nextIntervalId := h2.nextIntervalId.trans h1.nextIntervalId
  cells := fun r c => by
    have e1 := h1.cells r c
    have e2 := h2.cells r c
    rw [e2, e1]
  mono := fun r c h => h2.mono r c (h1.mono r c h)
  outcome := by
    rcases h2.outcome with ⟨gs2, ai2⟩ | ⟨gs2, ai2, p, hp, hm⟩
    · rcases h1.outcome with ⟨gs1, ai1⟩ | ⟨gs1, ai1, q, hq, hmq⟩
      · exact Or.inl ⟨gs2.trans gs1, ai2.trans ai1⟩
      · exact Or.inr ⟨gs2.trans gs1, ai2.trans ai1, q, ⟨hq.1, h2.mono _ _ hq.2⟩, hmq⟩
    · right
      refine ⟨gs2, ?_, p, ⟨?_, hp.2⟩, ?_⟩
      · rw [ai2]
        rcases h1.outcome with ⟨_, ai1⟩ | ⟨_, ai1, _⟩
        · exact gameOver_activeIntervals_congr ai1 h1.timerInterval
        · exact gameOver_activeIntervals_idem ai1 h1.timerInterval
      · cases hr : (getCell a.board p.1 p.2).isRevealed
        · rfl
        · have := h1.mono _ _ hr
          rw [hp.1] at this; exact absurd this (by simp)
      · rw [← (cells_fields h1.cells p.1 p.2).1]; exact hm
  started := fun p hp => by
    rcases List.mem_append.1 hp with h | h
    · rcases h1.started p h with h' | h'
      · exact Or.inl (h2.mono _ _ h')
      · exact Or.inr h'
    · rcases h2.started p h with h' | h'
      · exact Or.inl h'
      · exact Or.inr ((cells_fields h1.cells p.1 p.2).2.1 ▸ h')
  sound := fun p hp => by
    cases hr : (getCell b.board p.1 p.2).isRevealed
    · obtain ⟨s, hs, hf⟩ := h2.sound p ⟨hr, hp.2⟩
      rw [h1.difficulty] at hf
      exact ⟨s, List.mem_append_right _ hs, hf.of_extends h1.cells h1.mono⟩
    · obtain ⟨s, hs, hf⟩ := h1.sound p ⟨hp.1, hr⟩
      exact ⟨s, List.mem_append_left _ hs, hf⟩
  closed := fun p hp hm hz n hn => by
    cases hr : (getCell b.board p.1 p.2).isRevealed
    · obtain ⟨f1, -, f3⟩ := cells_fields h1.cells p.1 p.2
      rw [← h1.difficulty] at hn
      rcases h2.closed p ⟨hr, hp.2⟩ (f1 ▸ hm) (f3 ▸ hz) n hn with h | h
      · exact Or.inl h
      · exact Or.inr ((cells_fields h1.cells n.1 n.2).2.1 ▸ h)
    · rcases h1.closed p ⟨hp.1, hr⟩ hm hz n hn with h | h
      · exact Or.inl (h2.mono _ _ h)
      · exact Or.inr h

theorem markRevealed_wellFormed {g : Game} (hw : WellFormed g) (row col : Nat) :
    WellFormed (markRevealed g row col) :=
  Dims.setCell hw _ _ _

theorem getCell_markRevealed_self {g : Game} (hw : WellFormed g) {row col : Nat}
    (hr : row < g.difficulty.rows) (hc : col < g.difficulty.cols) :
    getCell (markRevealed g row col).board row col
      = { getCell g.board row col with isRevealed := true } :=
  getCell_setCell_self hw hr hc _

theorem getCell_markRevealed_ne (g : Game) {row col r c : Nat} (h : ¬ (r = row ∧ c = col)) :
    getCell (markRevealed g row col).board r c = getCell g.board r c :=
  getCell_setCell_ne _ _ _ _ _ _ h

theorem markRevealed_cells {g : Game} (hw : WellFormed g) {row col : Nat}
    (hr : row < g.difficulty.rows) (hc : col < g.difficulty.cols) (r c : Nat) :
    getCell (markRevealed g row col).board r c
      = { getCell g.board r c with
          isRevealed := (getCell (markRevealed g row col).board r c).isRevealed } := by
  by_cases h : r = row ∧ c = col
  · obtain ⟨rfl, rfl⟩ := h
    rw [getCell_markRevealed_self hw hr hc]
  · rw [getCell_markRevealed_ne g h]

theorem markRevealed_mono {g : Game} (hw : WellFormed g) {row col : Nat}
    (hr : row < g.difficulty.rows) (hc : col < g.difficulty.cols) (r c : Nat)
    (h : (getCell g.board r c).isRevealed = true) :
    (getCell (markRevealed g row col).board r c).isRevealed = true := by
  by_cases he : r = row ∧ c = col
  · obtain ⟨rfl, rfl⟩ := he
    rw [getCell_markRevealed_self hw hr hc]
  · rw [getCell_markRevealed_ne g he]; exact h

theorem newlyRevealed_markRevealed {g : Game} {row col : Nat} {p : Nat × Nat}
    (h : NewlyRevealed g.board (markRevealed g row col).board p) : p = (row, col) := by
  by_contra hne
  have : ¬ (p.1 = row ∧ p.2 = col) := fun e => hne (Prod.ext e.1 e.2)
  obtain ⟨h1, h2⟩ := h
  rw [getCell_markRevealed_ne g this, h1] at h2
  exact absurd h2 (by simp)

theorem reveals_leaf {g : Game} (hw : WellFormed g) {row col : Nat}
    (hr : row < g.difficulty.rows) (hc : col < g.difficulty.cols)
    (ho : IsOpen g.board (row, col))
    (hpos : (getCell g.board row col).isMine = false ∧ (getCell g.board row col).neighborCount > 0) :
    Reveals g [(row, col)] (markRevealed g row col) where
  wellFormed := markRevealed_wellFormed hw row col
  difficulty := rfl
  timer := rfl
  timerInterval := rfl
  firstClick := rfl
  flagsPlaced := rfl
  nextIntervalId := rfl
  outcome := Or.inl ⟨rfl, rfl⟩
  cells := markRevealed_cells hw hr hc
  mono := markRevealed_mono hw hr hc
  started := fun p hp => by
    rw [List.mem_singleton] at hp
    subst hp
    left
    rw [getCell_markRevealed_self hw hr hc]
  sound := fun p hp => by
    have := newlyRevealed_markRevealed hp
    subst this
    exact ⟨_, List.mem_singleton_self _, Flood.start ho⟩
  closed := fun p hp _ hz => by
    have := newlyRevealed_markRevealed hp
    subst this
    simp only at hz
    omega

theorem reveals_mine {g : Game} (hw : WellFormed g) {row col : Nat}
    (hr : row < g.difficulty.rows) (hc : col < g.difficulty.cols)
    (ho : IsOpen g.board (row, col)) (hm : (getCell g.board row col).isMine = true) :
    Reveals g [(row, col)] (gameOver (markRevealed g row col)) := by
  have hb : (gameOver (markRevealed g row col)).board = (markRevealed g row col).board := by
    unfold gameOver; cases (markRevealed g row col).timerInterval <;> rfl
  have hfields : (gameOver (markRevealed g row col)).difficulty = g.difficulty ∧
      (gameOver (markRevealed g row col)).timer = g.timer ∧
      (gameOver (markRevealed g row col)).timerInterval = g.timerInterval ∧
      (gameOver (markRevealed g row col)).firstClick = g.firstClick ∧
      (gameOver (markRevealed g row col)).flagsPlaced = g.flagsPlaced ∧
      (gameOver (markRevealed g row col)).nextIntervalId = g.nextIntervalId ∧
      (gameOver (markRevealed g row col)).gameState = .lost := by
    unfold gameOver markRevealed
    cases g.timerInterval <;> exact ⟨rfl, rfl, rfl, rfl, rfl, rfl, rfl⟩
  obtain ⟨f1, f2, f3, f4, f5, f6, f7⟩ := hfields
  have hself := getCell_markRevealed_self hw hr hc
  refine
    { wellFormed := ?_, difficulty := f1, timer := f2, timerInterval := f3, firstClick := f4,
      flagsPlaced := f5, nextIntervalId := f6, outcome := ?_, cells := ?_, mono := ?_,
      started := ?_, sound := ?_, closed := ?_ }
  · unfold WellFormed
    rw [hb, f1]
    exact markRevealed_wellFormed hw row col
  · right
    refine ⟨f7, gameOver_activeIntervals_congr rfl rfl, (row, col), ⟨ho.1, ?_⟩, hm⟩
    rw [hb, hself]
  · rw [hb]; exact markRevealed_cells hw hr hc
  · rw [hb]; exact markRevealed_mono hw hr hc
  · intro p hp
    rw [List.mem_singleton] at hp
    subst hp
    left
    rw [hb, hself]
  · intro p hp
    rw [hb] at hp
    have := newlyRevealed_markRevealed hp
    subst this
    exact ⟨_, List.mem_singleton_self _, Flood.start ho⟩
  · intro p hp hnm
    rw [hb] at hp
    have := newlyRevealed_markRevealed hp
    subst this
    simp only at hnm
    rw [hm] at hnm
    exact absurd hnm (by simp)

theorem Flood.of_neighbor {rows cols : Nat} {b b' : Board}
    (hc : ∀ r c, getCell b' r c = { getCell b r c with isRevealed := (getCell b' r c).isRevealed })
    (hm : ∀ r c, (getCell b r c).isRevealed = true → (getCell b' r c).isRevealed = true)
    {s n p : Nat × Nat} (hs : IsOpen b s) (hmine : (getCell b s.1 s.2).isMine = false)
    (hz : (getCell b s.1 s.2).neighborCount = 0) (hn : n ∈ neighborCells rows cols s.1 s.2)
    (h : Flood rows cols b' n p) : Flood rows cols b s p := by
  induction h with
  | start ho => exact Flood.expand (Flood.start hs) hmine hz hn (isOpen_of_extends hc hm ho)
  | expand _ hmine' hnc hn' ho ih =>
    obtain ⟨f1, -, f3⟩ := cells_fields hc _ _
    exact Flood.expand ih (f1 ▸ hmine') (f3 ▸ hnc) hn' (isOpen_of_extends hc hm ho)

theorem reveals_expand {g g' : Game} (hw : WellFormed g) {row col : Nat}
    (hr : row < g.difficulty.rows) (hc : col < g.difficulty.cols)
    (ho : IsOpen g.board (row, col)) (hm : (getCell g.board row col).isMine = false)
    (hz : (getCell g.board row col).neighborCount = 0)
    (R : Reveals (markRevealed g row col)
      (neighborCells g.difficulty.rows g.difficulty.cols row col) g') :
    Reveals g [(row, col)] g' := by
  have hcells := markRevealed_cells hw hr hc
  have hmono := markRevealed_mono hw hr hc
  have hself := getCell_markRevealed_self hw hr hc
  have hnew : ∀ p, NewlyRevealed g.board g'.board p → p ≠ (row, col) →
      NewlyRevealed (markRevealed g row col).board g'.board p := by
    intro p hp hne
    have : ¬ (p.1 = row ∧ p.2 = col) := fun e => hne (Prod.ext e.1 e.2)
    exact ⟨by rw [getCell_markRevealed_ne g this]; exact hp.1, hp.2⟩
  refine
    { wellFormed := R.wellFormed, difficulty := R.difficulty, timer := R.timer,
      timerInterval := R.timerInterval, firstClick := R.firstClick,
      flagsPlaced := R.flagsPlaced, nextIntervalId := R.nextIntervalId,
      outcome := ?_, cells := ?_, mono := ?_, started := ?_, sound := ?_, closed := ?_ }
  · rcases R.outcome with h | ⟨gs, ai, p, hp, hpm⟩
    · exact Or.inl h
    · right
      refine ⟨gs, ai.trans (gameOver_activeIntervals_congr rfl rfl), p, ⟨?_, hp.2⟩, ?_⟩
      · cases hrev : (getCell g.board p.1 p.2).isRevealed
        · rfl
        · have := hmono _ _ hrev
          rw [hp.1] at this; exact absurd this (by simp)
      · rw [← (cells_fields hcells p.1 p.2).1]; exact hpm
  · intro r c
    have e1 := hcells r c
    have e2 := R.cells r c
    rw [e2, e1]
  · exact fun r c h => R.mono r c (hmono r c h)
  · intro p hp
    rw [List.mem_singleton] at hp
    subst hp
    left
    apply R.mono
    rw [hself]
  · intro p hp
    refine ⟨_, List.mem_singleton_self _, ?_⟩
    by_cases hne : p = (row, col)
    · subst hne; exact Flood.start ho
    · obtain ⟨n, hn, hf⟩ := R.sound p (hnew p hp hne)
      exact Flood.of_neighbor hcells hmono ho hm hz hn hf
  · intro p hp hpm hpz n hn
    by_cases hne : p = (row, col)
    · subst hne
      rcases R.started n hn with h | h
      · exact Or.inl h
      · exact Or.inr ((cells_fields hcells n.1 n.2).2.1 ▸ h)
    · obtain ⟨f1, -, f3⟩ := cells_fields hcells p.1 p.2
      rcases R.closed p (hnew p hp hne) (f1 ▸ hpm) (f3 ▸ hpz) n hn with h | h
      · exact Or.inl h
      · exact Or.inr ((cells_fields hcells n.1 n.2).2.1 ▸ h)

theorem foldl_bind_none {α β : Type} (f : α → β → Option α) (l : List β) :
    l.foldl (fun acc p => acc.bind fun g => f g p) none = none := by
  induction l with
  | nil => rfl
  | cons x xs ih => simpa using ih

theorem reveals_foldl (fuel : Nat)
    (ih : ∀ (g : Game) (row col : Nat) (g' : Game), WellFormed g → row < g.difficulty.rows →
      col < g.difficulty.cols → revealCellFuel fuel g row col = some g' →
      Reveals g [(row, col)] g')
    (ps : List (Nat × Nat)) (g1 g' : Game) (hw : WellFormed g1)
    (hps : ∀ p ∈ ps, p.1 < g1.difficulty.rows ∧ p.2 < g1.difficulty.cols)
    (h : ps.foldl (fun acc p => acc.bind fun g2 => revealCellFuel fuel g2 p.1 p.2) (some g1)
      = some g') : Reveals g1 ps g' := by
  induction ps generalizing g1 with
  | nil =>
    simp only [List.foldl_nil, Option.some.injEq] at h
    subst h
    exact Reveals.refl hw
  | cons p ps ihp =>
    rw [List.foldl_cons, Option.some_bind] at h
    cases h2 : revealCellFuel fuel g1 p.1 p.2 with
    | none =>
      rw [h2, foldl_bind_none] at h
      exact absurd h (by simp)
    | some g2 =>
      rw [h2] at h
      obtain ⟨hp1, hp2⟩ := hps p (List.mem_cons_self _ _)
      have R1 := ih g1 p.1 p.2 g2 hw hp1 hp2 h2
      have R2 := ihp g2 R1.wellFormed
        (fun q hq => by rw [R1.difficulty]; exact hps q (List.mem_cons_of_mem _ hq)) h
      exact R1.append R2

theorem reveals_skip {g : Game} (hw : WellFormed g) {row col : Nat}
    (h : (getCell g.board row col).isRevealed = true ∨ (getCell g.board row col).isFlagged = true) :
    Reveals g [(row, col)] g where
  wellFormed := hw
  difficulty := rfl
  timer := rfl
  timerInterval := rfl
  firstClick := rfl
  flagsPlaced := rfl
  nextIntervalId := rfl
  outcome := Or.inl ⟨rfl, rfl⟩
  cells := fun _ _ => rfl
  mono := fun _ _ h => h
  started := fun p hp => by
    rw [List.mem_singleton] at hp
    subst hp
    exact h
  sound := fun p hp => by
    obtain ⟨h1, h2⟩ := hp
    rw [h1] at h2; exact absurd h2 (by simp)
  closed := fun p hp => by
    obtain ⟨h1, h2⟩ := hp
    rw [h1] at h2; exact absurd h2 (by simp)

theorem revealCellFuel_reveals (fuel : Nat) :
    ∀ (g : Game) (row col : Nat) (g' : Game), WellFormed g → row < g.difficulty.rows →
      col < g.difficulty.cols → revealCellFuel fuel g row col = some g' →
      Reveals g [(row, col)] g' := by
  induction fuel with
  | zero =>
    intro g row col g' _ _ _ h
    simp [revealCellFuel] at h
  | succ fuel ih =>
    intro g row col g' hw hr hc h
    rw [revealCellFuel_succ] at h
    split at h
    · rename_i hrf
      simp only [Option.some.injEq] at h
      subst h
      exact reveals_skip hw hrf
    · rename_i hrf
      have ho : IsOpen g.board (row, col) := by
        simp only [not_or, Bool.not_eq_true] at hrf
        exact hrf
      split at h
      · rename_i hm
        simp only [Option.some.injEq] at h
        subst h
        exact reveals_mine hw hr hc ho hm
      · rename_i hm
        simp only [Bool.not_eq_true] at hm
        split at h
        · rename_i hpos
          simp only [Option.some.injEq] at h
          subst h
          exact reveals_leaf hw hr hc ho ⟨hm, hpos⟩
        · rename_i hpos
          have R := reveals_foldl fuel ih _ (markRevealed g row col) g'
            (markRevealed_wellFormed hw row col)
            (fun p hp => ⟨(mem_neighborCells.1 hp).1, (mem_neighborCells.1 hp).2.1⟩) h
          exact reveals_expand hw hr hc ho hm (by omega) R

theorem revealedCells_le (g : Game) : revealedCells g ≤ g.difficulty.rows * g.difficulty.cols := by
  unfold revealedCells
  rw [← length_gridCells]
  exact List.countP_le_length _

theorem Reveals.revealedCells_mono {g g' : Game} {ps : List (Nat × Nat)} (R : Reveals g ps g') :
    revealedCells g ≤ revealedCells g' := by
  unfold revealedCells
  rw [R.difficulty]
  exact List.countP_mono_left fun q _ h => R.mono _ _ h

theorem revealedCells_markRevealed {g : Game} (hw : WellFormed g) {row col : Nat}
    (hr : row < g.difficulty.rows) (hc : col < g.difficulty.cols)
    (ho : (getCell g.board row col).isRevealed = false) :
    revealedCells (markRevealed g row col) = revealedCells g + 1 :=
  countP_grid_setCell hw hr hc (fun x => x.isRevealed) _ ho rfl

theorem revealCellFuel_foldl_isSome (fuel : Nat)
    (ih : ∀ (g : Game) (row col : Nat), WellFormed g → row < g.difficulty.rows →
      col < g.difficulty.cols →
      g.difficulty.rows * g.difficulty.cols + 1 ≤ fuel + revealedCells g →
      ∃ g', revealCellFuel fuel g row col = some g')
    (ps : List (Nat × Nat)) (g1 : Game) (hw : WellFormed g1)
    (hps : ∀ p ∈ ps, p.1 < g1.difficulty.rows ∧ p.2 < g1.difficulty.cols)
    (hfuel : g1.difficulty.rows * g1.difficulty.cols + 1 ≤ fuel + revealedCells g1) :
    ∃ g', ps.foldl (fun acc p => acc.bind fun g2 => revealCellFuel fuel g2 p.1 p.2) (some g1)
      = some g' := by
  induction ps generalizing g1 with
  | nil => exact ⟨g1, rfl⟩
  | cons p ps ihp =>
    obtain ⟨hp1, hp2⟩ := hps p (List.mem_cons_self _ _)
    obtain ⟨g2, h2⟩ := ih g1 p.1 p.2 hw hp1 hp2 hfuel
    have R := revealCellFuel_reveals fuel g1 p.1 p.2 g2 hw hp1 hp2 h2
    rw [List.foldl_cons, Option.some_bind, h2]
    refine ihp g2 R.wellFormed
      (fun q hq => by rw [R.difficulty]; exact hps q (List.mem_cons_of_mem _ hq)) ?_
    have := R.revealedCells_mono
    rw [R.difficulty]
    omega

theorem revealCellFuel_isSome (fuel : Nat) :
    ∀ (g : Game) (row col : Nat), WellFormed g → row < g.difficulty.rows →
      col < g.difficulty.cols →
      g.difficulty.rows * g.difficulty.cols + 1 ≤ fuel + revealedCells g →
      ∃ g', revealCellFuel fuel g row col = some g' := by
  induction fuel with
  | zero =>
    intro g row col _ _ _ h
    have := revealedCells_le g
    omega
  | succ fuel ih =>
    intro g row col hw hr hc hfuel
    rw [revealCellFuel_succ]
    split
    · exact ⟨_, rfl⟩
    · rename_i hrf
      simp only [not_or, Bool.not_eq_true] at hrf
      split
      · exact ⟨_, rfl⟩
      · split
        · exact ⟨_, rfl⟩
        · refine revealCellFuel_foldl_isSome fuel ih _ (markRevealed g row col)
            (markRevealed_wellFormed hw row col)
            (fun p hp => ⟨(mem_neighborCells.1 hp).1, (mem_neighborCells.1 hp).2.1⟩) ?_
          have := revealedCells_markRevealed hw hr hc hrf.1
          show g.difficulty.rows * g.difficulty.cols + 1
            ≤ fuel + revealedCells (markRevealed g row col)
          omega

theorem revealCell_reveals {g : Game} (hw : WellFormed g) {row col : Nat}
    (hr : row < g.difficulty.rows) (hc : col < g.difficulty.cols) :
    ∃ g', revealCell g row col = some g' ∧ Reveals g [(row, col)] g' := by
  obtain ⟨g', h⟩ := revealCellFuel_isSome (g.difficulty.rows * g.difficulty.cols + 1) g row col
    hw hr hc (by omega)
  exact ⟨g', h, revealCellFuel_reveals _ g row col g' hw hr hc h⟩


theorem adjacentMineCount_eq_zero {rows cols : Nat} {b : Board} {row col : Nat}
    (h : adjacentMineCount rows cols b row col = 0) {q : Nat × Nat} (hq1 : q.1 < rows)
    (hq2 : q.2 < cols) (hadj : Adjacent (row, col) q) : (getCell b q.1 q.2).isMine = false := by
  unfold adjacentMineCount at h
  rw [List.length_eq_zero, List.filter_eq_nil_iff] at h
  have := h q (mem_gridCells.2 ⟨hq1, hq2⟩)
  simp only [Bool.and_eq_true, decide_eq_true_eq, not_and, Bool.not_eq_true] at this
  exact this hadj

theorem Flood.safe {rows cols : Nat} {b : Board} (hcons : CountsConsistent rows cols b)
    {s p : Nat × Nat} (hs1 : s.1 < rows) (hs2 : s.2 < cols)
    (hsm : (getCell b s.1 s.2).isMine = false) (h : Flood rows cols b s p) :
    (p.1 < rows ∧ p.2 < cols) ∧ (getCell b p.1 p.2).isMine = false := by
  induction h with
  | start _ => exact ⟨⟨hs1, hs2⟩, hsm⟩
  | @expand c n _ hmine hnc hn _ ih =>
    obtain ⟨⟨hc1, hc2⟩, _⟩ := ih
    obtain ⟨hn1, hn2, k1, k2, k3, k4⟩ := mem_neighborCells.1 hn
    refine ⟨⟨hn1, hn2⟩, ?_⟩
    by_cases he : c = n
    · subst he; exact hmine
    · have hz := hcons c.1 hc1 c.2 hc2 hmine
      rw [hnc] at hz
      exact adjacentMineCount_eq_zero hz.symm hn1 hn2 ⟨he, k1, k2, k3, k4⟩


/-! ## `gameWon` and `checkWinCondition` -/

theorem clearInterval_fields (g : Game) (h : Option Nat) :
    (clearInterval g h).difficulty = g.difficulty ∧ (clearInterval g h).board = g.board ∧
    (clearInterval g h).gameState = g.gameState ∧ (clearInterval g h).timer = g.timer ∧
    (clearInterval g h).timerInterval = g.timerInterval ∧
    (clearInterval g h).firstClick = g.firstClick ∧
    (clearInterval g h).flagsPlaced = g.flagsPlaced ∧
    (clearInterval g h).nextIntervalId = g.nextIntervalId := by
  cases h <;> exact ⟨rfl, rfl, rfl, rfl, rfl, rfl, rfl, rfl⟩

theorem gameWon_eq (g : Game) :
    gameWon g = (gridCells g.difficulty.rows g.difficulty.cols).foldl autoFlagStep
      (clearInterval { g with gameState := .won } g.timerInterval) := by
  unfold gameWon
  simp only [(clearInterval_fields _ _).1]
  exact foldl_grid (fun (g3 : Game) row col =>
    if (getCell g3.board row col).isMine = true ∧ (getCell g3.board row col).isFlagged = false then
      { g3 with
        board := setCell g3.board row col { getCell g3.board row col with isFlagged := true }
        flagsPlaced := g3.flagsPlaced + 1 }
    else g3) _ _ _

theorem autoFlagStep_spec {g : Game} (hw : WellFormed g) (p : Nat × Nat)
    (hp : p.1 < g.difficulty.rows ∧ p.2 < g.difficulty.cols) :
    WellFormed (autoFlagStep g p) ∧
    (autoFlagStep g p).difficulty = g.difficulty ∧
    (autoFlagStep g p).gameState = g.gameState ∧
    (autoFlagStep g p).timer = g.timer ∧
    (autoFlagStep g p).timerInterval = g.timerInterval ∧
    (autoFlagStep g p).firstClick = g.firstClick ∧
    (autoFlagStep g p).activeIntervals = g.activeIntervals ∧
    (autoFlagStep g p).nextIntervalId = g.nextIntervalId ∧
    ∀ r c, getCell (autoFlagStep g p).board r c =
      { getCell g.board r c with
        isFlagged := (getCell g.board r c).isFlagged ||
          (decide ((r, c) = p) && (getCell g.board r c).isMine) } := by
  unfold autoFlagStep
  split
  · rename_i h
    refine ⟨Dims.setCell hw _ _ _, rfl, rfl, rfl, rfl, rfl, rfl, rfl, fun r c => ?_⟩
    simp only
    by_cases he : (r, c) = p
    · subst he
      rw [getCell_setCell_self hw hp.1 hp.2]
      simp [h.1]
    · have : ¬ (r = p.1 ∧ c = p.2) := fun e => he (Prod.ext e.1 e.2)
      rw [getCell_setCell_ne _ _ _ _ _ _ this]
      simp [he]
  · rename_i h
    refine ⟨hw, rfl, rfl, rfl, rfl, rfl, rfl, rfl, fun r c => ?_⟩
    by_cases he : (r, c) = p
    · subst he
      simp only [not_and, Bool.not_eq_false] at h
      generalize getCell g.board r c = x at h
      obtain ⟨m, rv, f, n⟩ := x
      cases m
      · simp
      · simp only at h
        simp [h trivial]
    · simp [he]

theorem foldl_autoFlagStep (l : List (Nat × Nat)) {g : Game} (hw : WellFormed g)
    (hl : ∀ p ∈ l, p.1 < g.difficulty.rows ∧ p.2 < g.difficulty.cols) :
    WellFormed (l.foldl autoFlagStep g) ∧
    (l.foldl autoFlagStep g).difficulty = g.difficulty ∧
    (l.foldl autoFlagStep g).gameState = g.gameState ∧
    (l.foldl autoFlagStep g).timer = g.timer ∧
    (l.foldl autoFlagStep g).timerInterval = g.timerInterval ∧
    (l.foldl autoFlagStep g).firstClick = g.firstClick ∧
    (l.foldl autoFlagStep g).activeIntervals = g.activeIntervals ∧
    (l.foldl autoFlagStep g).nextIntervalId = g.nextIntervalId ∧
    ∀ r c, getCell (l.foldl autoFlagStep g).board r c =
      { getCell g.board r c with
        isFlagged := (getCell g.board r c).isFlagged ||
          (decide ((r, c) ∈ l) && (getCell g.board r c).isMine) } := by
  induction l generalizing g with
  | nil => exact ⟨hw, rfl, rfl, rfl, rfl, rfl, rfl, rfl, fun r c => by simp⟩
  | cons p ps ih =>
    obtain ⟨a0, a1, a2, a3, a4, a5, a6, a7, a8⟩ :=
      autoFlagStep_spec hw p (hl p (List.mem_cons_self _ _))
    obtain ⟨b0, b1, b2, b3, b4, b5, b6, b7, b8⟩ := ih a0
      (fun q hq => by rw [a1]; exact hl q (List.mem_cons_of_mem _ hq))
    rw [List.foldl_cons]
    refine ⟨b0, b1.trans a1, b2.trans a2, b3.trans a3, b4.trans a4, b5.trans a5, b6.trans a6,
      b7.trans a7, fun r c => ?_⟩
    rw [b8, a8]
    simp only [Cell.mk.injEq, true_and, and_true, List.mem_cons]
    cases (getCell g.board r c).isMine <;> cases (getCell g.board r c).isFlagged <;>
      by_cases he : (r, c) = p <;> by_cases hps : (r, c) ∈ ps <;> simp [he, hps]

theorem gameWon_spec {g : Game} (hw : WellFormed g) :
    WellFormed (gameWon g) ∧
    (gameWon g).difficulty = g.difficulty ∧
    (gameWon g).gameState = .won ∧
    (gameWon g).timer = g.timer ∧
    (gameWon g).timerInterval = g.timerInterval ∧
    (gameWon g).firstClick = g.firstClick ∧
    (gameWon g).activeIntervals = (clearInterval g g.timerInterval).activeIntervals ∧
    (gameWon g).nextIntervalId = g.nextIntervalId ∧
    ∀ r c, getCell (gameWon g).board r c =
      { getCell g.board r c with
        isFlagged := (getCell g.board r c).isFlagged ||
          (decide (r < g.difficulty.rows ∧ c < g.difficulty.cols) &&
            (getCell g.board r c).isMine) } := by
  obtain ⟨c1, c2, c3, c4, c5, c6, c7, c8⟩ :=
    clearInterval_fields { g with gameState := .won } g.timerInterval
  have hw1 : WellFormed (clearInterval { g with gameState := .won } g.timerInterval) := by
    unfold WellFormed
    rw [c1, c2]; exact hw
  obtain ⟨b0, b1, b2, b3, b4, b5, b6, b7, b8⟩ :=
    foldl_autoFlagStep (gridCells g.difficulty.rows g.difficulty.cols) hw1
      (fun p hp => by rw [c1]; exact mem_gridCells.1 hp)
  rw [← gameWon_eq] at b0 b1 b2 b3 b4 b5 b6 b7 b8
  refine ⟨b0, b1.trans c1, b2.trans c3, b3.trans c4, b4.trans c5, b5.trans c6, ?_,
    b7.trans c8, fun r c => ?_⟩
  · rw [b6]
    exact clearInterval_activeIntervals_congr _ rfl
  · rw [b8, c2]
    simp only [mem_gridCells]


theorem countP_eq_iff_of_imp {α : Type} {p q : α → Bool} (l : List α)
    (hpq : ∀ x ∈ l, p x = true → q x = true) :
    l.countP p = l.countP q ↔ ∀ x ∈ l, q x = true → p x = true := by
  induction l with
  | nil => simp
  | cons a as ih =>
    have hle : as.countP p ≤ as.countP q :=
      List.countP_mono_left fun x hx => hpq x (List.mem_cons_of_mem _ hx)
    have ih' := ih fun x hx => hpq x (List.mem_cons_of_mem _ hx)
    have ha := hpq a (List.mem_cons_self _ _)
    rw [List.countP_cons, List.countP_cons, List.forall_mem_cons]
    cases hp : p a <;> cases hq : q a
    · simp [ih']
    · simp only [Bool.false_eq_true, if_false, if_true, Nat.add_zero, imp_false,
        not_true_eq_false, false_and, iff_false]
      omega
    · rw [hp] at ha; exact absurd (ha rfl) (by simp [hq])
    · simp [ih']

theorem revealedCount_eq_countCells {g : Game} (hw : WellFormed g) :
    revealedCount g = countCells Cell.isSafeRevealed g.board := by
  rw [revealedCount_eq]
  exact countP_grid_eq_countCells hw Cell.isSafeRevealed

theorem checkWinCondition_gameState {g : Game} (hw : WellFormed g) (hnw : g.gameState ≠ .won) :
    (checkWinCondition g).gameState = .won ↔
      (revealedCount g : Int)
        = (g.difficulty.rows : Int) * (g.difficulty.cols : Int) - (g.difficulty.mines : Int) := by
  unfold checkWinCondition
  simp only
  split
  · rename_i h
    simp [h, (gameWon_spec hw).2.2.1]
  · rename_i h
    simp [h, hnw]

theorem revealedCount_eq_target_iff {g : Game}
    (hmines : (gridCells g.difficulty.rows g.difficulty.cols).countP
      (fun q => (getCell g.board q.1 q.2).isMine) = g.difficulty.mines) :
    (revealedCount g : Int)
        = (g.difficulty.rows : Int) * (g.difficulty.cols : Int) - (g.difficulty.mines : Int) ↔
      ∀ r < g.difficulty.rows, ∀ c < g.difficulty.cols,
        (getCell g.board r c).isMine = false → (getCell g.board r c).isRevealed = true := by
  have hsplit := List.length_eq_countP_add_countP
    (fun q : Nat × Nat => (getCell g.board q.1 q.2).isMine)
    (gridCells g.difficulty.rows g.difficulty.cols)
  rw [length_gridCells, hmines] at hsplit
  have hnot : (gridCells g.difficulty.rows g.difficulty.cols).countP
      (fun a => decide ¬ (getCell g.board a.1 a.2).isMine = true)
      = (gridCells g.difficulty.rows g.difficulty.cols).countP
        (fun a => !(getCell g.board a.1 a.2).isMine) :=
    List.countP_congr fun x _ => by simp
  rw [hnot] at hsplit
  have key := countP_eq_iff_of_imp
    (p := fun q : Nat × Nat => (getCell g.board q.1 q.2).isRevealed && !(getCell g.board q.1 q.2).isMine)
    (q := fun q : Nat × Nat => !(getCell g.board q.1 q.2).isMine)
    (gridCells g.difficulty.rows g.difficulty.cols)
    (fun x _ h => by simp only [Bool.and_eq_true] at h; exact h.2)
  rw [← revealedCount_eq] at key
  constructor
  · intro h r hr c hc hm
    have h' : revealedCount g = (gridCells g.difficulty.rows g.difficulty.cols).countP
        (fun a => !(getCell g.board a.1 a.2).isMine) := by
      have : ((g.difficulty.rows * g.difficulty.cols : Nat) : Int)
          = (g.difficulty.rows : Int) * (g.difficulty.cols : Int) := by push_cast; rfl
      omega
    have := key.1 h' (r, c) (mem_gridCells.2 ⟨hr, hc⟩) (by simp [hm])
    simp only [Bool.and_eq_true] at this
    exact this.1
  · intro h
    have h' := key.2 (fun x hx hx' => by
      obtain ⟨h1, h2⟩ := mem_gridCells.1 hx
      simp only [Bool.not_eq_true'] at hx'
      simp [h x.1 h1 x.2 h2 hx', hx'])
    have : ((g.difficulty.rows * g.difficulty.cols : Nat) : Int)
        = (g.difficulty.rows : Int) * (g.difficulty.cols : Int) := by push_cast; rfl
    omega

theorem countP_or_split {α : Type} (p q : α → Bool) (l : List α) :
    l.countP (fun x => p x || q x) = l.countP p + l.countP (fun x => q x && !p x) := by
  induction l with
  | nil => rfl
  | cons a as ih =>
    rw [List.countP_cons, List.countP_cons, List.countP_cons, ih]
    cases p a <;> cases q a <;> simp <;> omega

theorem autoFlagStep_flagsPlaced (g : Game) (p : Nat × Nat) :
    (autoFlagStep g p).flagsPlaced = g.flagsPlaced +
      (if ((getCell g.board p.1 p.2).isMine && !(getCell g.board p.1 p.2).isFlagged) = true
        then 1 else 0) := by
  unfold autoFlagStep
  split
  · rename_i h
    simp [h.1, h.2]
  · rename_i h
    simp only [not_and, Bool.not_eq_false] at h
    cases hm : (getCell g.board p.1 p.2).isMine
    · simp
    · simp [h hm]

theorem foldl_autoFlagStep_flagsPlaced (l : List (Nat × Nat)) (hn : l.Nodup) {g : Game}
    (hw : WellFormed g) (hl : ∀ p ∈ l, p.1 < g.difficulty.rows ∧ p.2 < g.difficulty.cols) :
    (l.foldl autoFlagStep g).flagsPlaced = g.flagsPlaced +
      (l.countP fun q => (getCell g.board q.1 q.2).isMine && !(getCell g.board q.1 q.2).isFlagged :
        Nat) := by
  induction l generalizing g with
  | nil => simp
  | cons p ps ih =>
    rw [List.nodup_cons] at hn
    obtain ⟨a0, a1, -, -, -, -, -, -, a8⟩ :=
      autoFlagStep_spec hw p (hl p (List.mem_cons_self _ _))
    rw [List.foldl_cons, ih hn.2 a0
      (fun q hq => by rw [a1]; exact hl q (List.mem_cons_of_mem _ hq)),
      autoFlagStep_flagsPlaced, List.countP_cons]
    have hc : ps.countP (fun q => (getCell (autoFlagStep g p).board q.1 q.2).isMine &&
          !(getCell (autoFlagStep g p).board q.1 q.2).isFlagged)
        = ps.countP (fun q => (getCell g.board q.1 q.2).isMine &&
          !(getCell g.board q.1 q.2).isFlagged) := by
      apply List.countP_congr
      intro q hq
      have hne : q ≠ p := fun e => hn.1 (e ▸ hq)
      rw [a8 q.1 q.2]
      simp [hne]
    rw [hc]
    split
    · push_cast; ring
    · push_cast; ring

theorem gameWon_flagsPlaced {g : Game} (hw : WellFormed g) :
    (gameWon g).flagsPlaced = g.flagsPlaced +
      ((gridCells g.difficulty.rows g.difficulty.cols).countP
        fun q => (getCell g.board q.1 q.2).isMine && !(getCell g.board q.1 q.2).isFlagged : Nat) := by
  obtain ⟨c1, c2, -, -, -, -, c7, -⟩ :=
    clearInterval_fields { g with gameState := .won } g.timerInterval
  have hw1 : WellFormed (clearInterval { g with gameState := .won } g.timerInterval) := by
    unfold WellFormed
    rw [c1, c2]; exact hw
  have h := foldl_autoFlagStep_flagsPlaced (gridCells g.difficulty.rows g.difficulty.cols)
    (nodup_gridCells _ _) hw1 (fun p hp => by rw [c1]; exact mem_gridCells.1 hp)
  rw [← gameWon_eq, c7, c2] at h
  exact h

theorem flaggedCells_gameWon {g : Game} (hw : WellFormed g) :
    flaggedCells (gameWon g) = flaggedCells g +
      (gridCells g.difficulty.rows g.difficulty.cols).countP
        fun q => (getCell g.board q.1 q.2).isMine && !(getCell g.board q.1 q.2).isFlagged := by
  obtain ⟨-, w1, -, -, -, -, -, -, w8⟩ := gameWon_spec hw
  unfold flaggedCells
  rw [w1, ← countP_or_split]
  apply List.countP_congr
  intro q hq
  obtain ⟨h1, h2⟩ := mem_gridCells.1 hq
  rw [w8 q.1 q.2]
  simp [h1, h2]


/-! ## Termination of the placement loop -/

theorem countP_le_one_add {α : Type} [DecidableEq α] {l : List α} (hn : l.Nodup) (a : α)
    {p q : α → Bool} (h : ∀ x ∈ l, x ≠ a → p x = true → q x = true) :
    l.countP p ≤ 1 + l.countP q := by
  have h1 : l.countP p ≤ l.countP (fun x => decide (x = a) || q x) :=
    List.countP_mono_left fun x hx hp => by
      by_cases e : x = a
      · simp [e]
      · simp [e, h x hx e hp]
  have h2 := countP_or_split (fun x => decide (x = a)) q l
  have h3 : l.countP (fun x => q x && !decide (x = a)) ≤ l.countP q :=
    List.countP_mono_left fun x _ hx => by
      simp only [Bool.and_eq_true] at hx
      exact hx.1
  have h4 := countP_eq_le_one hn a
  omega

/-- The loop finishes once enough eligible cells are still to be drawn. -/
theorem placeMinesLoop_isSome {rows cols mines fr fc : Nat} (draws : List (Nat × Nat))
    (hdraws : DrawsInRange rows cols draws) {b : Board} {placed : Nat} (hd : Dims rows cols b)
    (hleft : mines ≤ placed + (gridCells rows cols).countP (fun q =>
      decide (q ≠ (fr, fc)) && (!(getCell b q.1 q.2).isMine && decide (q ∈ draws)))) :
    ∃ b', placeMinesLoop mines fr fc draws b placed = some b' := by
  induction draws generalizing b placed with
  | nil =>
    unfold placeMinesLoop
    split
    · rename_i hlt
      simp at hleft
      omega
    · exact ⟨b, rfl⟩
  | cons d ds ih =>
    obtain ⟨row, col⟩ := d
    have hdr := hdraws (row, col) (List.mem_cons_self _ _)
    have hds : DrawsInRange rows cols ds := fun d h => hdraws d (List.mem_cons_of_mem _ h)
    unfold placeMinesLoop
    split
    · simp only
      split
      · rename_i hcond
        apply ih hds hd
        refine hleft.trans (Nat.add_le_add_left (List.countP_mono_left ?_) _)
        intro q _ hq
        simp only [Bool.and_eq_true, decide_eq_true_eq, Bool.not_eq_true', List.mem_cons] at hq ⊢
        obtain ⟨h1, h2, h3⟩ := hq
        refine ⟨h1, h2, ?_⟩
        rcases h3 with e | e
        · exfalso
          rcases hcond with hc | hc
          · exact h1 (by rw [e]; exact Prod.ext hc.1 hc.2)
          · rw [e] at h2
            simp only at h2
            rw [h2] at hc
            exact absurd hc (by simp)
        · exact e
      · rename_i hcond
        simp only [not_or, Bool.not_eq_true] at hcond
        apply ih hds (hd.setCell row col { getCell b row col with isMine := true })
        have := countP_le_one_add (nodup_gridCells rows cols) (row, col)
          (p := fun q => decide (q ≠ (fr, fc)) &&
            (!(getCell b q.1 q.2).isMine && decide (q ∈ (row, col) :: ds)))
          (q := fun q => decide (q ≠ (fr, fc)) &&
            (!(getCell (setCell b row col { getCell b row col with isMine := true })
              q.1 q.2).isMine && decide (q ∈ ds)))
          (by
            intro q _ hne hq
            simp only [Bool.and_eq_true, decide_eq_true_eq, Bool.not_eq_true',
              List.mem_cons] at hq ⊢
            obtain ⟨h1, h2, h3⟩ := hq
            refine ⟨h1, ?_, ?_⟩
            · rw [getCell_setCell_ne]
              · exact h2
              · exact fun e => hne (Prod.ext e.1 e.2)
            · rcases h3 with e | e
              · exact absurd e hne
              · exact e)
        omega
    · exact ⟨b, rfl⟩

theorem exists_prefix_covering (s : Nat → Nat × Nat) (l : List (Nat × Nat))
    (h : ∀ q ∈ l, ∃ n, s n = q) : ∃ N, ∀ q ∈ l, q ∈ (List.range N).map s := by
  induction l with
  | nil => exact ⟨0, fun q hq => by simp at hq⟩
  | cons a as ih =>
    obtain ⟨N, hN⟩ := ih fun q hq => h q (List.mem_cons_of_mem _ hq)
    obtain ⟨n, hn⟩ := h a (List.mem_cons_self _ _)
    refine ⟨max N (n + 1), fun q hq => ?_⟩
    rw [List.mem_map]
    rcases List.mem_cons.1 hq with e | e
    · exact ⟨n, List.mem_range.2 (by omega), by rw [hn, e]⟩
    · obtain ⟨m, hm, hs⟩ := List.mem_map.1 (hN q e)
      exact ⟨m, List.mem_range.2 (by have := List.mem_range.1 hm; omega), hs⟩

/-- On a fresh board the loop finishes on every list of in-range draws in which
each cell of the grid occurs. -/
theorem placeMinesLoop_finishes {rows cols mines fr fc : Nat} (hlt : mines < rows * cols)
    (hfr : fr < rows) (hfc : fc < cols) (draws : List (Nat × Nat))
    (hdraws : DrawsInRange rows cols draws)
    (hall : ∀ q ∈ gridCells rows cols, q ∈ draws) {b : Board} (hd : Dims rows cols b)
    (hfresh : ∀ r c, (getCell b r c).isMine = false) :
    ∃ b', placeMinesLoop mines fr fc draws b 0 = some b' := by
  apply placeMinesLoop_isSome draws hdraws hd
  have h1 := countP_grid_ne (mem_gridCells.2 ⟨hfr, hfc⟩ : (fr, fc) ∈ gridCells rows cols)
  have h2 : (gridCells rows cols).countP (fun q =>
        decide (q ≠ (fr, fc)) && (!(getCell b q.1 q.2).isMine && decide (q ∈ draws)))
      = (gridCells rows cols).countP (fun q => decide (q ≠ (fr, fc))) := by
    apply List.countP_congr
    intro q hq
    simp [hfresh, hall q hq]
  omega


/-! ## Click handlers -/


theorem list_set_getElem {α : Type} (l : List α) (i : Nat) (h : i < l.length) :
    l.set i l[i] = l := by
  apply List.ext_getElem
  · simp
  · intro n h1 h2
    rw [List.getElem_set]
    split
    · rename_i e; subst e; rfl
    · rfl

theorem setCell_setCell (b : Board) (r c : Nat) (x y : Cell) :
    setCell (setCell b r c x) r c y = setCell b r c y := by
  by_cases hr : r < b.length
  · unfold setCell
    simp [List.getD_eq_getElem?_getD, List.getElem?_set, hr, List.set_set]
  · rw [setCell_of_length_le b c x (by omega)]

theorem setCell_getCell (b : Board) (r c : Nat) : setCell b r c (getCell b r c) = b := by
  by_cases hr : r < b.length
  · unfold setCell getCell
    have e : b.getD r [] = b[r] := by simp [List.getD_eq_getElem?_getD, hr]
    rw [e]
    by_cases hc : c < (b[r]).length
    · have e2 : (b[r]).getD c default = (b[r])[c] := by simp [List.getD_eq_getElem?_getD, hc]
      rw [e2, list_set_getElem _ _ hc, list_set_getElem _ _ hr]
    · rw [List.set_eq_of_length_le (l := b[r]) (by omega), list_set_getElem _ _ hr]
  · exact setCell_of_length_le b c _ (by omega)

theorem handleRightClick_unflagged {g : Game} {row col : Nat}
    (hnot : ¬ (g.gameState = .won ∨ g.gameState = .lost))
    (hrev : (getCell g.board row col).isRevealed = false)
    (hf : (getCell g.board row col).isFlagged = false) :
    handleRightClick g row col =
      { g with
        board := setCell g.board row col { getCell g.board row col with isFlagged := true }
        flagsPlaced := g.flagsPlaced + 1 } := by
  unfold handleRightClick
  rw [if_neg hnot, if_neg (by simp [hrev]), if_neg (by simp [hf])]

theorem handleRightClick_flagged {g : Game} {row col : Nat}
    (hnot : ¬ (g.gameState = .won ∨ g.gameState = .lost))
    (hrev : (getCell g.board row col).isRevealed = false)
    (hf : (getCell g.board row col).isFlagged = true) :
    handleRightClick g row col =
      { g with
        board := setCell g.board row col { getCell g.board row col with isFlagged := false }
        flagsPlaced := g.flagsPlaced - 1 } := by
  unfold handleRightClick
  rw [if_neg hnot, if_neg (by simp [hrev]), if_pos hf]

theorem gameOver_fields (g : Game) :
    (gameOver g).difficulty = g.difficulty ∧ (gameOver g).board = g.board ∧
    (gameOver g).gameState = .lost ∧ (gameOver g).timer = g.timer ∧
    (gameOver g).timerInterval = g.timerInterval ∧
    (gameOver g).firstClick = g.firstClick ∧
    (gameOver g).flagsPlaced = g.flagsPlaced ∧
    (gameOver g).nextIntervalId = g.nextIntervalId := by
  unfold gameOver
  cases g.timerInterval <;> exact ⟨rfl, rfl, rfl, rfl, rfl, rfl, rfl, rfl⟩

theorem revealCell_of_mine {g : Game} {row col : Nat} (ho : IsOpen g.board (row, col))
    (hm : (getCell g.board row col).isMine = true) :
    revealCell g row col = some (gameOver (markRevealed g row col)) := by
  unfold revealCell
  rw [revealCellFuel_succ, if_neg, if_pos hm]
  obtain ⟨h1, h2⟩ := ho
  simp only at h1 h2
  simp [h1, h2]

theorem flaggedCells_congr {g g' : Game} (hd : g'.difficulty = g.difficulty)
    (h : ∀ r c, (getCell g'.board r c).isFlagged = (getCell g.board r c).isFlagged) :
    flaggedCells g' = flaggedCells g := by
  unfold flaggedCells
  rw [hd]
  apply List.countP_congr
  intro q _
  rw [h]

/-- A right click on a hidden cell of a game in progress, in full. -/
theorem handleRightClick_effect {g : Game} (hw : WellFormed g) {row col : Nat}
    (hr : row < g.difficulty.rows) (hc : col < g.difficulty.cols) :
    (∀ r c, (getCell (handleRightClick g row col).board r c).isFlagged
        ≠ (getCell g.board r c).isFlagged → (getCell g.board r c).isRevealed = false) ∧
    (handleRightClick g row col).flagsPlaced - (flaggedCells (handleRightClick g row col) : Int)
      = g.flagsPlaced - (flaggedCells g : Int) := by
  by_cases hover : g.gameState = .won ∨ g.gameState = .lost
  · have e : handleRightClick g row col = g := by
      unfold handleRightClick; rw [if_pos hover]
    rw [e]
    exact ⟨fun r c h => absurd rfl h, rfl⟩
  cases hrev : (getCell g.board row col).isRevealed
  swap
  · have e : handleRightClick g row col = g := by
      unfold handleRightClick; rw [if_neg hover, if_pos hrev]
    rw [e]
    exact ⟨fun r c h => absurd rfl h, rfl⟩
  have hcells : ∀ (x : Cell) (r c : Nat),
      (getCell (setCell g.board row col x) r c).isFlagged ≠ (getCell g.board r c).isFlagged →
      (getCell g.board r c).isRevealed = false := by
    intro x r c h
    by_cases he : r = row ∧ c = col
    · obtain ⟨rfl, rfl⟩ := he; exact hrev
    · rw [getCell_setCell_ne _ _ _ _ _ _ he] at h; exact absurd rfl h
  cases hf : (getCell g.board row col).isFlagged
  · rw [handleRightClick_unflagged hover hrev hf]
    refine ⟨fun r c => hcells _ r c, ?_⟩
    have hcount := countP_grid_setCell hw hr hc (fun x => x.isFlagged)
      { getCell g.board row col with isFlagged := true } hf rfl
    unfold flaggedCells
    simp only
    rw [hcount]
    push_cast
    ring
  · rw [handleRightClick_flagged hover hrev hf]
    refine ⟨fun r c => hcells _ r c, ?_⟩
    have hd1 := Dims.setCell hw row col { getCell g.board row col with isFlagged := false }
    have hcount := countP_grid_setCell hd1 hr hc (fun x => x.isFlagged)
      (getCell g.board row col)
      (by rw [getCell_setCell_self hw hr hc]) hf
    rw [setCell_setCell, setCell_getCell] at hcount
    unfold flaggedCells
    simp only
    rw [hcount]
    push_cast
    ring


/-! ## Reachable states -/

theorem adjacentMineCount_congr (rows cols : Nat) {b b' : Board}
    (h : ∀ r c, (getCell b' r c).isMine = (getCell b r c).isMine) (row col : Nat) :
    adjacentMineCount rows cols b' row col = adjacentMineCount rows cols b row col := by
  unfold adjacentMineCount
  congr 1
  apply List.filter_congr
  intro q _
  rw [h]

theorem CountsConsistent.congr {rows cols : Nat} {b b' : Board}
    (h : ∀ r c, (getCell b' r c).isMine = (getCell b r c).isMine ∧
      (getCell b' r c).neighborCount = (getCell b r c).neighborCount)
    (hc : CountsConsistent rows cols b) : CountsConsistent rows cols b' := by
  intro r hr c hcl hm
  rw [(h r c).2, adjacentMineCount_congr rows cols (fun r c => (h r c).1)]
  exact hc r hr c hcl ((h r c).1 ▸ hm)

theorem revealedCount_add_mineCells_le (g : Game) :
    revealedCount g + mineCells g ≤ g.difficulty.rows * g.difficulty.cols := by
  rw [revealedCount_eq]
  unfold mineCells
  have hsplit := List.length_eq_countP_add_countP
    (fun q : Nat × Nat => (getCell g.board q.1 q.2).isMine)
    (gridCells g.difficulty.rows g.difficulty.cols)
  rw [length_gridCells] at hsplit
  have hle : (gridCells g.difficulty.rows g.difficulty.cols).countP
      (fun q => (getCell g.board q.1 q.2).isRevealed && !(getCell g.board q.1 q.2).isMine)
      ≤ (gridCells g.difficulty.rows g.difficulty.cols).countP
        (fun a => decide ¬ (getCell g.board a.1 a.2).isMine = true) :=
    List.countP_mono_left fun x _ h => by
      simp only [Bool.and_eq_true, Bool.not_eq_true'] at h
      simp [h.2]
  omega

theorem revealedCount_congr {g g' : Game} (hd : g'.difficulty = g.difficulty)
    (h : ∀ r c, (getCell g'.board r c).isMine = (getCell g.board r c).isMine ∧
      (getCell g'.board r c).isRevealed = (getCell g.board r c).isRevealed) :
    revealedCount g' = revealedCount g := by
  rw [revealedCount_eq, revealedCount_eq, hd]
  apply List.countP_congr
  intro q _
  rw [(h q.1 q.2).1, (h q.1 q.2).2]

theorem mineCells_congr {g g' : Game} (hd : g'.difficulty = g.difficulty)
    (h : ∀ r c, (getCell g'.board r c).isMine = (getCell g.board r c).isMine) :
    mineCells g' = mineCells g := by
  unfold mineCells
  rw [hd]
  apply List.countP_congr
  intro q _
  rw [h]

/-- The two ways a left click can go. -/
theorem handleCellClick_cases {draws : List (Nat × Nat)} {g g' : Game} {row col : Nat}
    (h : handleCellClick draws g row col = some g') :
    g' = g ∨
    (¬ (g.gameState = .won ∨ g.gameState = .lost) ∧ IsOpen g.board (row, col) ∧
      ∃ g1 g2, revealCell g1 row col = some g2 ∧ g' = checkWinCondition g2 ∧
        ((g.firstClick = false ∧ g1 = g) ∨
          (g.firstClick = true ∧ ∃ gp, placeMines draws g row col = some gp ∧
            g1 = startTimer { gp with firstClick := false, gameState := .playing }))) := by
  unfold handleCellClick at h
  split at h
  · left; simpa using h.symm
  · rename_i hover
    split at h
    · left; simpa using h.symm
    · rename_i hopen
      right
      simp only [not_or, Bool.not_eq_true] at hopen
      refine ⟨hover, hopen, ?_⟩
      rw [Option.bind_eq_some] at h
      obtain ⟨g1, hg1, h2⟩ := h
      rw [Option.map_eq_some'] at h2
      obtain ⟨g2, hg2, rfl⟩ := h2
      refine ⟨g1, g2, hg2, rfl, ?_⟩
      split at hg1
      · rename_i hfc
        rw [Option.map_eq_some'] at hg1
        obtain ⟨gp, hgp, rfl⟩ := hg1
        exact Or.inr ⟨hfc, gp, hgp, rfl⟩
      · rename_i hfc
        simp only [Bool.not_eq_true] at hfc
        simp only [Option.some.injEq] at hg1
        exact Or.inl ⟨hfc, hg1.symm⟩


theorem startTimer_fields (g : Game) :
    (startTimer g).difficulty = g.difficulty ∧ (startTimer g).board = g.board ∧
    (startTimer g).gameState = g.gameState ∧ (startTimer g).timer = g.timer ∧
    (startTimer g).firstClick = g.firstClick ∧ (startTimer g).flagsPlaced = g.flagsPlaced :=
  ⟨rfl, rfl, rfl, rfl, rfl, rfl⟩

theorem revealedCount_eq_zero {g : Game}
    (h : ∀ r c, (getCell g.board r c).isRevealed = false) : revealedCount g = 0 := by
  rw [revealedCount_eq, List.countP_eq_zero]
  intro q _
  simp [h]

/-- The state in which the first click of a session runs `revealCell`. -/
theorem firstClick_prepared {draws : List (Nat × Nat)} {g gp : Game} {row col : Nat}
    (hinv : SessionInv g) (hready : g.gameState = .ready)
    (hdraws : DrawsInRange g.difficulty.rows g.difficulty.cols draws)
    (hp : placeMines draws g row col = some gp) :
    WellFormed (startTimer { gp with firstClick := false, gameState := .playing }) ∧
    (startTimer { gp with firstClick := false, gameState := .playing }).difficulty
      = g.difficulty ∧
    (startTimer { gp with firstClick := false, gameState := .playing }).gameState = .playing ∧
    (startTimer { gp with firstClick := false, gameState := .playing }).firstClick = false ∧
    mineCells (startTimer { gp with firstClick := false, gameState := .playing })
      = g.difficulty.mines ∧
    CountsConsistent g.difficulty.rows g.difficulty.cols
      (startTimer { gp with firstClick := false, gameState := .playing }).board ∧
    (getCell (startTimer { gp with firstClick := false, gameState := .playing }).board
      row col).isMine = false ∧
    (∀ r c, (getCell (startTimer { gp with firstClick := false, gameState := .playing }).board
        r c).isRevealed = false) ∧
    (∀ r c, (getCell (startTimer { gp with firstClick := false, gameState := .playing }).board
        r c).isFlagged = (getCell g.board r c).isFlagged) := by
  obtain ⟨b, hb, hd, -, hw', hdiff, hcells⟩ := placeMines_spec hinv.wellFormed hp
  obtain ⟨-, hfresh⟩ := hinv.ready hready
  have hmine0 : ∀ r c, (getCell g.board r c).isMine = false := fun r c => by
    rw [hfresh r c]; rfl
  have hrev0 : ∀ r c, (getCell g.board r c).isRevealed = false := fun r c => by
    rw [hfresh r c]; rfl
  have h0 : (gridCells g.difficulty.rows g.difficulty.cols).countP
      (fun q => (getCell g.board q.1 q.2).isMine) = 0 := by
    rw [List.countP_eq_zero]
    intro q _
    simp [hmine0]
  obtain ⟨hcnt, hrc⟩ := placeMinesLoop_count draws hdraws
    hinv.wellFormed h0 (Nat.zero_le _) (hmine0 row col) hb
  have hmine : ∀ i j, (getCell gp.board i j).isMine = (getCell b i j).isMine :=
    fun i j => (hcells i j).1
  refine ⟨hw', hdiff, rfl, rfl, ?_, ?_, ?_, ?_, ?_⟩
  · show mineCells (startTimer { gp with firstClick := false, gameState := .playing }) = _
    unfold mineCells
    show (gridCells gp.difficulty.rows gp.difficulty.cols).countP
      (fun q => (getCell gp.board q.1 q.2).isMine) = _
    rw [hdiff, countP_grid_congr (fun x => x.isMine) hmine]
    exact hcnt
  · intro r hr' c hc' hm
    show (getCell gp.board r c).neighborCount = adjacentMineCount _ _ gp.board r c
    have hm' : (getCell gp.board r c).isMine = false := hm
    obtain ⟨m1, -, -, m4⟩ := hcells r c
    rw [m4, if_pos ⟨⟨hr', hc'⟩, m1 ▸ hm'⟩, ← countAdjacentMines_congr _ _ hmine]
    exact countAdjacentMines_eq_adjacentMineCount _ _ _ hm'
  · show (getCell gp.board row col).isMine = false
    rw [hmine]; exact hrc
  · intro r c
    show (getCell gp.board r c).isRevealed = false
    rw [(hcells r c).2.1]; exact hrev0 r c
  · intro r c
    exact (hcells r c).2.2.1

/-- After `revealCell` from a state in play, `checkWinCondition` leaves a state
of the invariant. -/
theorem sessionInv_after_reveal {g1 g2 : Game} {s : List (Nat × Nat)}
    (hgs : g1.gameState = .playing) (hfc : g1.firstClick = false)
    (hmines : mineCells g1 = g1.difficulty.mines)
    (hcons : CountsConsistent g1.difficulty.rows g1.difficulty.cols g1.board)
    (R : Reveals g1 s g2) : SessionInv (checkWinCondition g2) := by
  have hgs2 : g2.gameState = .playing ∨ g2.gameState = .lost := by
    rcases R.outcome with ⟨h, _⟩ | ⟨h, _⟩
    · exact Or.inl (h.trans hgs)
    · exact Or.inr h
  unfold checkWinCondition
  simp only
  split
  · obtain ⟨w0, -, w2, -⟩ := gameWon_spec R.wellFormed
    exact ⟨w0, fun h => by rw [w2] at h; exact absurd h (by simp),
      fun h => by rw [w2] at h; exact absurd h (by simp)⟩
  · rename_i hne
    refine ⟨R.wellFormed, fun h => ?_, fun h => ?_⟩
    · rcases hgs2 with h' | h' <;> rw [h'] at h <;> exact absurd h (by simp)
    · have hm2 : mineCells g2 = g2.difficulty.mines := by
        rw [mineCells_congr R.difficulty (fun r c => (cells_fields R.cells r c).1), R.difficulty]
        exact hmines
      refine ⟨R.firstClick.trans hfc, hm2, ?_, ?_⟩
      · rw [R.difficulty]
        exact hcons.congr fun r c =>
          ⟨(cells_fields R.cells r c).1, (cells_fields R.cells r c).2.2⟩
      · have hle := revealedCount_add_mineCells_le g2
        rw [hm2] at hle
        have : ((g2.difficulty.rows * g2.difficulty.cols : Nat) : Int)
            = (g2.difficulty.rows : Int) * (g2.difficulty.cols : Int) := by push_cast; rfl
        omega
theorem initializeGame_fields (g : Game) :
    (initializeGame g).difficulty = g.difficulty ∧ (initializeGame g).gameState = .ready ∧
    (initializeGame g).timer = 0 ∧ (initializeGame g).firstClick = true ∧
    (initializeGame g).flagsPlaced = 0 ∧ (initializeGame g).timerInterval = none ∧
    WellFormed (initializeGame g) ∧
    ∀ r c, getCell (initializeGame g).board r c = Cell.fresh := by
  unfold initializeGame
  simp only
  cases h : g.timerInterval
  · exact ⟨rfl, rfl, rfl, rfl, rfl, rfl, dims_createBoard _, getCell_createBoard _⟩
  · exact ⟨rfl, rfl, rfl, rfl, rfl, rfl, dims_createBoard _, getCell_createBoard _⟩

theorem sessionInv_initializeGame (g : Game) : SessionInv (initializeGame g) := by
  obtain ⟨-, h2, -, h4, -, -, h7, h8⟩ := initializeGame_fields g
  refine ⟨h7, fun _ => ⟨h4, fun r c => ?_⟩, fun h => ?_⟩
  · rw [h8]
  · rw [h2] at h; exact absurd h (by simp)

theorem sessionInv_tick {g : Game} (hinv : SessionInv g) (h : Nat) : SessionInv (tick g h) := by
  unfold tick
  split
  · exact ⟨hinv.wellFormed, hinv.ready, fun hp =>
      ⟨(hinv.playing hp).firstClick, (hinv.playing hp).mines, (hinv.playing hp).counts,
        (hinv.playing hp).unfinished⟩⟩
  · exact hinv

/-- A right click changes nothing but the flag of the cell and the counter. -/
theorem handleRightClick_frame {g : Game} (hw : WellFormed g) (row col : Nat) :
    WellFormed (handleRightClick g row col) ∧
    (handleRightClick g row col).difficulty = g.difficulty ∧
    (handleRightClick g row col).gameState = g.gameState ∧
    (handleRightClick g row col).timer = g.timer ∧
    (handleRightClick g row col).timerInterval = g.timerInterval ∧
    (handleRightClick g row col).firstClick = g.firstClick ∧
    (handleRightClick g row col).activeIntervals = g.activeIntervals ∧
    (handleRightClick g row col).nextIntervalId = g.nextIntervalId ∧
    ∀ r c, getCell (handleRightClick g row col).board r c
      = { getCell g.board r c with
          isFlagged := (getCell (handleRightClick g row col).board r c).isFlagged } := by
  have hcell : ∀ (x : Cell) (r c : Nat), x = { getCell g.board row col with isFlagged := x.isFlagged } →
      getCell (setCell g.board row col x) r c
        = { getCell g.board r c with
            isFlagged := (getCell (setCell g.board row col x) r c).isFlagged } := by
    intro x r c hx
    by_cases he : r = row ∧ c = col
    · obtain ⟨rfl, rfl⟩ := he
      rcases getCell_setCell_self_or g.board r c x with h | h
      · rw [h]; exact hx
      · rw [h]
    · rw [getCell_setCell_ne _ _ _ _ _ _ he]
  unfold handleRightClick
  split
  · exact ⟨hw, rfl, rfl, rfl, rfl, rfl, rfl, rfl, fun _ _ => rfl⟩
  split
  · exact ⟨hw, rfl, rfl, rfl, rfl, rfl, rfl, rfl, fun _ _ => rfl⟩
  split
  · exact ⟨Dims.setCell hw _ _ _, rfl, rfl, rfl, rfl, rfl, rfl, rfl,
      fun r c => hcell _ r c rfl⟩
  · exact ⟨Dims.setCell hw _ _ _, rfl, rfl, rfl, rfl, rfl, rfl, rfl,
      fun r c => hcell _ r c rfl⟩

theorem sessionInv_handleRightClick {g : Game} (hinv : SessionInv g) (row col : Nat) :
    SessionInv (handleRightClick g row col) := by
  obtain ⟨f0, f1, f2, -, -, f5, -, -, f8⟩ := handleRightClick_frame hinv.wellFormed row col
  have hsame : ∀ r c,
      (getCell (handleRightClick g row col).board r c).isMine = (getCell g.board r c).isMine ∧
      (getCell (handleRightClick g row col).board r c).isRevealed
        = (getCell g.board r c).isRevealed ∧
      (getCell (handleRightClick g row col).board r c).neighborCount
        = (getCell g.board r c).neighborCount := by
    intro r c
    have := f8 r c
    refine ⟨?_, ?_, ?_⟩ <;> rw [this]
  refine ⟨f0, fun h => ?_, fun h => ?_⟩
  · rw [f2] at h
    obtain ⟨h1, h2⟩ := hinv.ready h
    refine ⟨f5.trans h1, fun r c => ?_⟩
    have e := f8 r c
    rw [h2 r c] at e
    rw [e]
  · rw [f2] at h
    obtain ⟨p1, p2, p3, p4⟩ := hinv.playing h
    refine ⟨f5.trans p1, ?_, ?_, ?_⟩
    · rw [mineCells_congr f1 (fun r c => (hsame r c).1), f1]; exact p2
    · rw [f1]
      exact p3.congr fun r c => ⟨(hsame r c).1, (hsame r c).2.2⟩
    · rw [revealedCount_congr f1 (fun r c => ⟨(hsame r c).1, (hsame r c).2.1⟩), f1]
      exact p4

theorem sessionInv_handleCellClick {draws : List (Nat × Nat)} {g g' : Game} {row col : Nat}
    (hinv : SessionInv g) (hr : row < g.difficulty.rows) (hc : col < g.difficulty.cols)
    (hdraws : DrawsInRange g.difficulty.rows g.difficulty.cols draws)
    (h : handleCellClick draws g row col = some g') : SessionInv g' := by
  rcases handleCellClick_cases h with rfl | ⟨hover, -, g1, g2, hrev, rfl, hprep⟩
  · exact hinv
  · rcases hprep with ⟨hfc, rfl⟩ | ⟨hfc, gp, hgp, rfl⟩
    · have hplaying : g1.gameState = .playing := by
        cases hgs : g1.gameState
        · rw [(hinv.ready hgs).1] at hfc; exact absurd hfc (by simp)
        · rfl
        · exact absurd (Or.inl hgs) hover
        · exact absurd (Or.inr hgs) hover
      obtain ⟨p1, p2, p3, -⟩ := hinv.playing hplaying
      obtain ⟨g2', hg2', R⟩ := revealCell_reveals hinv.wellFormed hr hc
      rw [hrev] at hg2'
      simp only [Option.some.injEq] at hg2'
      subst hg2'
      exact sessionInv_after_reveal hplaying p1 p2 p3 R
    · have hready : g.gameState = .ready := by
        cases hgs : g.gameState
        · rfl
        · rw [(hinv.playing hgs).firstClick] at hfc; exact absurd hfc (by simp)
        · exact absurd (Or.inl hgs) hover
        · exact absurd (Or.inr hgs) hover
      obtain ⟨q0, q1, q2, q3, q4, q5, -, -, -⟩ := firstClick_prepared hinv hready hdraws hgp
      obtain ⟨g2', hg2', R⟩ := revealCell_reveals q0 (by rw [q1]; exact hr) (by rw [q1]; exact hc)
      rw [hrev] at hg2'
      simp only [Option.some.injEq] at hg2'
      subst hg2'
      exact sessionInv_after_reveal q2 q3 (by rw [q4, q1]) (by rw [q1]; exact q5) R

theorem Reachable.sessionInv {g : Game} (h : Reachable g) : SessionInv g := by
  induction h with
  | init d => exact sessionInv_initializeGame _
  | leftClick draws row col _ hr hc hdraws hclick ih =>
    exact sessionInv_handleCellClick ih hr hc hdraws hclick
  | rightClick row col _ _ _ ih => exact sessionInv_handleRightClick ih row col
  | newGameRequest d _ _ => exact sessionInv_initializeGame _
  | timerTick h _ ih => exact sessionInv_tick ih h


theorem checkWinCondition_cells {g : Game} (hw : WellFormed g) (r c : Nat) :
    (getCell (checkWinCondition g).board r c).isMine = (getCell g.board r c).isMine ∧
    (getCell (checkWinCondition g).board r c).isRevealed = (getCell g.board r c).isRevealed := by
  unfold checkWinCondition
  simp only
  split
  · have := (gameWon_spec hw).2.2.2.2.2.2.2.2 r c
    rw [this]
    exact ⟨rfl, rfl⟩
  · exact ⟨rfl, rfl⟩

theorem revealedCount_gameOver_markRevealed {g : Game} {row col : Nat}
    (hm : (getCell g.board row col).isMine = true) :
    revealedCount (gameOver (markRevealed g row col)) = revealedCount g := by
  rw [revealedCount_eq, revealedCount_eq, (gameOver_fields _).1, (gameOver_fields _).2.1]
  apply List.countP_congr
  intro q _
  by_cases he : q.1 = row ∧ q.2 = col
  · obtain ⟨h1, h2⟩ := he
    rw [h1, h2]
    rcases getCell_setCell_self_or g.board row col
      { getCell g.board row col with isRevealed := true } with h | h
    · have e : getCell (markRevealed g row col).board row col
          = { getCell g.board row col with isRevealed := true } := h
      rw [e]
      simp [hm]
    · have e : getCell (markRevealed g row col).board row col = getCell g.board row col := h
      rw [e]
  · rw [getCell_markRevealed_ne g he]


/-! ## The full invariant -/

theorem Flood.isOpen {rows cols : Nat} {b : Board} {s p : Nat × Nat}
    (h : Flood rows cols b s p) : IsOpen b p := by
  cases h with
  | start ho => exact ho
  | expand _ _ _ _ ho => exact ho

/-- Cells revealed by a run of `revealCell` carry no flag afterwards, when the
cells revealed before carried none. -/
theorem Reveals.revealedUnflagged {g g' : Game} {ps : List (Nat × Nat)} (R : Reveals g ps g')
    (h : ∀ r c, (getCell g.board r c).isRevealed = true → (getCell g.board r c).isFlagged = false)
    (r c : Nat) (hr : (getCell g'.board r c).isRevealed = true) :
    (getCell g'.board r c).isFlagged = false := by
  rw [(cells_fields R.cells r c).2.1]
  cases h0 : (getCell g.board r c).isRevealed
  · obtain ⟨s, _, hf⟩ := R.sound (r, c) ⟨h0, hr⟩
    exact hf.isOpen.2
  · exact h r c h0

theorem Reveals.flaggedCells_eq {g g' : Game} {ps : List (Nat × Nat)} (R : Reveals g ps g') :
    flaggedCells g' = flaggedCells g :=
  flaggedCells_congr R.difficulty fun r c => (cells_fields R.cells r c).2.1

/-- From a safe start cell on a consistent board the run reveals no mine and
leaves the game state as it was. -/
theorem Reveals.safeStart {g g' : Game} {row col : Nat} (R : Reveals g [(row, col)] g')
    (hcons : CountsConsistent g.difficulty.rows g.difficulty.cols g.board)
    (hr : row < g.difficulty.rows) (hc : col < g.difficulty.cols)
    (hm : (getCell g.board row col).isMine = false) :
    (∀ p, NewlyRevealed g.board g'.board p → (getCell g.board p.1 p.2).isMine = false) ∧
    g'.gameState = g.gameState ∧ g'.activeIntervals = g.activeIntervals := by
  have hsafe : ∀ p, NewlyRevealed g.board g'.board p →
      (getCell g.board p.1 p.2).isMine = false := by
    intro p hp
    obtain ⟨s, hs, hf⟩ := R.sound p hp
    rw [List.mem_singleton] at hs
    subst hs
    exact (hf.safe hcons hr hc hm).2
  refine ⟨hsafe, ?_⟩
  rcases R.outcome with h | ⟨-, -, p, hp, hpm⟩
  · exact h
  · rw [hsafe p hp] at hpm
    exact absurd hpm (by simp)

theorem clearInterval_singleton (g : Game) (h : Nat) (ha : g.activeIntervals = [h]) :
    (clearInterval g (some h)).activeIntervals = [] := by
  simp [clearInterval, ha]

theorem clearInterval_nil (g : Game) (t : Option Nat) (ha : g.activeIntervals = []) :
    (clearInterval g t).activeIntervals = [] := by
  cases t <;> simp [clearInterval, ha]

/-- The interval registered by the game, if any, is the only one that fires. -/
theorem clearInterval_timer_off {g : Game}
    (h : g.activeIntervals = [] ∨ ∃ t, g.timerInterval = some t ∧ g.activeIntervals = [t]) :
    (clearInterval g g.timerInterval).activeIntervals = [] := by
  rcases h with h | ⟨t, ht, ha⟩
  · exact clearInterval_nil g _ h
  · rw [ht]; exact clearInterval_singleton g t ha

theorem initializeGame_activeIntervals (g : Game) :
    (initializeGame g).activeIntervals = (clearInterval g g.timerInterval).activeIntervals ∧
    (initializeGame g).nextIntervalId = g.nextIntervalId := by
  unfold initializeGame
  simp only
  cases h : g.timerInterval <;> exact ⟨rfl, rfl⟩

theorem flaggedCells_eq_zero {g : Game}
    (h : ∀ r c, (getCell g.board r c).isFlagged = false) : flaggedCells g = 0 := by
  unfold flaggedCells
  rw [List.countP_eq_zero]
  intro q _
  simp [h]

theorem gameInv_initializeGame {g : Game}
    (h : g.activeIntervals = [] ∨ ∃ t, g.timerInterval = some t ∧ g.activeIntervals = [t]) :
    GameInv (initializeGame g) := by
  obtain ⟨-, h2, -, -, h5, -, -, h8⟩ := initializeGame_fields g
  have hnp : (initializeGame g).gameState ≠ .playing := by rw [h2]; simp
  refine
    { session := sessionInv_initializeGame g
      revealedUnflagged := fun r c _ => by rw [h8]; rfl
      flags := ?_
      timerOn := fun hp => absurd hp hnp
      timerOff := fun _ => ?_
      minesHidden := fun hp => absurd hp hnp
      won := fun hw => by rw [h2] at hw; exact absurd hw (by simp) }
  · rw [h5, flaggedCells_eq_zero (fun r c => by rw [h8]; rfl)]; rfl
  · rw [(initializeGame_activeIntervals g).1]
    exact clearInterval_timer_off h

theorem GameInv.timer_cases {g : Game} (hinv : GameInv g) :
    g.activeIntervals = [] ∨ ∃ t, g.timerInterval = some t ∧ g.activeIntervals = [t] := by
  by_cases hp : g.gameState = .playing
  · exact Or.inr (hinv.timerOn hp)
  · exact Or.inl (hinv.timerOff hp)

theorem gameInv_tick {g : Game} (hinv : GameInv g) (h : Nat) : GameInv (tick g h) := by
  unfold tick
  split
  · exact
      { session := sessionInv_tick hinv.session h |> fun s => by
          have : tick g h = { g with timer := g.timer + 1 } := by
            unfold tick; rw [if_pos ‹_›]
          rw [this] at s; exact s
        revealedUnflagged := hinv.revealedUnflagged
        flags := hinv.flags
        timerOn := hinv.timerOn
        timerOff := hinv.timerOff
        minesHidden := hinv.minesHidden
        won := hinv.won }
  · exact hinv

theorem gameInv_handleRightClick {g : Game} (hinv : GameInv g) {row col : Nat}
    (hr : row < g.difficulty.rows) (hc : col < g.difficulty.cols) :
    GameInv (handleRightClick g row col) := by
  have hw := hinv.session.wellFormed
  obtain ⟨-, f1, f2, -, f4, -, f6, -, f8⟩ := handleRightClick_frame hw row col
  obtain ⟨e1, e2⟩ := handleRightClick_effect hw hr hc
  have hsame : ∀ r c,
      (getCell (handleRightClick g row col).board r c).isMine = (getCell g.board r c).isMine ∧
      (getCell (handleRightClick g row col).board r c).isRevealed
        = (getCell g.board r c).isRevealed := by
    intro r c
    have := f8 r c
    refine ⟨?_, ?_⟩ <;> rw [this]
  refine
    { session := sessionInv_handleRightClick hinv.session row col
      revealedUnflagged := fun r c h => ?_
      flags := ?_
      timerOn := fun hp => by rw [f4, f6]; exact hinv.timerOn (f2 ▸ hp)
      timerOff := fun hp => by rw [f6]; exact hinv.timerOff (f2 ▸ hp)
      minesHidden := fun hp r c hm => by
        rw [(hsame r c).2]
        exact hinv.minesHidden (f2 ▸ hp) r c ((hsame r c).1 ▸ hm)
      won := fun hwon => ?_ }
  · rw [(hsame r c).2] at h
    by_cases hne : (getCell (handleRightClick g row col).board r c).isFlagged
        = (getCell g.board r c).isFlagged
    · rw [hne]; exact hinv.revealedUnflagged r c h
    · rw [e1 r c hne] at h; exact absurd h (by simp)
  · have := hinv.flags
    omega
  · rw [f2] at hwon
    have e : handleRightClick g row col = g := by
      unfold handleRightClick; rw [if_pos (Or.inl hwon)]
    rw [e]
    exact hinv.won hwon

theorem calculateNeighborCounts_frame (g : Game) :
    (calculateNeighborCounts g).gameState = g.gameState ∧
    (calculateNeighborCounts g).timer = g.timer ∧
    (calculateNeighborCounts g).timerInterval = g.timerInterval ∧
    (calculateNeighborCounts g).firstClick = g.firstClick ∧
    (calculateNeighborCounts g).flagsPlaced = g.flagsPlaced ∧
    (calculateNeighborCounts g).activeIntervals = g.activeIntervals ∧
    (calculateNeighborCounts g).nextIntervalId = g.nextIntervalId :=
  ⟨rfl, rfl, rfl, rfl, rfl, rfl, rfl⟩

theorem placeMines_frame {draws : List (Nat × Nat)} {g gp : Game} {row col : Nat}
    (hw : WellFormed g) (h : placeMines draws g row col = some gp) :
    gp.gameState = g.gameState ∧ gp.timer = g.timer ∧ gp.timerInterval = g.timerInterval ∧
    gp.firstClick = g.firstClick ∧ gp.flagsPlaced = g.flagsPlaced ∧
    gp.activeIntervals = g.activeIntervals ∧ gp.nextIntervalId = g.nextIntervalId := by
  obtain ⟨b, -, -, hgp, -⟩ := placeMines_spec hw h
  rw [hgp]
  exact calculateNeighborCounts_frame _


theorem gameInv_lost_click {g1 : Game} {row col : Nat} (P : Prepared g1 row col)
    (hm : (getCell g1.board row col).isMine = true) :
    revealCell g1 row col = some (gameOver (markRevealed g1 row col)) ∧
    checkWinCondition (gameOver (markRevealed g1 row col)) = gameOver (markRevealed g1 row col) ∧
    GameInv (gameOver (markRevealed g1 row col)) := by
  have hrev := revealCell_of_mine P.isOpen hm
  have R : Reveals g1 [(row, col)] (gameOver (markRevealed g1 row col)) :=
    reveals_mine P.wellFormed P.row_lt P.col_lt P.isOpen hm
  have hcw : checkWinCondition (gameOver (markRevealed g1 row col))
      = gameOver (markRevealed g1 row col) := by
    unfold checkWinCondition
    simp only
    rw [revealedCount_gameOver_markRevealed hm, (gameOver_fields _).1, if_neg]
    exact fun e => absurd (P.unfinished hm) (by
      have : (markRevealed g1 row col).difficulty = g1.difficulty := rfl
      rw [this] at e
      rw [e]; exact lt_irrefl _)
  have hs := sessionInv_after_reveal P.playing P.firstClick P.mines P.counts R
  rw [hcw] at hs
  have hlost : (gameOver (markRevealed g1 row col)).gameState = .lost := (gameOver_fields _).2.2.1
  refine ⟨hrev, hcw,
    { session := hs
      revealedUnflagged := R.revealedUnflagged P.revealedUnflagged
      flags := by rw [R.flagsPlaced, R.flaggedCells_eq]; exact P.flags
      timerOn := fun hp => by rw [hlost] at hp; exact absurd hp (by simp)
      timerOff := fun _ => ?_
      minesHidden := fun hp => by rw [hlost] at hp; exact absurd hp (by simp)
      won := fun hp => by rw [hlost] at hp; exact absurd hp (by simp) }⟩
  have : (gameOver (markRevealed g1 row col)).activeIntervals
      = (gameOver g1).activeIntervals := gameOver_activeIntervals_congr rfl rfl
  rw [this]
  unfold gameOver
  exact clearInterval_timer_off (g := { g1 with gameState := .lost }) (Or.inr P.timerOn)
theorem gameWon_cell_of_inv {g : Game} (hw : WellFormed g) (r c : Nat) :
    (getCell (gameWon g).board r c).isMine = (getCell g.board r c).isMine ∧
    (getCell (gameWon g).board r c).isRevealed = (getCell g.board r c).isRevealed ∧
    (getCell (gameWon g).board r c).neighborCount = (getCell g.board r c).neighborCount ∧
    (getCell (gameWon g).board r c).isFlagged =
      ((getCell g.board r c).isFlagged ||
        (decide (r < g.difficulty.rows ∧ c < g.difficulty.cols) &&
          (getCell g.board r c).isMine)) := by
  have := (gameWon_spec hw).2.2.2.2.2.2.2.2 r c
  rw [this]
  exact ⟨rfl, rfl, rfl, rfl⟩

/-- A click on a safe cell: no mine gets revealed, the game is not lost, and
the invariant holds after the win check. -/
theorem gameInv_safe_click {g1 g2 : Game} {row col : Nat} (P : Prepared g1 row col)
    (hm : (getCell g1.board row col).isMine = false)
    (hrev : revealCell g1 row col = some g2) :
    Reveals g1 [(row, col)] g2 ∧
    (∀ p, NewlyRevealed g1.board g2.board p → (getCell g1.board p.1 p.2).isMine = false) ∧
    g2.gameState = .playing ∧
    ((checkWinCondition g2).gameState = .playing ∨ (checkWinCondition g2).gameState = .won) ∧
    GameInv (checkWinCondition g2) := by
  obtain ⟨g2', hg2', R⟩ := revealCell_reveals P.wellFormed P.row_lt P.col_lt
  rw [hrev] at hg2'
  simp only [Option.some.injEq] at hg2'
  subst hg2'
  obtain ⟨hsafe, hgs, hai⟩ := R.safeStart P.counts P.row_lt P.col_lt hm
  have hplay : g2.gameState = .playing := hgs.trans P.playing
  have hs := sessionInv_after_reveal P.playing P.firstClick P.mines P.counts R
  have hru := R.revealedUnflagged P.revealedUnflagged
  have hflags : g2.flagsPlaced = (flaggedCells g2 : Int) := by
    rw [R.flagsPlaced, R.flaggedCells_eq]; exact P.flags
  have htimer : ∃ h, g2.timerInterval = some h ∧ g2.activeIntervals = [h] := by
    rw [R.timerInterval, hai]; exact P.timerOn
  have hhidden : ∀ r c, (getCell g2.board r c).isMine = true →
      (getCell g2.board r c).isRevealed = false := by
    intro r c hmine
    rw [(cells_fields R.cells r c).1] at hmine
    cases h2 : (getCell g2.board r c).isRevealed
    · rfl
    · have h1 := P.minesHidden r c hmine
      have := hsafe (r, c) ⟨h1, h2⟩
      rw [hmine] at this
      exact absurd this (by simp)
  have hmines2 : mineCells g2 = g2.difficulty.mines := by
    rw [mineCells_congr R.difficulty (fun r c => (cells_fields R.cells r c).1), R.difficulty]
    exact P.mines
  refine ⟨R, hsafe, hplay, ?_, ?_⟩
  · unfold checkWinCondition
    simp only
    split
    · exact Or.inr (gameWon_spec R.wellFormed).2.2.1
    · exact Or.inl hplay
  · by_cases hwin : (revealedCount g2 : Int)
        = (g2.difficulty.rows : Int) * (g2.difficulty.cols : Int) - (g2.difficulty.mines : Int)
    · have hcw : checkWinCondition g2 = gameWon g2 := by
        unfold checkWinCondition; exact if_pos hwin
      rw [hcw] at hs ⊢
      obtain ⟨-, w1, w2, -, w4, -, w6, -, -⟩ := gameWon_spec R.wellFormed
      have hall := (revealedCount_eq_target_iff hmines2).1 hwin
      have hnp : (gameWon g2).gameState ≠ .playing := by rw [w2]; simp
      refine
        { session := hs
          revealedUnflagged := fun r c h => ?_
          flags := ?_
          timerOn := fun hp => absurd hp hnp
          timerOff := fun _ => ?_
          minesHidden := fun hp => absurd hp hnp
          won := fun _ => ⟨?_, fun r c => ?_⟩ }
      · obtain ⟨k1, k2, -, k4⟩ := gameWon_cell_of_inv R.wellFormed r c
        rw [k2] at h
        rw [k4, hru r c h]
        cases hmine : (getCell g2.board r c).isMine
        · simp
        · rw [hhidden r c hmine] at h; exact absurd h (by simp)
      · rw [gameWon_flagsPlaced R.wellFormed, flaggedCells_gameWon R.wellFormed, hflags]
        push_cast
        rfl
      · rw [w6]
        exact clearInterval_timer_off (Or.inr htimer)
      · rw [mineCells_congr w1 (fun r c => (gameWon_cell_of_inv R.wellFormed r c).1), w1]
        exact hmines2
      · obtain ⟨k1, -, -, k4⟩ := gameWon_cell_of_inv R.wellFormed r c
        rw [k1, k4]
        by_cases hin : r < g2.difficulty.rows ∧ c < g2.difficulty.cols
        · cases hmine : (getCell g2.board r c).isMine
          · have := hru r c (hall r hin.1 c hin.2 hmine)
            simp [this]
          · simp [hin]
        · rw [getCell_default_of_not_lt R.wellFormed hin]
          simp [hin]
          rfl
    · have hcw : checkWinCondition g2 = g2 := by
        unfold checkWinCondition; exact if_neg hwin
      rw [hcw] at hs ⊢
      exact
        { session := hs
          revealedUnflagged := hru
          flags := hflags
          timerOn := fun _ => htimer
          timerOff := fun hp => absurd hplay hp
          minesHidden := fun _ => hhidden
          won := fun hp => by rw [hplay] at hp; exact absurd hp (by simp) }

theorem GameInv.gameState_of_firstClick {g : Game} (hinv : GameInv g)
    (hover : ¬ (g.gameState = .won ∨ g.gameState = .lost)) :
    (g.firstClick = false → g.gameState = .playing) ∧
    (g.firstClick = true → g.gameState = .ready) := by
  constructor
  · intro hfc
    cases hgs : g.gameState
    · rw [(hinv.session.ready hgs).1] at hfc; exact absurd hfc (by simp)
    · rfl
    · exact absurd (Or.inl hgs) hover
    · exact absurd (Or.inr hgs) hover
  · intro hfc
    cases hgs : g.gameState
    · rfl
    · rw [(hinv.session.playing hgs).firstClick] at hfc; exact absurd hfc (by simp)
    · exact absurd (Or.inl hgs) hover
    · exact absurd (Or.inr hgs) hover

/-- A later click of a session runs `revealCell` on the game as it is. -/
theorem prepared_playing {g : Game} {row col : Nat} (hinv : GameInv g)
    (hr : row < g.difficulty.rows) (hc : col < g.difficulty.cols)
    (hplaying : g.gameState = .playing) (hopen : IsOpen g.board (row, col)) :
    Prepared g row col :=
  { wellFormed := hinv.session.wellFormed
    row_lt := hr
    col_lt := hc
    playing := hplaying
    firstClick := (hinv.session.playing hplaying).firstClick
    mines := (hinv.session.playing hplaying).mines
    counts := (hinv.session.playing hplaying).counts
    isOpen := hopen
    revealedUnflagged := hinv.revealedUnflagged
    flags := hinv.flags
    timerOn := hinv.timerOn hplaying
    minesHidden := hinv.minesHidden hplaying
    unfinished := fun _ => (hinv.session.playing hplaying).unfinished }

/-- The first click of a session runs `revealCell` after the mines are placed
away from the clicked cell and the timer is started. -/
theorem prepared_firstClick {draws : List (Nat × Nat)} {g gp : Game} {row col : Nat}
    (hinv : GameInv g) (hr : row < g.difficulty.rows) (hc : col < g.difficulty.cols)
    (hready : g.gameState = .ready) (hopen : IsOpen g.board (row, col))
    (hdraws : DrawsInRange g.difficulty.rows g.difficulty.cols draws)
    (hp : placeMines draws g row col = some gp) :
    Prepared (startTimer { gp with firstClick := false, gameState := .playing }) row col ∧
    (getCell (startTimer { gp with firstClick := false, gameState := .playing }).board
      row col).isMine = false ∧
    (startTimer { gp with firstClick := false, gameState := .playing }).difficulty
      = g.difficulty ∧
    (∀ r c, (getCell (startTimer { gp with firstClick := false, gameState := .playing }).board
      r c).isRevealed = (getCell g.board r c).isRevealed) := by
  obtain ⟨q0, q1, q2, q3, q4, q5, q6, q7, q8⟩ :=
    firstClick_prepared hinv.session hready hdraws hp
  obtain ⟨-, -, -, -, f5, f6, f7⟩ := placeMines_frame hinv.session.wellFormed hp
  have hoff := hinv.timerOff (by rw [hready]; simp)
  have hrev0 : ∀ r c, (getCell g.board r c).isRevealed = false := fun r c => by
    rw [(hinv.session.ready hready).2 r c]; rfl
  refine ⟨
    { wellFormed := q0
      row_lt := by rw [q1]; exact hr
      col_lt := by rw [q1]; exact hc
      playing := q2
      firstClick := q3
      mines := by rw [q4, q1]
      counts := by rw [q1]; exact q5
      isOpen := ⟨q7 row col, (q8 row col).trans hopen.2⟩
      revealedUnflagged := fun r c h => by rw [q7 r c] at h; exact absurd h (by simp)
      flags := ?_
      timerOn := ⟨gp.nextIntervalId, rfl, ?_⟩
      minesHidden := fun r c _ => q7 r c
      unfinished := fun h => by rw [q6] at h; exact absurd h (by simp) },
    q6, q1, fun r c => (q7 r c).trans (hrev0 r c).symm⟩
  · have e := flaggedCells_congr q1 q8
    rw [e]
    exact f5.trans hinv.flags
  · show gp.nextIntervalId :: gp.activeIntervals = [gp.nextIntervalId]
    rw [f6, hoff]

theorem gameInv_handleCellClick {draws : List (Nat × Nat)} {g g' : Game} {row col : Nat}
    (hinv : GameInv g) (hr : row < g.difficulty.rows) (hc : col < g.difficulty.cols)
    (hdraws : DrawsInRange g.difficulty.rows g.difficulty.cols draws)
    (h : handleCellClick draws g row col = some g') : GameInv g' := by
  rcases handleCellClick_cases h with rfl | ⟨hover, hopen, g1, g2, hrev, rfl, hprep⟩
  · exact hinv
  · have key : ∀ {g1 : Game}, Prepared g1 row col → revealCell g1 row col = some g2 →
        GameInv (checkWinCondition g2) := by
      intro g1 P hrev1
      cases hm : (getCell g1.board row col).isMine
      · exact (gameInv_safe_click P hm hrev1).2.2.2.2
      · obtain ⟨e1, e2, e3⟩ := gameInv_lost_click P hm
        rw [hrev1] at e1
        simp only [Option.some.injEq] at e1
        subst e1
        rw [e2]; exact e3
    rcases hprep with ⟨hfc, rfl⟩ | ⟨hfc, gp, hgp, rfl⟩
    · exact key (prepared_playing hinv hr hc ((hinv.gameState_of_firstClick hover).1 hfc) hopen)
        hrev
    · exact key (prepared_firstClick hinv hr hc ((hinv.gameState_of_firstClick hover).2 hfc)
        hopen hdraws hgp).1 hrev

theorem Reachable.gameInv {g : Game} (h : Reachable g) : GameInv g := by
  induction h with
  | init d => exact gameInv_initializeGame (Or.inl rfl)
  | leftClick draws row col _ hr hc hdraws hclick ih =>
    exact gameInv_handleCellClick ih hr hc hdraws hclick
  | rightClick row col _ hr hc ih => exact gameInv_handleRightClick ih hr hc
  | @newGameRequest g d _ ih =>
    exact @gameInv_initializeGame { g with difficulty := d } ih.timer_cases
  | timerTick h _ ih => exact gameInv_tick ih h


theorem countCells_eq_zero_iff {rows cols : Nat} {b : Board} (hd : Dims rows cols b)
    (p : Cell → Bool) :
    countCells p b = 0 ↔ ∀ r < rows, ∀ c < cols, p (getCell b r c) = false := by
  rw [← countP_grid_eq_countCells hd p, List.countP_eq_zero]
  constructor
  · intro h r hr c hc
    have := h (r, c) (mem_gridCells.2 ⟨hr, hc⟩)
    simpa using this
  · intro h q hq
    obtain ⟨h1, h2⟩ := mem_gridCells.1 hq
    simp [h q.1 h1 q.2 h2]

theorem flaggedCells_eq_countCells {g : Game} (hw : WellFormed g) :
    flaggedCells g = countCells (fun x => x.isFlagged) g.board :=
  countP_grid_eq_countCells hw (fun x => x.isFlagged)

theorem mineCells_eq_countCells {g : Game} (hw : WellFormed g) :
    mineCells g = countCells (fun x => x.isMine) g.board :=
  countP_grid_eq_countCells hw (fun x => x.isMine)

theorem createBoard_board (g : Game) :
    (createBoard g).board
      = List.replicate g.difficulty.rows (List.replicate g.difficulty.cols Cell.fresh) := by
  unfold createBoard
  simp only
  apply List.ext_getElem
  · simp
  · intro n h1 h2
    simp only [List.getElem_map, List.getElem_replicate]
    apply List.ext_getElem
    · simp
    · intro m h3 h4
      simp
/-- Every cell of the flood fill from the start cell is revealed by the run. -/
theorem Reveals.flood_revealed {g g' : Game} {s p : Nat × Nat} (R : Reveals g [s] g')
    (hf : Flood g.difficulty.rows g.difficulty.cols g.board s p) :
    (getCell g'.board p.1 p.2).isRevealed = true := by
  induction hf with
  | start ho =>
    rcases R.started s (List.mem_singleton_self _) with h | h
    · exact h
    · rw [ho.2] at h; exact absurd h (by simp)
  | @expand c n hc hmine hnc hn ho ih =>
    rcases R.closed c ⟨hc.isOpen.1, ih⟩ hmine hnc n hn with h | h
    · exact h
    · rw [ho.2] at h; exact absurd h (by simp)

theorem eq_of_countP_eq_one {α : Type} [DecidableEq α] {l : List α} (hn : l.Nodup) {a : α}
    (ha : a ∈ l) {p : α → Bool} (hpa : p a = true) (hone : l.countP p = 1) :
    ∀ x ∈ l, p x = true → x = a := by
  have h1 := countP_eq_one_of_mem hn ha
  have key := (countP_eq_iff_of_imp (p := fun q => decide (q = a)) (q := p) l
    (fun x _ hx => by
      simp only [decide_eq_true_eq] at hx
      rw [hx]; exact hpa)).1 (h1.trans hone.symm)
  intro x hx hpx
  simpa using key x hx hpx


theorem getCell_newGame (d : Difficulty) (r c : Nat) :
    getCell (newGame d).board r c = Cell.fresh :=
  (initializeGame_fields _).2.2.2.2.2.2.2 r c

/-! ## `revealCell` with a log of its writes -/

theorem revealCellLog_succ (fuel : Nat) (g : Game) (row col : Nat) :
    revealCellLog (fuel + 1) g row col =
      if (getCell g.board row col).isRevealed = true ∨ (getCell g.board row col).isFlagged = true
      then some (g, [])
      else if (getCell g.board row col).isMine = true then
        some (gameOver (markRevealed g row col), [(row, col)])
      else if (getCell g.board row col).neighborCount > 0 then
        some (markRevealed g row col, [(row, col)])
      else (neighborCells g.difficulty.rows g.difficulty.cols row col).foldl
        (fun acc p => acc.bind fun st =>
          (revealCellLog fuel st.1 p.1 p.2).map fun res => (res.1, st.2 ++ res.2))
        (some (markRevealed g row col, [(row, col)])) := by
  rw [revealCellLog]
  simp only
  split
  · rfl
  split
  · rfl
  split
  · rfl
  have h := foldl_offsets (fun (acc : Option (Game × List (Nat × Nat))) (dr dc : Int) =>
      acc.bind fun st =>
      if 0 ≤ (row : Int) + dr ∧ (row : Int) + dr < (g.difficulty.rows : Int) ∧
          0 ≤ (col : Int) + dc ∧ (col : Int) + dc < (g.difficulty.cols : Int) then
        (revealCellLog fuel st.1 ((row : Int) + dr).toNat ((col : Int) + dc).toNat).map
          fun res => (res.1, st.2 ++ res.2)
      else some st) (some (markRevealed g row col, [(row, col)]))
  refine h.trans ?_
  unfold neighborCells
  rw [foldl_filterMap']
  congr 1
  funext acc d
  split
  · rfl
  · cases acc <;> rfl

/-- Dropping the log gives `revealCell` back. -/
theorem revealCellLog_fst (fuel : Nat) :
    ∀ (g : Game) (row col : Nat),
      (revealCellLog fuel g row col).map Prod.fst = revealCellFuel fuel g row col := by
  induction fuel with
  | zero => intro g row col; rfl
  | succ fuel ih =>
    intro g row col
    rw [revealCellLog_succ, revealCellFuel_succ]
    split
    · rfl
    split
    · rfl
    split
    · rfl
    generalize neighborCells g.difficulty.rows g.difficulty.cols row col = ps
    have key : ∀ (acc : Option (Game × List (Nat × Nat))),
        (ps.foldl (fun acc p => acc.bind fun st =>
          (revealCellLog fuel st.1 p.1 p.2).map fun res => (res.1, st.2 ++ res.2)) acc).map
            Prod.fst
        = ps.foldl (fun acc p => acc.bind fun g2 => revealCellFuel fuel g2 p.1 p.2)
            (acc.map Prod.fst) := by
      induction ps with
      | nil => intro acc; rfl
      | cons p ps ihp =>
        intro acc
        rw [List.foldl_cons, List.foldl_cons, ihp]
        congr 1
        cases acc with
        | none => rfl
        | some st =>
          simp only [Option.some_bind, Option.map_some', Option.map_map]
          rw [← ih st.1 p.1 p.2]
          cases revealCellLog fuel st.1 p.1 p.2 <;> rfl
    exact key _

theorem revealCellLog_reveals {fuel : Nat} {g g' : Game} {row col : Nat}
    {log : List (Nat × Nat)} (hw : WellFormed g) (hr : row < g.difficulty.rows)
    (hc : col < g.difficulty.cols) (h : revealCellLog fuel g row col = some (g', log)) :
    Reveals g [(row, col)] g' := by
  apply revealCellFuel_reveals fuel g row col g' hw hr hc
  rw [← revealCellLog_fst, h]
  rfl

theorem foldl_map_none {α β : Type} (f : α → β → Option α) (l : List β) :
    l.foldl (fun acc p => acc.bind fun st => f st p) none = none := by
  induction l with
  | nil => rfl
  | cons x xs ih => simpa using ih

/-- The log of a run is the list, without repetition, of the cells the run
reveals. -/
theorem revealCellLog_spec (fuel : Nat) :
    ∀ (g : Game) (row col : Nat) (g' : Game) (log : List (Nat × Nat)), WellFormed g →
      row < g.difficulty.rows → col < g.difficulty.cols →
      revealCellLog fuel g row col = some (g', log) →
      log.Nodup ∧ ∀ p, p ∈ log ↔ NewlyRevealed g.board g'.board p := by
  induction fuel with
  | zero =>
    intro g row col g' log _ _ _ h
    simp [revealCellLog] at h
  | succ fuel ih =>
    intro g row col g' log hw hr hc h
    have hnone : ∀ p, ¬ NewlyRevealed g.board g.board p := fun p hp => by
      obtain ⟨h1, h2⟩ := hp
      rw [h1] at h2; exact absurd h2 (by simp)
    rw [revealCellLog_succ] at h
    split at h
    · simp only [Option.some.injEq, Prod.mk.injEq] at h
      obtain ⟨rfl, rfl⟩ := h
      exact ⟨List.nodup_nil, fun p => ⟨fun hp => by simp at hp, fun hp => absurd hp (hnone p)⟩⟩
    rename_i hrf
    simp only [not_or, Bool.not_eq_true] at hrf
    have hmark : ∀ p, p ∈ [(row, col)] ↔ NewlyRevealed g.board (markRevealed g row col).board p := by
      intro p
      constructor
      · intro hp
        rw [List.mem_singleton] at hp
        subst hp
        exact ⟨hrf.1, by rw [getCell_markRevealed_self hw hr hc]⟩
      · intro hp
        rw [List.mem_singleton]
        exact newlyRevealed_markRevealed hp
    have hsingle : [(row, col)].Nodup := List.nodup_singleton _
    split at h
    · simp only [Option.some.injEq, Prod.mk.injEq] at h
      obtain ⟨rfl, rfl⟩ := h
      rw [(gameOver_fields _).2.1]
      exact ⟨hsingle, hmark⟩
    split at h
    · simp only [Option.some.injEq, Prod.mk.injEq] at h
      obtain ⟨rfl, rfl⟩ := h
      exact ⟨hsingle, hmark⟩
    -- the loop over the neighbours
    have hps : ∀ p ∈ neighborCells g.difficulty.rows g.difficulty.cols row col,
        p.1 < g.difficulty.rows ∧ p.2 < g.difficulty.cols :=
      fun p hp => ⟨(mem_neighborCells.1 hp).1, (mem_neighborCells.1 hp).2.1⟩
    generalize neighborCells g.difficulty.rows g.difficulty.cols row col = ps at h hps
    have key : ∀ (ps : List (Nat × Nat)) (ga : Game) (la : List (Nat × Nat)),
        (∀ p ∈ ps, p.1 < g.difficulty.rows ∧ p.2 < g.difficulty.cols) →
        WellFormed ga → ga.difficulty = g.difficulty → la.Nodup →
        (∀ p, p ∈ la ↔ NewlyRevealed g.board ga.board p) →
        (∀ r c, (getCell g.board r c).isRevealed = true →
          (getCell ga.board r c).isRevealed = true) →
        ps.foldl (fun acc p => acc.bind fun st =>
          (revealCellLog fuel st.1 p.1 p.2).map fun res => (res.1, st.2 ++ res.2))
          (some (ga, la)) = some (g', log) →
        log.Nodup ∧ ∀ p, p ∈ log ↔ NewlyRevealed g.board g'.board p := by
      intro ps
      induction ps with
      | nil =>
        intro ga la _ _ _ hn hmem _ hfold
        simp only [List.foldl_nil, Option.some.injEq, Prod.mk.injEq] at hfold
        obtain ⟨rfl, rfl⟩ := hfold
        exact ⟨hn, hmem⟩
      | cons p ps ihp =>
        intro ga la hin hwa hda hn hmem hmono hfold
        rw [List.foldl_cons, Option.some_bind] at hfold
        cases hcall : revealCellLog fuel ga p.1 p.2 with
        | none =>
          rw [hcall] at hfold
          simp only [Option.map_none'] at hfold
          rw [foldl_map_none] at hfold
          exact absurd hfold (by simp)
        | some res =>
          obtain ⟨gb, l⟩ := res
          rw [hcall] at hfold
          simp only [Option.map_some'] at hfold
          obtain ⟨hp1, hp2⟩ := hin p (List.mem_cons_self _ _)
          have hr' : p.1 < ga.difficulty.rows := by rw [hda]; exact hp1
          have hc' : p.2 < ga.difficulty.cols := by rw [hda]; exact hp2
          obtain ⟨hnl, hmeml⟩ := ih ga p.1 p.2 gb l hwa hr' hc' hcall
          have R := revealCellLog_reveals hwa hr' hc' hcall
          refine ihp gb (la ++ l) (fun q hq => hin q (List.mem_cons_of_mem _ hq)) R.wellFormed
            (R.difficulty.trans hda) ?_ ?_ (fun r c hrc => R.mono r c (hmono r c hrc)) hfold
          · refine List.Nodup.append hn hnl ?_
            intro q hqa hql
            have h1 := ((hmem q).1 hqa).2
            have h2 := ((hmeml q).1 hql).1
            rw [h1] at h2; exact absurd h2 (by simp)
          · intro q
            rw [List.mem_append, hmem, hmeml]
            constructor
            · rintro (⟨h1, h2⟩ | ⟨h1, h2⟩)
              · exact ⟨h1, R.mono _ _ h2⟩
              · refine ⟨?_, h2⟩
                cases h0 : (getCell g.board q.1 q.2).isRevealed
                · rfl
                · rw [hmono _ _ h0] at h1; exact absurd h1 (by simp)
            · rintro ⟨h1, h2⟩
              cases ha : (getCell ga.board q.1 q.2).isRevealed
              · exact Or.inr ⟨ha, h2⟩
              · exact Or.inl ⟨h1, ha⟩
    exact key ps (markRevealed g row col) [(row, col)] hps (markRevealed_wellFormed hw row col)
      rfl hsingle hmark (markRevealed_mono hw hr hc) h


/-- More fuel does not change the result of a run. -/
theorem revealCellFuel_succ_fuel (fuel : Nat) :
    ∀ (g : Game) (row col : Nat) (g' : Game), revealCellFuel fuel g row col = some g' →
      revealCellFuel (fuel + 1) g row col = some g' := by
  induction fuel with
  | zero =>
    intro g row col g' h
    simp [revealCellFuel] at h
  | succ fuel ih =>
    intro g row col g' h
    rw [revealCellFuel_succ] at h ⊢
    split
    · rw [if_pos ‹_›] at h; exact h
    rw [if_neg ‹_›] at h
    split
    · rw [if_pos ‹_›] at h; exact h
    rw [if_neg ‹_›] at h
    split
    · rw [if_pos ‹_›] at h; exact h
    rw [if_neg ‹_›] at h
    generalize neighborCells g.difficulty.rows g.difficulty.cols row col = ps at h ⊢
    generalize some (markRevealed g row col) = acc at h ⊢
    induction ps generalizing acc with
    | nil => exact h
    | cons p ps ihp =>
      rw [List.foldl_cons] at h ⊢
      cases acc with
      | none =>
        simp only [Option.none_bind] at h
        rw [foldl_bind_none] at h
        exact absurd h (by simp)
      | some ga =>
        simp only [Option.some_bind] at h ⊢
        cases hcall : revealCellFuel fuel ga p.1 p.2 with
        | none =>
          rw [hcall, foldl_bind_none] at h
          exact absurd h (by simp)
        | some gb =>
          rw [ih ga p.1 p.2 gb hcall]
          rw [hcall] at h
          exact ihp _ h

theorem revealCellFuel_of_le {fuel fuel' : Nat} (hle : fuel ≤ fuel') {g g' : Game}
    {row col : Nat} (h : revealCellFuel fuel g row col = some g') :
    revealCellFuel fuel' g row col = some g' := by
  induction hle with
  | refl => exact h
  | step _ ih => exact revealCellFuel_succ_fuel _ g row col g' ih

theorem hiddenCells_eq_countCells {g : Game} (hw : WellFormed g) :
    hiddenCells g = countCells (fun x => !x.isRevealed) g.board :=
  countP_grid_eq_countCells hw (fun x => !x.isRevealed)

theorem hiddenCells_le (g : Game) : hiddenCells g ≤ g.difficulty.rows * g.difficulty.cols := by
  unfold hiddenCells
  rw [← length_gridCells]
  exact List.countP_le_length _

/-! ## The claims -/

/-- C1. On a board freshly produced by `createBoard`, for every in-bounds cell
`(r, c)` and every list of in-range draws on which the placement loop
finishes, `placeMines` leaves exactly `mines` cells of the board with
`isMine = true`, and cell `(r, c)` is not one of them.  (The bound
`mines < rows * cols` of the claim is not needed for this.) -/
theorem placeMines_exact_count (g g' : Game) (r c : Nat) (draws : List (Nat × Nat))
    (_hr : r < g.difficulty.rows) (_hc : c < g.difficulty.cols)
    (hdraws : DrawsInRange g.difficulty.rows g.difficulty.cols draws)
    (h : placeMines draws (createBoard g) r c = some g') :
    countCells (fun x => x.isMine) g'.board = g.difficulty.mines ∧
      (getCell g'.board r c).isMine = false := by
  obtain ⟨b, hb, hd, -, hw', hdiff, hcells⟩ := placeMines_spec (dims_createBoard g) h
  have h0 : (gridCells g.difficulty.rows g.difficulty.cols).countP
      (fun q => (getCell (createBoard g).board q.1 q.2).isMine) = 0 := by
    rw [List.countP_eq_zero]
    intro q _
    rw [getCell_createBoard]; simp [Cell.fresh]
  obtain ⟨hcnt, hrc⟩ := placeMinesLoop_count draws hdraws
    (dims_createBoard g) h0 (Nat.zero_le _)
    (by rw [getCell_createBoard]; rfl) hb
  have hw'' : Dims g.difficulty.rows g.difficulty.cols g'.board := by
    have := hw'
    unfold WellFormed at this
    rw [hdiff] at this
    exact this
  refine ⟨?_, by rw [(hcells r c).1]; exact hrc⟩
  rw [← countP_grid_eq_countCells hw'' (fun x => x.isMine),
    countP_grid_congr (fun x => x.isMine) (fun i j => (hcells i j).1)]
  exact hcnt

/-- Witness for C1: the 3 x 3 board with one mine, first click at `(2, 2)`, the
draws `(2, 2)` (rejected) and `(0, 0)`. -/
theorem placeMines_exact_count_witness :
    (2 < (newGame tiny).difficulty.rows ∧ 2 < (newGame tiny).difficulty.cols ∧
      DrawsInRange (newGame tiny).difficulty.rows (newGame tiny).difficulty.cols [(2, 2), (0, 0)] ∧
      placeMines [(2, 2), (0, 0)] (createBoard (newGame tiny)) 2 2
        = some ((placeMines [(2, 2), (0, 0)] (createBoard (newGame tiny)) 2 2).getD (newGame tiny))) ∧
    (countCells (fun x => x.isMine)
        ((placeMines [(2, 2), (0, 0)] (createBoard (newGame tiny)) 2 2).getD (newGame tiny)).board
        = (newGame tiny).difficulty.mines ∧
      (getCell ((placeMines [(2, 2), (0, 0)] (createBoard (newGame tiny)) 2 2).getD
        (newGame tiny)).board 2 2).isMine = false) :=
  ⟨⟨by decide, by decide, by decide, by decide⟩,
    placeMines_exact_count (newGame tiny) _ 2 2 [(2, 2), (0, 0)] (by decide) (by decide)
      (by decide) (by decide)⟩

/-- C2. After `placeMines` on a freshly created board, which ends with
`calculateNeighborCounts`, every in-bounds cell that is not a mine has
`neighborCount` equal to the number of mine cells among its in-bounds eight
neighbours, a number between 0 and 8, and every mine cell still has
`neighborCount = 0`. -/
theorem neighborCounts_after_placeMines (g g' : Game) (r c : Nat) (draws : List (Nat × Nat))
    (h : placeMines draws (createBoard g) r c = some g') (row col : Nat)
    (hrow : row < g'.difficulty.rows) (hcol : col < g'.difficulty.cols) :
    ((getCell g'.board row col).isMine = false →
      (getCell g'.board row col).neighborCount
        = adjacentMineCount g'.difficulty.rows g'.difficulty.cols g'.board row col ∧
      (getCell g'.board row col).neighborCount ≤ 8) ∧
    ((getCell g'.board row col).isMine = true → (getCell g'.board row col).neighborCount = 0) := by
  obtain ⟨b, hb, hd, -, hw', hdiff, hcells⟩ := placeMines_spec (dims_createBoard g) h
  have hdiff' : g'.difficulty = g.difficulty := hdiff
  rw [hdiff'] at hrow hcol ⊢
  obtain ⟨m1, -, -, m4⟩ := hcells row col
  have hmine : ∀ i j, (getCell g'.board i j).isMine = (getCell b i j).isMine :=
    fun i j => (hcells i j).1
  constructor
  · intro hm
    rw [m1] at hm
    rw [m4, if_pos ⟨⟨hrow, hcol⟩, hm⟩]
    refine ⟨?_, countAdjacentMines_le_eight b hrow hcol hm⟩
    rw [← countAdjacentMines_congr _ _ hmine]
    exact countAdjacentMines_eq_adjacentMineCount _ _ _ (by rw [m1]; exact hm)
  · intro hm
    rw [m1] at hm
    rw [m4, if_neg (by simp [hm]), getCell_createBoard]
    rfl

/-- Witness for C2: the 3 x 3 board with the mine drawn at `(0, 0)`; the cell
`(1, 1)` is no mine and counts one mine among its neighbours. -/
theorem neighborCounts_after_placeMines_witness :
    (placeMines [(0, 0)] (createBoard (newGame tiny)) 2 2
        = some ((placeMines [(0, 0)] (createBoard (newGame tiny)) 2 2).getD (newGame tiny)) ∧
      1 < ((placeMines [(0, 0)] (createBoard (newGame tiny)) 2 2).getD
        (newGame tiny)).difficulty.rows ∧
      1 < ((placeMines [(0, 0)] (createBoard (newGame tiny)) 2 2).getD
        (newGame tiny)).difficulty.cols) ∧
    (((getCell ((placeMines [(0, 0)] (createBoard (newGame tiny)) 2 2).getD
          (newGame tiny)).board 1 1).isMine = false →
      (getCell ((placeMines [(0, 0)] (createBoard (newGame tiny)) 2 2).getD
          (newGame tiny)).board 1 1).neighborCount
        = adjacentMineCount
            ((placeMines [(0, 0)] (createBoard (newGame tiny)) 2 2).getD
              (newGame tiny)).difficulty.rows
            ((placeMines [(0, 0)] (createBoard (newGame tiny)) 2 2).getD
              (newGame tiny)).difficulty.cols
            ((placeMines [(0, 0)] (createBoard (newGame tiny)) 2 2).getD (newGame tiny)).board
            1 1 ∧
      (getCell ((placeMines [(0, 0)] (createBoard (newGame tiny)) 2 2).getD
          (newGame tiny)).board 1 1).neighborCount ≤ 8) ∧
    ((getCell ((placeMines [(0, 0)] (createBoard (newGame tiny)) 2 2).getD
          (newGame tiny)).board 1 1).isMine = true →
      (getCell ((placeMines [(0, 0)] (createBoard (newGame tiny)) 2 2).getD
          (newGame tiny)).board 1 1).neighborCount = 0)) :=
  ⟨⟨by decide, by decide, by decide⟩,
    neighborCounts_after_placeMines (newGame tiny) _ 2 2 [(0, 0)] (by decide) 1 1
      (by decide) (by decide)⟩

/-- C3. On a board whose neighbour counts are consistent with its mines, for an
in-bounds cell `(row, col)` that is hidden, unflagged and no mine,
`revealCell` returns, and the set of cells whose `isRevealed` it changes from
false to true is the least set that contains `(row, col)` and, with every
cell `c` of `neighborCount = 0` in it, every in-bounds eight-neighbour of `c`
that was hidden and unflagged before the call: that set satisfies the two
conditions (`FloodClosed`), and it lies inside every set `S` that satisfies
them, so cells with `neighborCount > 0` are revealed without being expanded.
No other cell has `isRevealed` changed, no other field of any cell changes,
and nothing but the board changes in the game. -/
theorem revealCell_flood_fill (g : Game) (row col : Nat) (hw : WellFormed g)
    (hcons : CountsConsistent g.difficulty.rows g.difficulty.cols g.board)
    (hr : row < g.difficulty.rows) (hc : col < g.difficulty.cols)
    (hopen : IsOpen g.board (row, col)) (hm : (getCell g.board row col).isMine = false) :
    ∃ g', revealCell g row col = some g' ∧
      FloodClosed g.difficulty.rows g.difficulty.cols g.board (row, col)
        (NewlyRevealed g.board g'.board) ∧
      (∀ S : Nat × Nat → Prop,
        FloodClosed g.difficulty.rows g.difficulty.cols g.board (row, col) S →
        ∀ p, NewlyRevealed g.board g'.board p → S p) ∧
      (∀ p, ¬ NewlyRevealed g.board g'.board p →
        (getCell g'.board p.1 p.2).isRevealed = (getCell g.board p.1 p.2).isRevealed) ∧
      (∀ r c, getCell g'.board r c
        = { getCell g.board r c with isRevealed := (getCell g'.board r c).isRevealed }) ∧
      g' = { g with board := g'.board } := by
  obtain ⟨g', hg', R⟩ := revealCell_reveals hw hr hc
  have hsafe : ∀ p, NewlyRevealed g.board g'.board p →
      (p.1 < g.difficulty.rows ∧ p.2 < g.difficulty.cols) ∧
        (getCell g.board p.1 p.2).isMine = false := by
    intro p hp
    obtain ⟨s, hs, hf⟩ := R.sound p hp
    rw [List.mem_singleton] at hs
    subst hs
    exact hf.safe hcons hr hc hm
  refine ⟨g', hg', ⟨?_, ?_⟩, ?_, ?_, R.cells, ?_⟩
  · refine ⟨hopen.1, ?_⟩
    rcases R.started (row, col) (List.mem_singleton_self _) with h | h
    · exact h
    · rw [hopen.2] at h; exact absurd h (by simp)
  · intro c n hcS hz hn1 hn2 hadj hno
    obtain ⟨_, hcm⟩ := hsafe c hcS
    obtain ⟨_, k1, k2, k3, k4⟩ := hadj
    rcases R.closed c hcS hcm hz n (mem_neighborCells.2 ⟨hn1, hn2, k1, k2, k3, k4⟩) with h | h
    · exact ⟨hno.1, h⟩
    · rw [hno.2] at h; exact absurd h (by simp)
  · intro S hS p hp
    obtain ⟨s, hs, hf⟩ := R.sound p hp
    rw [List.mem_singleton] at hs
    subst hs
    clear hp
    induction hf with
    | start _ => exact hS.1
    | @expand c n _ _ hnc hn ho ih =>
      obtain ⟨hn1, hn2, k1, k2, k3, k4⟩ := mem_neighborCells.1 hn
      by_cases he : c = n
      · subst he; exact ih
      · exact hS.2 c n ih hnc hn1 hn2 ⟨he, k1, k2, k3, k4⟩ ho
  · intro p hp
    cases h0 : (getCell g.board p.1 p.2).isRevealed
    · cases h1 : (getCell g'.board p.1 p.2).isRevealed
      · rfl
      · exact absurd ⟨h0, h1⟩ hp
    · exact R.mono _ _ h0
  · rcases R.outcome with ⟨gs, ai⟩ | ⟨-, -, p, hp, hpm⟩
    · have h1 := R.difficulty
      have h2 := R.timer
      have h3 := R.timerInterval
      have h4 := R.firstClick
      have h5 := R.flagsPlaced
      have h6 := R.nextIntervalId
      cases g
      cases g'
      simp only at h1 h2 h3 h4 h5 h6 gs ai
      subst h1 h2 h3 h4 h5 h6 gs ai
      rfl
    · rw [(hsafe p hp).2] at hpm
      exact absurd hpm (by simp)

/-- Witness for C3: the 3 x 3 board with its mine at `(0, 0)`, flood fill from
`(2, 2)`. -/
theorem revealCell_flood_fill_witness :
    (WellFormed tinyPlaced ∧
      CountsConsistent tinyPlaced.difficulty.rows tinyPlaced.difficulty.cols tinyPlaced.board ∧
      2 < tinyPlaced.difficulty.rows ∧ 2 < tinyPlaced.difficulty.cols ∧
      IsOpen tinyPlaced.board (2, 2) ∧ (getCell tinyPlaced.board 2 2).isMine = false) ∧
    ∃ g', revealCell tinyPlaced 2 2 = some g' ∧
      FloodClosed tinyPlaced.difficulty.rows tinyPlaced.difficulty.cols tinyPlaced.board (2, 2)
        (NewlyRevealed tinyPlaced.board g'.board) ∧
      (∀ S : Nat × Nat → Prop,
        FloodClosed tinyPlaced.difficulty.rows tinyPlaced.difficulty.cols tinyPlaced.board
          (2, 2) S →
        ∀ p, NewlyRevealed tinyPlaced.board g'.board p → S p) ∧
      (∀ p, ¬ NewlyRevealed tinyPlaced.board g'.board p →
        (getCell g'.board p.1 p.2).isRevealed = (getCell tinyPlaced.board p.1 p.2).isRevealed) ∧
      (∀ r c, getCell g'.board r c
        = { getCell tinyPlaced.board r c with isRevealed := (getCell g'.board r c).isRevealed }) ∧
      g' = { tinyPlaced with board := g'.board } :=
  ⟨⟨by decide, by decide, by decide, by decide, by decide, by decide⟩,
    revealCell_flood_fill tinyPlaced 2 2 (by decide) (by decide) (by decide) (by decide)
      (by decide) (by decide)⟩

/-- C4. For a game whose board has the dimensions of its difficulty,
`checkWinCondition` runs `gameWon`, which sets `gameState = won`, when the
number of cells of the board that are revealed and no mine equals
`rows * cols - mines`, and returns the game as it is otherwise; so a game not
won before is won afterwards if and only if the two numbers are equal.  The
outcome is the same on every board that differs from the given one in
`isFlagged` values only, and when the board holds exactly `mines` mine cells
the outcome is `won` if and only if every in-bounds cell that is no mine is
revealed. -/
theorem checkWinCondition_won_iff (g : Game) (hw : WellFormed g) :
    ((countCells Cell.isSafeRevealed g.board : Int)
        = (g.difficulty.rows : Int) * (g.difficulty.cols : Int) - (g.difficulty.mines : Int) →
      checkWinCondition g = gameWon g ∧ (checkWinCondition g).gameState = .won) ∧
    ((countCells Cell.isSafeRevealed g.board : Int)
        ≠ (g.difficulty.rows : Int) * (g.difficulty.cols : Int) - (g.difficulty.mines : Int) →
      checkWinCondition g = g) ∧
    (g.gameState ≠ .won →
      ((checkWinCondition g).gameState = .won ↔
        (countCells Cell.isSafeRevealed g.board : Int)
          = (g.difficulty.rows : Int) * (g.difficulty.cols : Int)
            - (g.difficulty.mines : Int)) ∧
      (∀ b2 : Board, Dims g.difficulty.rows g.difficulty.cols b2 →
        (∀ r c, getCell b2 r c
          = { getCell g.board r c with isFlagged := (getCell b2 r c).isFlagged }) →
        ((checkWinCondition { g with board := b2 }).gameState = .won ↔
          (checkWinCondition g).gameState = .won)) ∧
      (countCells (fun x => x.isMine) g.board = g.difficulty.mines →
        ((checkWinCondition g).gameState = .won ↔
          ∀ r < g.difficulty.rows, ∀ c < g.difficulty.cols,
            (getCell g.board r c).isMine = false →
              (getCell g.board r c).isRevealed = true))) := by
  refine ⟨?_, ?_, fun hnw => ⟨?_, ?_, ?_⟩⟩
  · intro h
    rw [← revealedCount_eq_countCells hw] at h
    have e : checkWinCondition g = gameWon g := by
      unfold checkWinCondition
      exact if_pos h
    rw [e]
    exact ⟨rfl, (gameWon_spec hw).2.2.1⟩
  · intro h
    rw [← revealedCount_eq_countCells hw] at h
    unfold checkWinCondition
    exact if_neg h
  · rw [checkWinCondition_gameState hw hnw, revealedCount_eq_countCells hw]
  · intro b2 hd2 hb2
    have hw2 : WellFormed { g with board := b2 } := hd2
    rw [checkWinCondition_gameState hw hnw, checkWinCondition_gameState hw2 hnw]
    have : revealedCount { g with board := b2 } = revealedCount g := by
      rw [revealedCount_eq, revealedCount_eq]
      apply List.countP_congr
      intro q _
      simp only
      rw [hb2 q.1 q.2]
    rw [this]
  · intro hmines
    rw [checkWinCondition_gameState hw hnw]
    apply revealedCount_eq_target_iff
    rw [← hmines]
    exact countP_grid_eq_countCells hw (fun x => x.isMine)

/-- Witness for C4: the 3 x 3 game with all eight safe cells revealed and the
win check not yet run. -/
theorem checkWinCondition_won_iff_witness :
    WellFormed tinyRevealed ∧
    (((countCells Cell.isSafeRevealed tinyRevealed.board : Int)
        = (tinyRevealed.difficulty.rows : Int) * (tinyRevealed.difficulty.cols : Int)
          - (tinyRevealed.difficulty.mines : Int) →
      checkWinCondition tinyRevealed = gameWon tinyRevealed ∧
        (checkWinCondition tinyRevealed).gameState = .won) ∧
    ((countCells Cell.isSafeRevealed tinyRevealed.board : Int)
        ≠ (tinyRevealed.difficulty.rows : Int) * (tinyRevealed.difficulty.cols : Int)
          - (tinyRevealed.difficulty.mines : Int) →
      checkWinCondition tinyRevealed = tinyRevealed) ∧
    (tinyRevealed.gameState ≠ .won →
      ((checkWinCondition tinyRevealed).gameState = .won ↔
        (countCells Cell.isSafeRevealed tinyRevealed.board : Int)
          = (tinyRevealed.difficulty.rows : Int) * (tinyRevealed.difficulty.cols : Int)
            - (tinyRevealed.difficulty.mines : Int)) ∧
      (∀ b2 : Board, Dims tinyRevealed.difficulty.rows tinyRevealed.difficulty.cols b2 →
        (∀ r c, getCell b2 r c
          = { getCell tinyRevealed.board r c with isFlagged := (getCell b2 r c).isFlagged }) →
        ((checkWinCondition { tinyRevealed with board := b2 }).gameState = .won ↔
          (checkWinCondition tinyRevealed).gameState = .won)) ∧
      (countCells (fun x => x.isMine) tinyRevealed.board = tinyRevealed.difficulty.mines →
        ((checkWinCondition tinyRevealed).gameState = .won ↔
          ∀ r < tinyRevealed.difficulty.rows, ∀ c < tinyRevealed.difficulty.cols,
            (getCell tinyRevealed.board r c).isMine = false →
              (getCell tinyRevealed.board r c).isRevealed = true)))) :=
  ⟨by decide, checkWinCondition_won_iff tinyRevealed (by decide)⟩

/-- C5. On a board with the dimensions of the difficulty, `revealCell` on an
in-bounds cell that is a mine, hidden and unflagged returns a game that is
`gameOver` of the game with the new board, so `gameState = lost`; the cell
itself has `isRevealed` set and nothing else changed, and every other cell of
the board is as it was: no flood fill happens. -/
theorem revealCell_mine_hit (g : Game) (row col : Nat) (hw : WellFormed g)
    (hr : row < g.difficulty.rows) (hc : col < g.difficulty.cols)
    (hm : (getCell g.board row col).isMine = true) (ho : IsOpen g.board (row, col)) :
    ∃ g', revealCell g row col = some g' ∧
      g'.gameState = .lost ∧
      g' = gameOver { g with board := g'.board } ∧
      getCell g'.board row col = { getCell g.board row col with isRevealed := true } ∧
      ∀ r c, ¬ (r = row ∧ c = col) → getCell g'.board r c = getCell g.board r c := by
  refine ⟨_, revealCell_of_mine ho hm, (gameOver_fields _).2.2.1, ?_, ?_, ?_⟩
  · rw [(gameOver_fields _).2.1]; rfl
  · rw [(gameOver_fields _).2.1]
    exact getCell_markRevealed_self hw hr hc
  · intro r c h
    rw [(gameOver_fields _).2.1]
    exact getCell_markRevealed_ne g h

/-- Witness for C5: the mine at the centre of the 3 x 3 board. -/
theorem revealCell_mine_hit_witness :
    (WellFormed tinyCentre ∧ 1 < tinyCentre.difficulty.rows ∧ 1 < tinyCentre.difficulty.cols ∧
      (getCell tinyCentre.board 1 1).isMine = true ∧ IsOpen tinyCentre.board (1, 1)) ∧
    ∃ g', revealCell tinyCentre 1 1 = some g' ∧
      g'.gameState = .lost ∧
      g' = gameOver { tinyCentre with board := g'.board } ∧
      getCell g'.board 1 1 = { getCell tinyCentre.board 1 1 with isRevealed := true } ∧
      ∀ r c, ¬ (r = 1 ∧ c = 1) → getCell g'.board r c = getCell tinyCentre.board r c :=
  ⟨⟨by decide, by decide, by decide, by decide, by decide⟩,
    revealCell_mine_hit tinyCentre 1 1 (by decide) (by decide) (by decide) (by decide)
      (by decide)⟩

/-- C6. In every reachable state (reachable by left clicks, right clicks,
timer ticks and also new-game requests), when a left click on an in-bounds
cell returns and some mine cell went from hidden to revealed during it, the
game is left with `gameState = lost`: the win check that `handleCellClick`
runs after `gameOver` does not turn the lost game into a won one. -/
theorem mine_click_stays_lost (g g' : Game) (draws : List (Nat × Nat)) (row col : Nat)
    (hreach : Reachable g) (hr : row < g.difficulty.rows) (hc : col < g.difficulty.cols)
    (hdraws : DrawsInRange g.difficulty.rows g.difficulty.cols draws)
    (h : handleCellClick draws g row col = some g')
    (hmine : ∃ p : Nat × Nat, NewlyRevealed g.board g'.board p ∧
      (getCell g'.board p.1 p.2).isMine = true) :
    g'.gameState = .lost := by
  have hinv := hreach.sessionInv
  obtain ⟨p, hnew, hpm⟩ := hmine
  rcases handleCellClick_cases h with rfl | ⟨hover, hopen, g1, g2, hrev, rfl, hprep⟩
  · obtain ⟨h1, h2⟩ := hnew
    rw [h1] at h2; exact absurd h2 (by simp)
  · -- the flood fill from a safe cell of a consistent board reveals no mine
    have hsafe : ∀ {g1 : Game}, WellFormed g1 → g1.difficulty = g.difficulty →
        CountsConsistent g1.difficulty.rows g1.difficulty.cols g1.board →
        (∀ r c, (getCell g1.board r c).isRevealed = (getCell g.board r c).isRevealed) →
        revealCell g1 row col = some g2 →
        (getCell g1.board row col).isMine = true := by
      intro g1 hw1 hd1 hcons hsame hrev1
      obtain ⟨g2', hg2', R⟩ := revealCell_reveals hw1 (by rw [hd1]; exact hr)
        (by rw [hd1]; exact hc)
      rw [hrev1] at hg2'
      simp only [Option.some.injEq] at hg2'
      subst hg2'
      have hcw := checkWinCondition_cells R.wellFormed p.1 p.2
      have hnew1 : NewlyRevealed g1.board g2.board p :=
        ⟨(hsame _ _).trans hnew.1, hcw.2 ▸ hnew.2⟩
      obtain ⟨s, hs, hf⟩ := R.sound p hnew1
      rw [List.mem_singleton] at hs
      subst hs
      cases hm : (getCell g1.board row col).isMine
      · have := (hf.safe hcons (by rw [hd1]; exact hr) (by rw [hd1]; exact hc) hm).2
        rw [← (cells_fields R.cells p.1 p.2).1, ← hcw.1, hpm] at this
        exact absurd this (by simp)
      · rfl
    rcases hprep with ⟨hfc, rfl⟩ | ⟨hfc, gp, hgp, rfl⟩
    · have hplaying : g1.gameState = .playing := by
        cases hgs : g1.gameState
        · rw [(hinv.ready hgs).1] at hfc; exact absurd hfc (by simp)
        · rfl
        · exact absurd (Or.inl hgs) hover
        · exact absurd (Or.inr hgs) hover
      obtain ⟨-, -, p3, p4⟩ := hinv.playing hplaying
      have hm := hsafe hinv.wellFormed rfl p3 (fun _ _ => rfl) hrev
      rw [revealCell_of_mine hopen hm] at hrev
      simp only [Option.some.injEq] at hrev
      subst hrev
      unfold checkWinCondition
      simp only
      rw [revealedCount_gameOver_markRevealed hm, (gameOver_fields _).1, if_neg]
      · exact (gameOver_fields _).2.2.1
      · exact fun e => absurd p4 (by rw [e]; exact lt_irrefl _)
    · have hready : g.gameState = .ready := by
        cases hgs : g.gameState
        · rfl
        · rw [(hinv.playing hgs).firstClick] at hfc; exact absurd hfc (by simp)
        · exact absurd (Or.inl hgs) hover
        · exact absurd (Or.inr hgs) hover
      obtain ⟨q0, q1, -, -, -, q5, q6, q7, -⟩ := firstClick_prepared hinv hready hdraws hgp
      have hm := hsafe q0 q1 (by rw [q1]; exact q5)
        (fun r c => by rw [q7, ((hinv.ready hready).2 r c)]; rfl) hrev
      rw [q6] at hm
      exact absurd hm (by simp)

/-- Witness for C6: on the 3 x 3 board with the mine at the centre, reached by a
first click at `(2, 2)`, a click on `(1, 1)`. -/
theorem mine_click_stays_lost_witness :
    (Reachable tinyCentre ∧ 1 < tinyCentre.difficulty.rows ∧ 1 < tinyCentre.difficulty.cols ∧
      DrawsInRange tinyCentre.difficulty.rows tinyCentre.difficulty.cols [] ∧
      handleCellClick [] tinyCentre 1 1 = some tinyLost ∧
      ∃ p : Nat × Nat, NewlyRevealed tinyCentre.board tinyLost.board p ∧
        (getCell tinyLost.board p.1 p.2).isMine = true) ∧
    tinyLost.gameState = .lost :=
  ⟨⟨Reachable.leftClick [(1, 1)] 2 2 (Reachable.init tiny) (by decide) (by decide) (by decide)
      (by decide), by decide, by decide, by decide, by decide, ⟨(1, 1), by decide⟩⟩,
    mine_click_stays_lost tinyCentre tinyLost [] 1 1
      (Reachable.leftClick [(1, 1)] 2 2 (Reachable.init tiny) (by decide) (by decide)
        (by decide) (by decide))
      (by decide) (by decide) (by decide) (by decide) ⟨(1, 1), by decide⟩⟩

/-- C7. For every game state and every in-bounds cell that is already revealed
or is flagged, `handleCellClick` returns the game state it was given,
whatever the draws: board, `gameState`, `firstClick`, `flagsPlaced` and timer
are unchanged, so a flagged cell stays flagged and hidden, and on the first
click of a session no mine is placed and the game stays `ready`. -/
theorem handleCellClick_revealed_or_flagged (draws : List (Nat × Nat)) (g : Game)
    (row col : Nat) (_hr : row < g.difficulty.rows) (_hc : col < g.difficulty.cols)
    (h : (getCell g.board row col).isRevealed = true ∨ (getCell g.board row col).isFlagged = true) :
    handleCellClick draws g row col = some g := by
  unfold handleCellClick
  split <;> rfl

/-- Witness for C7: a left click on the flagged cell `(0, 0)` of a fresh 3 x 3
game, the first click of the session. -/
theorem handleCellClick_revealed_or_flagged_witness :
    (0 < tinyFlagged.difficulty.rows ∧ 0 < tinyFlagged.difficulty.cols ∧
      ((getCell tinyFlagged.board 0 0).isRevealed = true ∨
        (getCell tinyFlagged.board 0 0).isFlagged = true)) ∧
    handleCellClick [(1, 1)] tinyFlagged 0 0 = some tinyFlagged :=
  ⟨⟨by decide, by decide, by decide⟩,
    handleCellClick_revealed_or_flagged [(1, 1)] tinyFlagged 0 0 (by decide) (by decide)
      (by decide)⟩

/-- C8. For every game state with `gameState` won or lost and every in-bounds
cell, `handleCellClick` and `handleRightClick` both return the game state
they were given. -/
theorem handlers_noop_when_over (draws : List (Nat × Nat)) (g : Game) (row col : Nat)
    (_hr : row < g.difficulty.rows) (_hc : col < g.difficulty.cols)
    (h : g.gameState = .won ∨ g.gameState = .lost) :
    handleCellClick draws g row col = some g ∧ handleRightClick g row col = g := by
  unfold handleCellClick handleRightClick
  rw [if_pos h, if_pos h]
  exact ⟨rfl, rfl⟩

/-- Witness for C8: clicks on the lost 3 x 3 game. -/
theorem handlers_noop_when_over_witness :
    (0 < tinyLost.difficulty.rows ∧ 0 < tinyLost.difficulty.cols ∧
      (tinyLost.gameState = .won ∨ tinyLost.gameState = .lost)) ∧
    (handleCellClick [] tinyLost 0 0 = some tinyLost ∧ handleRightClick tinyLost 0 0 = tinyLost) :=
  ⟨⟨by decide, by decide, by decide⟩,
    handlers_noop_when_over [] tinyLost 0 0 (by decide) (by decide) (by decide)⟩

/-- C9. For a game with `gameState` ready or playing whose board has the
dimensions of the difficulty, and an in-bounds cell: when the cell is
revealed `handleRightClick` returns the game unchanged; otherwise it flips
`isFlagged` of that cell and leaves its other fields, leaves every other
cell as it was, adds 1 to `flagsPlaced` when the flag is set and subtracts 1
when it is cleared, and changes nothing else of the game (`gameState`,
`firstClick`, timer): flagging in the ready state places no mine and does
not start the game. -/
theorem handleRightClick_toggle (g : Game) (row col : Nat) (hw : WellFormed g)
    (hr : row < g.difficulty.rows) (hc : col < g.difficulty.cols)
    (hs : g.gameState = .ready ∨ g.gameState = .playing) :
    ((getCell g.board row col).isRevealed = true → handleRightClick g row col = g) ∧
    ((getCell g.board row col).isRevealed = false →
      getCell (handleRightClick g row col).board row col
        = { getCell g.board row col with isFlagged := !(getCell g.board row col).isFlagged } ∧
      (∀ r c, ¬ (r = row ∧ c = col) →
        getCell (handleRightClick g row col).board r c = getCell g.board r c) ∧
      (handleRightClick g row col).flagsPlaced
        = g.flagsPlaced + (if (getCell g.board row col).isFlagged = true then -1 else 1) ∧
      handleRightClick g row col
        = { g with board := (handleRightClick g row col).board,
                   flagsPlaced := (handleRightClick g row col).flagsPlaced }) := by
  have hnot : ¬ (g.gameState = .won ∨ g.gameState = .lost) := by
    rcases hs with h | h <;> rw [h] <;> simp
  constructor
  · intro hrev
    unfold handleRightClick
    rw [if_neg hnot, if_pos hrev]
  · intro hrev
    unfold handleRightClick
    rw [if_neg hnot, if_neg (by simp [hrev])]
    split
    · rename_i hf
      refine ⟨?_, fun r c h => getCell_setCell_ne _ _ _ _ _ _ h, ?_, rfl⟩
      · simp only
        rw [getCell_setCell_self hw hr hc, hf]; rfl
      · simp only [if_true]; ring
    · rename_i hf
      simp only [Bool.not_eq_true] at hf
      refine ⟨?_, fun r c h => getCell_setCell_ne _ _ _ _ _ _ h, ?_, rfl⟩
      · simp only
        rw [getCell_setCell_self hw hr hc, hf]; rfl
      · simp

/-- Witness for C9: a right click on `(0, 0)` of the fresh 3 x 3 game. -/
theorem handleRightClick_toggle_witness :
    (WellFormed (newGame tiny) ∧ 0 < (newGame tiny).difficulty.rows ∧
      0 < (newGame tiny).difficulty.cols ∧
      ((newGame tiny).gameState = .ready ∨ (newGame tiny).gameState = .playing)) ∧
    (((getCell (newGame tiny).board 0 0).isRevealed = true →
        handleRightClick (newGame tiny) 0 0 = newGame tiny) ∧
    ((getCell (newGame tiny).board 0 0).isRevealed = false →
      getCell (handleRightClick (newGame tiny) 0 0).board 0 0
        = { getCell (newGame tiny).board 0 0 with
            isFlagged := !(getCell (newGame tiny).board 0 0).isFlagged } ∧
      (∀ r c, ¬ (r = 0 ∧ c = 0) →
        getCell (handleRightClick (newGame tiny) 0 0).board r c
          = getCell (newGame tiny).board r c) ∧
      (handleRightClick (newGame tiny) 0 0).flagsPlaced
        = (newGame tiny).flagsPlaced
          + (if (getCell (newGame tiny).board 0 0).isFlagged = true then -1 else 1) ∧
      handleRightClick (newGame tiny) 0 0
        = { newGame tiny with board := (handleRightClick (newGame tiny) 0 0).board,
                              flagsPlaced := (handleRightClick (newGame tiny) 0 0).flagsPlaced })) :=
  ⟨⟨by decide, by decide, by decide, by decide⟩,
    handleRightClick_toggle (newGame tiny) 0 0 (by decide) (by decide) (by decide) (by decide)⟩

/-- C10. For a game with `gameState` ready or playing whose board has the
dimensions of the difficulty, and an in-bounds hidden cell, two consecutive
`handleRightClick` calls on that cell give back the game state they started
from: `flagsPlaced` and the `isFlagged` of the cell are the original ones. -/
theorem handleRightClick_twice (g : Game) (row col : Nat) (hw : WellFormed g)
    (hr : row < g.difficulty.rows) (hc : col < g.difficulty.cols)
    (hs : g.gameState = .ready ∨ g.gameState = .playing)
    (hrev : (getCell g.board row col).isRevealed = false) :
    handleRightClick (handleRightClick g row col) row col = g ∧
    (handleRightClick (handleRightClick g row col) row col).flagsPlaced = g.flagsPlaced ∧
    (getCell (handleRightClick (handleRightClick g row col) row col).board row col).isFlagged
      = (getCell g.board row col).isFlagged := by
  have hnot : ¬ (g.gameState = .won ∨ g.gameState = .lost) := by
    rcases hs with h | h <;> rw [h] <;> simp
  have key : handleRightClick (handleRightClick g row col) row col = g := by
    cases hf : (getCell g.board row col).isFlagged
    · rw [handleRightClick_unflagged hnot hrev hf]
      have hcell := getCell_setCell_self hw hr hc
        { getCell g.board row col with isFlagged := true }
      rw [@handleRightClick_flagged
        { g with
          board := setCell g.board row col { getCell g.board row col with isFlagged := true }
          flagsPlaced := g.flagsPlaced + 1 } row col hnot
        (by simp only; rw [hcell]; exact hrev) (by simp only; rw [hcell])]
      simp only
      rw [hcell, setCell_setCell]
      have e : ({ isMine := (getCell g.board row col).isMine,
                  isRevealed := (getCell g.board row col).isRevealed,
                  isFlagged := false,
                  neighborCount := (getCell g.board row col).neighborCount } : Cell)
          = getCell g.board row col := by
        rw [← hf]
      rw [e, setCell_getCell, add_sub_cancel_right]
    · rw [handleRightClick_flagged hnot hrev hf]
      have hcell := getCell_setCell_self hw hr hc
        { getCell g.board row col with isFlagged := false }
      rw [@handleRightClick_unflagged
        { g with
          board := setCell g.board row col { getCell g.board row col with isFlagged := false }
          flagsPlaced := g.flagsPlaced - 1 } row col hnot
        (by simp only; rw [hcell]; exact hrev) (by simp only; rw [hcell])]
      simp only
      rw [hcell, setCell_setCell]
      have e : ({ isMine := (getCell g.board row col).isMine,
                  isRevealed := (getCell g.board row col).isRevealed,
                  isFlagged := true,
                  neighborCount := (getCell g.board row col).neighborCount } : Cell)
          = getCell g.board row col := by
        rw [← hf]
      rw [e, setCell_getCell, sub_add_cancel]
  rw [key]
  exact ⟨rfl, rfl, rfl⟩

/-- Witness for C10: two right clicks on `(0, 0)` of the fresh 3 x 3 game. -/
theorem handleRightClick_twice_witness :
    (WellFormed (newGame tiny) ∧ 0 < (newGame tiny).difficulty.rows ∧
      0 < (newGame tiny).difficulty.cols ∧
      ((newGame tiny).gameState = .ready ∨ (newGame tiny).gameState = .playing) ∧
      (getCell (newGame tiny).board 0 0).isRevealed = false) ∧
    (handleRightClick (handleRightClick (newGame tiny) 0 0) 0 0 = newGame tiny ∧
      (handleRightClick (handleRightClick (newGame tiny) 0 0) 0 0).flagsPlaced
        = (newGame tiny).flagsPlaced ∧
      (getCell (handleRightClick (handleRightClick (newGame tiny) 0 0) 0 0).board 0 0).isFlagged
        = (getCell (newGame tiny).board 0 0).isFlagged) :=
  ⟨⟨by decide, by decide, by decide, by decide, by decide⟩,
    handleRightClick_twice (newGame tiny) 0 0 (by decide) (by decide) (by decide) (by decide)
      (by decide)⟩

/-- C11. In every reachable state (left clicks, right clicks, new-game requests
and timer ticks from the state the constructor leaves) no cell is both
revealed and flagged: not at any position of the grid, and the number of
cells of the board with `isRevealed` and `isFlagged` both true is 0.  The won
states, in which `gameWon` has flagged the mines, are among the reachable
ones. -/
theorem reachable_not_revealed_and_flagged (g : Game) (h : Reachable g) :
    (∀ r c, ¬ ((getCell g.board r c).isRevealed = true ∧ (getCell g.board r c).isFlagged = true)) ∧
    countCells (fun x => x.isRevealed && x.isFlagged) g.board = 0 := by
  have hinv := h.gameInv
  have h1 : ∀ r c, ¬ ((getCell g.board r c).isRevealed = true ∧
      (getCell g.board r c).isFlagged = true) := by
    rintro r c ⟨hr, hf⟩
    rw [hinv.revealedUnflagged r c hr] at hf
    exact absurd hf (by simp)
  refine ⟨h1, ?_⟩
  rw [countCells_eq_zero_iff hinv.session.wellFormed]
  intro r _ c _
  cases hr : (getCell g.board r c).isRevealed
  · simp
  · simp [hinv.revealedUnflagged r c hr]

/-- Witness for C11: the won 3 x 3 game, its mine flagged by `gameWon`. -/
theorem reachable_not_revealed_and_flagged_witness :
    Reachable tinyWon ∧
    ((∀ r c, ¬ ((getCell tinyWon.board r c).isRevealed = true ∧
        (getCell tinyWon.board r c).isFlagged = true)) ∧
      countCells (fun x => x.isRevealed && x.isFlagged) tinyWon.board = 0) :=
  ⟨Reachable.leftClick [(0, 0)] 2 2 (Reachable.init tiny) (by decide) (by decide) (by decide)
      (by decide),
    reachable_not_revealed_and_flagged tinyWon
      (Reachable.leftClick [(0, 0)] 2 2 (Reachable.init tiny) (by decide) (by decide) (by decide)
        (by decide))⟩

/-- C12. On the 3 x 3 difficulty with 1 mine, from every reachable state that
is ready and has no flag, when the placement of a first left click at
`(2, 2)` puts the mine at `(0, 0)`, the click reveals the eight cells other
than `(0, 0)`, leaves `(0, 0)` hidden, and ends with `gameState = won`. -/
theorem tiny_first_click_wins (g g' : Game) (draws : List (Nat × Nat)) (hreach : Reachable g)
    (hd : g.difficulty = tiny) (hready : g.gameState = .ready)
    (hnoflag : ∀ r c, (getCell g.board r c).isFlagged = false)
    (hdraws : DrawsInRange 3 3 draws)
    (hclick : handleCellClick draws g 2 2 = some g')
    (hmine : (getCell g'.board 0 0).isMine = true) :
    g'.gameState = .won ∧ (getCell g'.board 0 0).isRevealed = false ∧
    ∀ r < 3, ∀ c < 3, (r, c) ≠ (0, 0) → (getCell g'.board r c).isRevealed = true := by
  have hinv := hreach.gameInv
  have hrows : g.difficulty.rows = 3 := by rw [hd]; rfl
  have hcols : g.difficulty.cols = 3 := by rw [hd]; rfl
  have hmines : g.difficulty.mines = 1 := by rw [hd]; rfl
  obtain ⟨hfc, hfresh⟩ := hinv.session.ready hready
  rcases handleCellClick_cases hclick with rfl | ⟨hover, hopen, g1, g2, hrev, rfl, hprep⟩
  · rw [hfresh 0 0] at hmine
    exact absurd hmine (by simp [Cell.fresh])
  rcases hprep with ⟨hfc', -⟩ | ⟨-, gp, hgp, rfl⟩
  · rw [hfc] at hfc'; exact absurd hfc' (by simp)
  have hdraws' : DrawsInRange g.difficulty.rows g.difficulty.cols draws := by
    rw [hrows, hcols]; exact hdraws
  obtain ⟨P, hm1, q1, hsame⟩ := prepared_firstClick hinv (by rw [hrows]; decide)
    (by rw [hcols]; decide) hready hopen hdraws' hgp
  obtain ⟨-, -, -, -, -, -, -, -, q8⟩ := firstClick_prepared hinv.session hready hdraws' hgp
  generalize hg1 : startTimer { gp with firstClick := false, gameState := .playing } = g1
    at P hm1 q1 hsame q8 hrev
  have hr1 : g1.difficulty.rows = 3 := by rw [q1]; exact hrows
  have hc1 : g1.difficulty.cols = 3 := by rw [q1]; exact hcols
  have hmi1 : g1.difficulty.mines = 1 := by rw [q1]; exact hmines
  obtain ⟨R, hsafe, hplay, -, -⟩ := gameInv_safe_click P hm1 hrev
  have hcell : ∀ r c, (getCell (checkWinCondition g2).board r c).isMine
        = (getCell g1.board r c).isMine ∧
      (getCell (checkWinCondition g2).board r c).isRevealed
        = (getCell g2.board r c).isRevealed := fun r c =>
    ⟨(checkWinCondition_cells R.wellFormed r c).1.trans (cells_fields R.cells r c).1,
      (checkWinCondition_cells R.wellFormed r c).2⟩
  rw [(hcell 0 0).1] at hmine
  -- the mine at `(0, 0)` is the only one
  have honly : ∀ r c, (getCell g1.board r c).isMine = (getCell tinyPlaced.board r c).isMine := by
    intro r c
    by_cases hin : r < 3 ∧ c < 3
    · have hone : (gridCells 3 3).countP (fun q => (getCell g1.board q.1 q.2).isMine) = 1 := by
        have := P.mines
        unfold mineCells at this
        rw [hr1, hc1, hmi1] at this
        exact this
      have huniq := eq_of_countP_eq_one (nodup_gridCells 3 3) (a := (0, 0)) (by decide)
        (p := fun q => (getCell g1.board q.1 q.2).isMine) hmine hone
      by_cases h00 : (r, c) = (0, 0)
      · simp only [Prod.mk.injEq] at h00
        obtain ⟨rfl, rfl⟩ := h00
        rw [hmine]; decide
      · have hnm : (getCell g1.board r c).isMine = false := by
          cases hm : (getCell g1.board r c).isMine
          · rfl
          · exact absurd (huniq (r, c) (mem_gridCells.2 hin) hm) h00
        rw [hnm]
        obtain ⟨h1, h2⟩ := hin
        interval_cases r <;> interval_cases c <;> first | rfl | exact absurd rfl h00
    · have e1 := getCell_default_of_not_lt P.wellFormed (r := r) (c := c)
        (by rw [hr1, hc1]; exact hin)
      have e2 := getCell_default_of_not_lt (show Dims 3 3 tinyPlaced.board by decide) hin
      rw [e1, e2]
  have hnc : ∀ r < 3, ∀ c < 3, (getCell g1.board r c).isMine = false →
      (getCell g1.board r c).neighborCount = adjacentMineCount 3 3 tinyPlaced.board r c := by
    intro r hr c hc hm
    have := P.counts r (by rw [hr1]; exact hr) c (by rw [hc1]; exact hc) hm
    rw [this, hr1, hc1]
    exact adjacentMineCount_congr 3 3 honly r c
  have hopenAll : ∀ p : Nat × Nat, IsOpen g1.board p := fun p =>
    ⟨(hsame p.1 p.2).trans (by rw [hfresh p.1 p.2]; rfl), (q8 p.1 p.2).trans (hnoflag _ _)⟩
  have hsafeCell : ∀ r c, (r, c) ≠ (0, 0) → (getCell g1.board r c).isMine = false := by
    intro r c hne
    rw [honly]
    by_cases hin : r < 3 ∧ c < 3
    · obtain ⟨h1, h2⟩ := hin
      interval_cases r <;> interval_cases c <;> first | rfl | exact absurd rfl hne
    · rw [getCell_default_of_not_lt (show Dims 3 3 tinyPlaced.board by decide) hin]; rfl
  -- the flood fill from `(2, 2)`
  have f22 : Flood 3 3 g1.board (2, 2) (2, 2) := Flood.start (hopenAll _)
  have step : ∀ {c : Nat × Nat} (n : Nat × Nat), Flood 3 3 g1.board (2, 2) c →
      c.1 < 3 → c.2 < 3 → c ≠ (0, 0) → adjacentMineCount 3 3 tinyPlaced.board c.1 c.2 = 0 →
      n ∈ neighborCells 3 3 c.1 c.2 → Flood 3 3 g1.board (2, 2) n := by
    intro c n hf h1 h2 hne hz hn
    have hm := hsafeCell c.1 c.2 hne
    exact Flood.expand hf hm ((hnc c.1 h1 c.2 h2 hm).trans hz) hn (hopenAll n)
  have f12 : Flood 3 3 g1.board (2, 2) (1, 2) :=
    step (1, 2) f22 (by decide) (by decide) (by decide) (by decide) (by decide)
  have f21 : Flood 3 3 g1.board (2, 2) (2, 1) :=
    step (2, 1) f22 (by decide) (by decide) (by decide) (by decide) (by decide)
  have f11 : Flood 3 3 g1.board (2, 2) (1, 1) :=
    step (1, 1) f22 (by decide) (by decide) (by decide) (by decide) (by decide)
  have f01 : Flood 3 3 g1.board (2, 2) (0, 1) :=
    step (0, 1) f12 (by decide) (by decide) (by decide) (by decide) (by decide)
  have f02 : Flood 3 3 g1.board (2, 2) (0, 2) :=
    step (0, 2) f12 (by decide) (by decide) (by decide) (by decide) (by decide)
  have f10 : Flood 3 3 g1.board (2, 2) (1, 0) :=
    step (1, 0) f21 (by decide) (by decide) (by decide) (by decide) (by decide)
  have f20 : Flood 3 3 g1.board (2, 2) (2, 0) :=
    step (2, 0) f21 (by decide) (by decide) (by decide) (by decide) (by decide)
  have hflood : ∀ r < 3, ∀ c < 3, (r, c) ≠ (0, 0) → Flood 3 3 g1.board (2, 2) (r, c) := by
    intro r hr c hc hne
    interval_cases r <;> interval_cases c <;> first | assumption | exact absurd rfl hne
  have hrevealed : ∀ r < 3, ∀ c < 3, (r, c) ≠ (0, 0) →
      (getCell g2.board r c).isRevealed = true := by
    intro r hr c hc hne
    have hf : Flood g1.difficulty.rows g1.difficulty.cols g1.board (2, 2) (r, c) := by
      rw [hr1, hc1]; exact hflood r hr c hc hne
    exact R.flood_revealed hf
  have hhidden : (getCell g2.board 0 0).isRevealed = false := by
    cases h2 : (getCell g2.board 0 0).isRevealed
    · rfl
    · have := hsafe (0, 0) ⟨(hopenAll (0, 0)).1, h2⟩
      simp only at this
      rw [hmine] at this
      exact absurd this (by simp)
  have hmines2 : mineCells g2 = g2.difficulty.mines := by
    rw [mineCells_congr R.difficulty (fun r c => (cells_fields R.cells r c).1), R.difficulty]
    exact P.mines
  have hwin : (revealedCount g2 : Int)
      = (g2.difficulty.rows : Int) * (g2.difficulty.cols : Int) - (g2.difficulty.mines : Int) := by
    rw [revealedCount_eq_target_iff hmines2, R.difficulty, hr1, hc1]
    intro r hr c hc hm
    apply hrevealed r hr c hc
    intro e
    simp only [Prod.mk.injEq] at e
    obtain ⟨rfl, rfl⟩ := e
    rw [(cells_fields R.cells 0 0).1, hmine] at hm
    exact absurd hm (by simp)
  have hcw : checkWinCondition g2 = gameWon g2 := by
    unfold checkWinCondition; exact if_pos hwin
  refine ⟨?_, ?_, fun r hr c hc hne => ?_⟩
  · rw [hcw]; exact (gameWon_spec R.wellFormed).2.2.1
  · rw [(hcell 0 0).2]; exact hhidden
  · rw [(hcell r c).2]; exact hrevealed r hr c hc hne

/-- Witness for C12: the session the constructor leaves, with the draw
`(0, 0)`. -/
theorem tiny_first_click_wins_witness :
    (Reachable (newGame tiny) ∧ (newGame tiny).difficulty = tiny ∧
      (newGame tiny).gameState = .ready ∧
      (∀ r c, (getCell (newGame tiny).board r c).isFlagged = false) ∧
      DrawsInRange 3 3 [(0, 0)] ∧
      handleCellClick [(0, 0)] (newGame tiny) 2 2 = some tinyWon ∧
      (getCell tinyWon.board 0 0).isMine = true) ∧
    (tinyWon.gameState = .won ∧ (getCell tinyWon.board 0 0).isRevealed = false ∧
      ∀ r < 3, ∀ c < 3, (r, c) ≠ (0, 0) → (getCell tinyWon.board r c).isRevealed = true) :=
  ⟨⟨Reachable.init tiny, by decide, by decide,
      fun r c => by rw [getCell_newGame]; rfl, by decide, by decide, by decide⟩,
    tiny_first_click_wins (newGame tiny) tinyWon [(0, 0)] (Reachable.init tiny) (by decide)
      (by decide) (fun r c => by rw [getCell_newGame]; rfl) (by decide) (by decide)
      (by decide)⟩

/-- C13. For each of the difficulties easy, medium and hard, and whatever the
game was before, `createBoard` leaves a board of exactly `rows` rows with
exactly `cols` cells each, `rows * cols` cells in total, every cell with
`isMine`, `isRevealed` and `isFlagged` false and `neighborCount = 0`. -/
theorem createBoard_dimensions (name : DifficultyName) (g : Game) :
    (createBoard { g with difficulty := difficulties name }).board.length
      = (difficulties name).rows ∧
    (∀ row ∈ (createBoard { g with difficulty := difficulties name }).board,
      row.length = (difficulties name).cols) ∧
    ((createBoard { g with difficulty := difficulties name }).board.map List.length).sum
      = (difficulties name).rows * (difficulties name).cols ∧
    (∀ row ∈ (createBoard { g with difficulty := difficulties name }).board, ∀ cell ∈ row,
      cell.isMine = false ∧ cell.isRevealed = false ∧ cell.isFlagged = false ∧
        cell.neighborCount = 0) ∧
    (createBoard { g with difficulty := difficulties name }).board
      = List.replicate (difficulties name).rows
          (List.replicate (difficulties name).cols Cell.fresh) := by
  have hb := createBoard_board { g with difficulty := difficulties name }
  simp only at hb
  rw [hb]
  refine ⟨by simp, ?_, ?_, ?_, rfl⟩
  · intro row hrow
    rw [List.eq_of_mem_replicate hrow]; simp
  · simp
  · intro row hrow cell hcell
    rw [List.eq_of_mem_replicate hrow] at hcell
    rw [List.eq_of_mem_replicate hcell]
    exact ⟨rfl, rfl, rfl, rfl⟩

/-- C14. From every game state `initializeGame` gives `gameState = ready`,
`timer = 0`, `firstClick = true`, `flagsPlaced = 0`, no interval handle, the
interval of the old handle no longer firing, and a fresh board of the
dimensions of the current difficulty; these fields are the same for any two
previous states with the same difficulty.  From a reachable state no
interval fires afterwards at all, so no tick changes the new session. -/
theorem initializeGame_resets (g : Game) :
    (initializeGame g).gameState = .ready ∧
    (initializeGame g).timer = 0 ∧
    (initializeGame g).firstClick = true ∧
    (initializeGame g).flagsPlaced = 0 ∧
    (initializeGame g).timerInterval = none ∧
    (∀ t, g.timerInterval = some t → t ∉ (initializeGame g).activeIntervals) ∧
    (initializeGame g).difficulty = g.difficulty ∧
    (initializeGame g).board
      = List.replicate g.difficulty.rows (List.replicate g.difficulty.cols Cell.fresh) ∧
    (∀ g2 : Game, g2.difficulty = g.difficulty →
      (initializeGame g2).difficulty = (initializeGame g).difficulty ∧
      (initializeGame g2).board = (initializeGame g).board ∧
      (initializeGame g2).gameState = (initializeGame g).gameState ∧
      (initializeGame g2).timer = (initializeGame g).timer ∧
      (initializeGame g2).timerInterval = (initializeGame g).timerInterval ∧
      (initializeGame g2).firstClick = (initializeGame g).firstClick ∧
      (initializeGame g2).flagsPlaced = (initializeGame g).flagsPlaced) ∧
    (Reachable g →
      (initializeGame g).activeIntervals = [] ∧ ∀ t, tick (initializeGame g) t = initializeGame g) := by
  have hfields : ∀ g : Game,
      (initializeGame g).gameState = .ready ∧ (initializeGame g).timer = 0 ∧
      (initializeGame g).firstClick = true ∧ (initializeGame g).flagsPlaced = 0 ∧
      (initializeGame g).timerInterval = none ∧ (initializeGame g).difficulty = g.difficulty ∧
      (initializeGame g).board
        = List.replicate g.difficulty.rows (List.replicate g.difficulty.cols Cell.fresh) := by
    intro g
    obtain ⟨h1, h2, h3, h4, h5, h6, -, -⟩ := initializeGame_fields g
    refine ⟨h2, h3, h4, h5, h6, h1, ?_⟩
    unfold initializeGame
    simp only
    cases g.timerInterval <;> exact createBoard_board _
  obtain ⟨a1, a2, a3, a4, a5, a6, a7⟩ := hfields g
  refine ⟨a1, a2, a3, a4, a5, ?_, a6, a7, ?_, ?_⟩
  · intro t ht
    rw [(initializeGame_activeIntervals g).1, ht]
    simp [clearInterval]
  · intro g2 hd
    obtain ⟨b1, b2, b3, b4, b5, b6, b7⟩ := hfields g2
    refine ⟨by rw [b6, a6, hd], by rw [b7, a7, hd], by rw [b1, a1], by rw [b2, a2],
      by rw [b5, a5], by rw [b3, a3], by rw [b4, a4]⟩
  · intro hreach
    have hoff : (initializeGame g).activeIntervals = [] := by
      rw [(initializeGame_activeIntervals g).1]
      exact clearInterval_timer_off hreach.gameInv.timer_cases
    refine ⟨hoff, fun t => ?_⟩
    unfold tick
    rw [hoff]
    simp

/-- C15. On a board with the dimensions of the difficulty `gameWon` sets
`isFlagged` on every in-bounds mine, changes no other field and no flag of a
cell that is no mine, adds to `flagsPlaced` exactly the number of mines that
were not flagged, and sets `gameState = won`.  In every reachable won state
the flagged cells are exactly the mine cells, and `flagsPlaced` equals the
mine count of the difficulty, which is the number of mines on the board. -/
theorem gameWon_flags_mines (g : Game) :
    (WellFormed g →
      (∀ r c, getCell (gameWon g).board r c =
        { getCell g.board r c with
          isFlagged := (getCell g.board r c).isFlagged ||
            (decide (r < g.difficulty.rows ∧ c < g.difficulty.cols) &&
              (getCell g.board r c).isMine) }) ∧
      (gameWon g).flagsPlaced = g.flagsPlaced +
        (countCells (fun x => x.isMine && !x.isFlagged) g.board : Int) ∧
      (gameWon g).gameState = .won) ∧
    (Reachable g → g.gameState = .won →
      (∀ r c, (getCell g.board r c).isFlagged = (getCell g.board r c).isMine) ∧
      g.flagsPlaced = (g.difficulty.mines : Int) ∧
      countCells (fun x => x.isMine) g.board = g.difficulty.mines) := by
  constructor
  · intro hw
    refine ⟨(gameWon_spec hw).2.2.2.2.2.2.2.2, ?_, (gameWon_spec hw).2.2.1⟩
    rw [gameWon_flagsPlaced hw, ← countP_grid_eq_countCells hw (fun x => x.isMine && !x.isFlagged)]
  · intro hreach hwon
    have hinv := hreach.gameInv
    obtain ⟨hm, hfm⟩ := hinv.won hwon
    refine ⟨hfm, ?_, ?_⟩
    · rw [hinv.flags, ← hm]
      congr 1
      unfold flaggedCells mineCells
      apply List.countP_congr
      intro q _
      rw [hfm]
    · rw [← mineCells_eq_countCells hinv.session.wellFormed]; exact hm

/-- C16. On a board with the dimensions of the difficulty and for an in-bounds
start cell, the recursion of `revealCell` ends: the fuel `rows * cols + 1`
gives a result and every larger fuel gives the same one.  The log of the
writes `isRevealed = true` of the run has no cell twice, holds exactly the
cells the run reveals (each hidden before the call), and is at most as long
as the number of cells hidden before the call, which is at most
`rows * cols`. -/
theorem revealCell_terminates (g : Game) (row col : Nat) (hw : WellFormed g)
    (hr : row < g.difficulty.rows) (hc : col < g.difficulty.cols) :
    ∃ (g' : Game) (log : List (Nat × Nat)),
      revealCell g row col = some g' ∧
      (∀ fuel, g.difficulty.rows * g.difficulty.cols + 1 ≤ fuel →
        revealCellFuel fuel g row col = some g') ∧
      revealCellLog (g.difficulty.rows * g.difficulty.cols + 1) g row col = some (g', log) ∧
      log.Nodup ∧
      (∀ p, p ∈ log ↔ NewlyRevealed g.board g'.board p) ∧
      log.length ≤ countCells (fun x => !x.isRevealed) g.board ∧
      countCells (fun x => !x.isRevealed) g.board ≤ g.difficulty.rows * g.difficulty.cols := by
  obtain ⟨g', hg', R⟩ := revealCell_reveals hw hr hc
  have hlog : ∃ log, revealCellLog (g.difficulty.rows * g.difficulty.cols + 1) g row col
      = some (g', log) := by
    have h := revealCellLog_fst (g.difficulty.rows * g.difficulty.cols + 1) g row col
    have hg'' : revealCellFuel (g.difficulty.rows * g.difficulty.cols + 1) g row col = some g' :=
      hg'
    rw [hg'', Option.map_eq_some'] at h
    obtain ⟨⟨ga, log⟩, h1, h2⟩ := h
    simp only at h2
    subst h2
    exact ⟨log, h1⟩
  obtain ⟨log, hlog⟩ := hlog
  obtain ⟨hn, hmem⟩ := revealCellLog_spec _ g row col g' log hw hr hc hlog
  refine ⟨g', log, hg', fun fuel hle => revealCellFuel_of_le hle hg', hlog, hn, hmem, ?_, ?_⟩
  · rw [← hiddenCells_eq_countCells hw]
    unfold hiddenCells
    rw [List.countP_eq_length_filter]
    apply (hn.subperm ?_).length_le
    intro p hp
    obtain ⟨h1, h2⟩ := (hmem p).1 hp
    rw [List.mem_filter, mem_gridCells]
    refine ⟨?_, by simp [h1]⟩
    by_contra hout
    have hd' : Dims g.difficulty.rows g.difficulty.cols g'.board := by
      have := R.wellFormed
      unfold WellFormed at this
      rw [R.difficulty] at this
      exact this
    rw [getCell_default_of_not_lt hd' hout] at h2
    exact absurd h2 (by simp [default, Cell.fresh])
  · rw [← hiddenCells_eq_countCells hw]
    exact hiddenCells_le g

/-- Witness for C16: the flood fill from `(2, 2)` on the 3 x 3 board with its
mine at `(0, 0)`. -/
theorem revealCell_terminates_witness :
    (WellFormed tinyPlaced ∧ 2 < tinyPlaced.difficulty.rows ∧ 2 < tinyPlaced.difficulty.cols) ∧
    ∃ (g' : Game) (log : List (Nat × Nat)),
      revealCell tinyPlaced 2 2 = some g' ∧
      (∀ fuel, tinyPlaced.difficulty.rows * tinyPlaced.difficulty.cols + 1 ≤ fuel →
        revealCellFuel fuel tinyPlaced 2 2 = some g') ∧
      revealCellLog (tinyPlaced.difficulty.rows * tinyPlaced.difficulty.cols + 1) tinyPlaced 2 2
        = some (g', log) ∧
      log.Nodup ∧
      (∀ p, p ∈ log ↔ NewlyRevealed tinyPlaced.board g'.board p) ∧
      log.length ≤ countCells (fun x => !x.isRevealed) tinyPlaced.board ∧
      countCells (fun x => !x.isRevealed) tinyPlaced.board
        ≤ tinyPlaced.difficulty.rows * tinyPlaced.difficulty.cols :=
  ⟨⟨by decide, by decide, by decide⟩,
    revealCell_terminates tinyPlaced 2 2 (by decide) (by decide) (by decide)⟩

/-- C17. In every reachable state, when a left click on an in-bounds cell
returns and the clicked cell is no mine, no mine cell went from hidden to
revealed during the click and a game that was not lost is not lost
afterwards.  A click in the ready state, the first reveal of a session or a
click on a flagged cell, never hits a mine and never leaves the game lost. -/
theorem safe_click_never_loses (g g' : Game) (draws : List (Nat × Nat)) (row col : Nat)
    (hreach : Reachable g) (hr : row < g.difficulty.rows) (hc : col < g.difficulty.cols)
    (hdraws : DrawsInRange g.difficulty.rows g.difficulty.cols draws)
    (h : handleCellClick draws g row col = some g') :
    ((getCell g'.board row col).isMine = false →
      (∀ p : Nat × Nat, (getCell g'.board p.1 p.2).isMine = true →
        ¬ NewlyRevealed g.board g'.board p) ∧
      (g.gameState ≠ .lost → g'.gameState ≠ .lost)) ∧
    (g.gameState = .ready →
      (getCell g'.board row col).isMine = false ∧ g'.gameState ≠ .lost) := by
  have hinv := hreach.gameInv
  rcases handleCellClick_cases h with rfl | ⟨hover, hopen, g1, g2, hrev, rfl, hprep⟩
  · refine ⟨fun _ => ⟨fun p _ hp => ?_, fun hne => hne⟩, fun hready => ⟨?_, ?_⟩⟩
    · obtain ⟨h1, h2⟩ := hp
      rw [h1] at h2; exact absurd h2 (by simp)
    · rw [(hinv.session.ready hready).2 row col]; rfl
    · rw [hready]; simp
  · -- what a click gives from the prepared state `g1`
    have key : ∀ {g1 : Game}, Prepared g1 row col → revealCell g1 row col = some g2 →
        (∀ r c, (getCell g1.board r c).isRevealed = (getCell g.board r c).isRevealed) →
        ((getCell (checkWinCondition g2).board row col).isMine
            = (getCell g1.board row col).isMine) ∧
        ((getCell g1.board row col).isMine = false →
          (∀ p : Nat × Nat, (getCell (checkWinCondition g2).board p.1 p.2).isMine = true →
            ¬ NewlyRevealed g.board (checkWinCondition g2).board p) ∧
          (checkWinCondition g2).gameState ≠ .lost) := by
      intro g1 P hrev1 hsame
      obtain ⟨g2', hg2', R⟩ := revealCell_reveals P.wellFormed P.row_lt P.col_lt
      rw [hrev1] at hg2'
      simp only [Option.some.injEq] at hg2'
      subst hg2'
      have hcell : ∀ r c, (getCell (checkWinCondition g2).board r c).isMine
            = (getCell g1.board r c).isMine ∧
          (getCell (checkWinCondition g2).board r c).isRevealed
            = (getCell g2.board r c).isRevealed := fun r c =>
        ⟨(checkWinCondition_cells R.wellFormed r c).1.trans (cells_fields R.cells r c).1,
          (checkWinCondition_cells R.wellFormed r c).2⟩
      refine ⟨(hcell row col).1, fun hm => ?_⟩
      obtain ⟨-, hsafe, -, hgs, -⟩ := gameInv_safe_click P hm hrev1
      refine ⟨fun p hpm hnew => ?_, ?_⟩
      · rw [(hcell p.1 p.2).1] at hpm
        have := hsafe p ⟨(hsame _ _).trans hnew.1, (hcell p.1 p.2).2 ▸ hnew.2⟩
        rw [hpm] at this
        exact absurd this (by simp)
      · rcases hgs with e | e <;> rw [e] <;> simp
    rcases hprep with ⟨hfc, rfl⟩ | ⟨hfc, gp, hgp, rfl⟩
    · have hplaying := (hinv.gameState_of_firstClick hover).1 hfc
      obtain ⟨k1, k2⟩ := key (prepared_playing hinv hr hc hplaying hopen) hrev (fun _ _ => rfl)
      refine ⟨fun hm => ?_, fun hready => ?_⟩
      · rw [k1] at hm
        exact ⟨(k2 hm).1, fun _ => (k2 hm).2⟩
      · rw [hplaying] at hready; exact absurd hready (by simp)
    · have hready := (hinv.gameState_of_firstClick hover).2 hfc
      obtain ⟨P, hm1, -, hsame⟩ := prepared_firstClick hinv hr hc hready hopen hdraws hgp
      obtain ⟨k1, k2⟩ := key P hrev hsame
      refine ⟨fun _ => ⟨(k2 hm1).1, fun _ => (k2 hm1).2⟩, fun _ => ⟨?_, (k2 hm1).2⟩⟩
      rw [k1]; exact hm1

/-- Witness for C17: a second click, on the safe cell `(0, 0)`, of the 3 x 3
game with the mine at the centre. -/
theorem safe_click_never_loses_witness :
    (Reachable tinyCentre ∧ 0 < tinyCentre.difficulty.rows ∧ 0 < tinyCentre.difficulty.cols ∧
      DrawsInRange tinyCentre.difficulty.rows tinyCentre.difficulty.cols [] ∧
      handleCellClick [] tinyCentre 0 0 = some tinySecond) ∧
    (((getCell tinySecond.board 0 0).isMine = false →
      (∀ p : Nat × Nat, (getCell tinySecond.board p.1 p.2).isMine = true →
        ¬ NewlyRevealed tinyCentre.board tinySecond.board p) ∧
      (tinyCentre.gameState ≠ .lost → tinySecond.gameState ≠ .lost)) ∧
    (tinyCentre.gameState = .ready →
      (getCell tinySecond.board 0 0).isMine = false ∧ tinySecond.gameState ≠ .lost)) :=
  ⟨⟨Reachable.leftClick [(1, 1)] 2 2 (Reachable.init tiny) (by decide) (by decide) (by decide)
      (by decide), by decide, by decide, by decide, by decide⟩,
    safe_click_never_loses tinyCentre tinySecond [] 0 0
      (Reachable.leftClick [(1, 1)] 2 2 (Reachable.init tiny) (by decide) (by decide) (by decide)
        (by decide))
      (by decide) (by decide) (by decide) (by decide)⟩

/-- C18. In every reachable state (left clicks, right clicks, new-game requests
and timer ticks) `flagsPlaced` equals the number of cells of the board with
`isFlagged = true`, and so is not negative. -/
theorem reachable_flagsPlaced (g : Game) (h : Reachable g) :
    g.flagsPlaced = (countCells (fun x => x.isFlagged) g.board : Int) ∧ 0 ≤ g.flagsPlaced := by
  have hinv := h.gameInv
  have e : g.flagsPlaced = (countCells (fun x => x.isFlagged) g.board : Int) := by
    rw [← flaggedCells_eq_countCells hinv.session.wellFormed]
    exact hinv.flags
  exact ⟨e, by rw [e]; exact Int.natCast_nonneg _⟩

/-- Witness for C18: the won 3 x 3 game, one flag placed by `gameWon`. -/
theorem reachable_flagsPlaced_witness :
    Reachable tinyWon ∧
    (tinyWon.flagsPlaced = (countCells (fun x => x.isFlagged) tinyWon.board : Int) ∧
      0 ≤ tinyWon.flagsPlaced) :=
  ⟨Reachable.leftClick [(0, 0)] 2 2 (Reachable.init tiny) (by decide) (by decide) (by decide)
      (by decide),
    reachable_flagsPlaced tinyWon
      (Reachable.leftClick [(0, 0)] 2 2 (Reachable.init tiny) (by decide) (by decide) (by decide)
        (by decide))⟩

/-- C19. For an in-bounds excluded cell: when `mines < rows * cols`, every
board of the grid's dimensions with fewer than `mines` mines has an eligible
cell (in bounds, not the excluded cell, no mine), and on a fresh board the
loop of `placeMines` finishes on a prefix of every sequence of in-range draws
that draws each cell at some point; the difficulties easy, medium and hard
all have `mines < rows * cols`; and when `mines >= rows * cols` the loop
finishes on no list of in-range draws. -/
theorem placeMines_terminates (g : Game) (fr fc : Nat) (hfr : fr < g.difficulty.rows)
    (hfc : fc < g.difficulty.cols) :
    (g.difficulty.mines < g.difficulty.rows * g.difficulty.cols →
      (∀ b : Board, Dims g.difficulty.rows g.difficulty.cols b →
        countCells (fun x => x.isMine) b < g.difficulty.mines →
        ∃ r c, r < g.difficulty.rows ∧ c < g.difficulty.cols ∧ ¬ (r = fr ∧ c = fc) ∧
          (getCell b r c).isMine = false) ∧
      (∀ s : Nat → Nat × Nat,
        (∀ n, (s n).1 < g.difficulty.rows ∧ (s n).2 < g.difficulty.cols) →
        (∀ r < g.difficulty.rows, ∀ c < g.difficulty.cols, ∃ n, s n = (r, c)) →
        ∃ N g', placeMines ((List.range N).map s) (createBoard g) fr fc = some g')) ∧
    (∀ name : DifficultyName,
      (difficulties name).mines < (difficulties name).rows * (difficulties name).cols) ∧
    (g.difficulty.rows * g.difficulty.cols ≤ g.difficulty.mines →
      ∀ draws, DrawsInRange g.difficulty.rows g.difficulty.cols draws →
        placeMines draws (createBoard g) fr fc = none) := by
  have hfresh : ∀ r c, (getCell (createBoard g).board r c).isMine = false := fun r c => by
    rw [getCell_createBoard]; rfl
  refine ⟨fun hlt => ⟨fun b hd hcount => ?_, fun s hs hall => ?_⟩, fun name => ?_,
    fun hge draws hdraws => ?_⟩
  · rw [← countP_grid_eq_countCells hd (fun x => x.isMine)] at hcount
    exact exists_eligible hlt hfr hfc b hcount
  · obtain ⟨N, hN⟩ := exists_prefix_covering s (gridCells g.difficulty.rows g.difficulty.cols)
      (fun q hq => by
        obtain ⟨h1, h2⟩ := mem_gridCells.1 hq
        exact hall q.1 h1 q.2 h2)
    have hdraws : DrawsInRange g.difficulty.rows g.difficulty.cols ((List.range N).map s) := by
      intro d hd
      obtain ⟨n, -, rfl⟩ := List.mem_map.1 hd
      exact hs n
    obtain ⟨b', hb'⟩ := placeMinesLoop_finishes hlt hfr hfc _ hdraws hN (dims_createBoard g)
      hfresh
    refine ⟨N, calculateNeighborCounts { createBoard g with board := b' }, ?_⟩
    unfold placeMines
    have e : (createBoard g).difficulty = g.difficulty := rfl
    rw [e, hb']
    rfl
  · cases name <;> decide
  · unfold placeMines
    have e : (createBoard g).difficulty = g.difficulty := rfl
    rw [e, placeMinesLoop_none hfr hfc hge draws hdraws (dims_createBoard g)
      (List.countP_eq_zero.2 fun q _ => by simp [hfresh]) (hfresh fr fc)]
    rfl

/-- Witness for C19: the 3 x 3 difficulty with the cell `(2, 2)` excluded. -/
theorem placeMines_terminates_witness :
    (2 < (newGame tiny).difficulty.rows ∧ 2 < (newGame tiny).difficulty.cols) ∧
    (((newGame tiny).difficulty.mines
        < (newGame tiny).difficulty.rows * (newGame tiny).difficulty.cols →
      (∀ b : Board, Dims (newGame tiny).difficulty.rows (newGame tiny).difficulty.cols b →
        countCells (fun x => x.isMine) b < (newGame tiny).difficulty.mines →
        ∃ r c, r < (newGame tiny).difficulty.rows ∧ c < (newGame tiny).difficulty.cols ∧
          ¬ (r = 2 ∧ c = 2) ∧ (getCell b r c).isMine = false) ∧
      (∀ s : Nat → Nat × Nat,
        (∀ n, (s n).1 < (newGame tiny).difficulty.rows ∧
          (s n).2 < (newGame tiny).difficulty.cols) →
        (∀ r < (newGame tiny).difficulty.rows, ∀ c < (newGame tiny).difficulty.cols,
          ∃ n, s n = (r, c)) →
        ∃ N g', placeMines ((List.range N).map s) (createBoard (newGame tiny)) 2 2 = some g')) ∧
    (∀ name : DifficultyName,
      (difficulties name).mines < (difficulties name).rows * (difficulties name).cols) ∧
    ((newGame tiny).difficulty.rows * (newGame tiny).difficulty.cols
        ≤ (newGame tiny).difficulty.mines →
      ∀ draws, DrawsInRange (newGame tiny).difficulty.rows (newGame tiny).difficulty.cols draws →
        placeMines draws (createBoard (newGame tiny)) 2 2 = none)) :=
  ⟨⟨by decide, by decide⟩, placeMines_terminates (newGame tiny) 2 2 (by decide) (by decide)⟩

/-- C20. In every reachable state an interval timer fires if and only if
`gameState = playing`, and then it is the one interval whose handle the game
holds; a tick changes nothing in a ready, won or lost session, and a tick of
a firing interval adds exactly 1 to `timer` and changes nothing else. -/
theorem reachable_timer (g : Game) (h : Reachable g) :
    (g.activeIntervals ≠ [] ↔ g.gameState = .playing) ∧
    (g.gameState = .playing → ∃ t, g.timerInterval = some t ∧ g.activeIntervals = [t]) ∧
    (g.gameState ≠ .playing → ∀ t, tick g t = g) ∧
    (∀ t, t ∈ g.activeIntervals → tick g t = { g with timer := g.timer + 1 }) ∧
    (∀ t, t ∉ g.activeIntervals → tick g t = g) := by
  have hinv := h.gameInv
  refine ⟨⟨fun hne => ?_, fun hp => ?_⟩, hinv.timerOn, fun hnp t => ?_, fun t ht => ?_,
    fun t ht => ?_⟩
  · by_contra hnp
    exact hne (hinv.timerOff hnp)
  · obtain ⟨t, -, ha⟩ := hinv.timerOn hp
    rw [ha]; simp
  · unfold tick
    rw [hinv.timerOff hnp]
    simp
  · unfold tick
    rw [if_pos ht]
  · unfold tick
    rw [if_neg ht]

/-- Witness for C20: the 3 x 3 game in play after its first click. -/
theorem reachable_timer_witness :
    Reachable tinyCentre ∧
    ((tinyCentre.activeIntervals ≠ [] ↔ tinyCentre.gameState = .playing) ∧
    (tinyCentre.gameState = .playing →
      ∃ t, tinyCentre.timerInterval = some t ∧ tinyCentre.activeIntervals = [t]) ∧
    (tinyCentre.gameState ≠ .playing → ∀ t, tick tinyCentre t = tinyCentre) ∧
    (∀ t, t ∈ tinyCentre.activeIntervals →
      tick tinyCentre t = { tinyCentre with timer := tinyCentre.timer + 1 }) ∧
    (∀ t, t ∉ tinyCentre.activeIntervals → tick tinyCentre t = tinyCentre)) :=
  ⟨Reachable.leftClick [(1, 1)] 2 2 (Reachable.init tiny) (by decide) (by decide) (by decide)
      (by decide),
    reachable_timer tinyCentre
      (Reachable.leftClick [(1, 1)] 2 2 (Reachable.init tiny) (by decide) (by decide) (by decide)
        (by decide))⟩

end Minesweeper
